import Mathlib

/-!
# Reed-Solomon decoder over GF(2^8): embedding of the Go package `reedSolomon`

The Go package keeps two global lookup tables (`exponents`, `logs`) and the first consecutive
root `fcr`; they are passed here explicitly as a `Tables` value.  Go's `int` is modelled by `Int`
with an explicit 64-bit wrap-around where the source does arithmetic on unbounded operands, Go
slices by `List Int`, and a run-time panic (index or slice out of range, negative `make`) by the
error side of `Except Panic`.  A Go `error` result is an `Option RSError` next to the values.
-/

namespace ReedSolomon

/-! ## Data model -/

/-- Run-time panics of the Go program: the call aborts instead of returning. -/
inductive Panic where
  | indexOutOfRange
  | sliceOutOfRange
  | negativeLength
  deriving DecidableEq, Repr

/-- The `error` values built by the package. -/
inductive RSError where
  | messageTooLong (len : Nat)
  | tooManyErasures
  | tooManyErrors (score nsym errs erasures : Int)
  | chienMismatch
  | noErrorPositions
  | couldNotCorrect
  | zeroDivision
  deriving DecidableEq, Repr

/-- The text carried by each `error` value (`fmt.Errorf` / `errors.New` in the source). -/
def RSError.text : RSError → String
  | .messageTooLong len =>
      "Message is too long (" ++ toString len ++ " when max is 255)"
  | .tooManyErasures => "Too many erasures to correct"
  | .tooManyErrors score nsym errs erasures =>
      "Too many errors to correct: " ++ toString score ++ " of max " ++ toString nsym ++
        " (Found at least " ++ toString errs ++ " errors and " ++ toString erasures ++ " erasures)"
  | .chienMismatch =>
      "too many (or few) errors found by Chien Search for the errata locator polynomial"
  | .noErrorPositions => "Could not calculate error positions"
  | .couldNotCorrect => "Could not correct message"
  | .zeroDivision => "Zero Division Error"

/-- The package-level variables `exponents [510]int`, `logs [256]int` and `fcr int`. -/
structure Tables where
  exponents : List Int
  logs : List Int
  fcr : Int
  deriving DecidableEq, Repr

/-- The package-level variables at program start (Go zero values). -/
def Tables.zero : Tables := ⟨List.replicate 510 0, List.replicate 256 0, 0⟩

/-- Two-complement wrap-around of Go's 64-bit `int`. -/
def wrap64 (z : Int) : Int :=
  (z + 9223372036854775808) % 18446744073709551616 - 9223372036854775808

/-- Read `xs[i]`; panics when `i` is out of range. -/
def index (xs : List Int) (i : Int) : Except Panic Int :=
  if 0 ≤ i ∧ i < xs.length then .ok (xs.getD i.toNat 0) else .error .indexOutOfRange

/-- Write `xs[i] = v`; panics when `i` is out of range. -/
def store (xs : List Int) (i v : Int) : Except Panic (List Int) :=
  if 0 ≤ i ∧ i < xs.length then .ok (xs.set i.toNat v) else .error .indexOutOfRange

/-- Split `xs` into `xs[:m]` and `xs[m:]`; panics when `m` is outside `[0, len(xs)]`. -/
def splitAt (xs : List Int) (m : Int) : Except Panic (List Int × List Int) :=
  if 0 ≤ m ∧ m ≤ xs.length then .ok (xs.take m.toNat, xs.drop m.toNat)
  else .error .sliceOutOfRange

/-- Allocate `make([]int, n)`; panics when `n` is negative. -/
def makeZeros (n : Int) : Except Panic (List Int) :=
  if 0 ≤ n then .ok (List.replicate n.toNat 0) else .error .negativeLength

/-- Modelled from the spec: sliceIntReverse is called by `Decode` and `correctErrors` but its body
is not among the source files; the spec runs the root finder "on the reversed locator", so it
returns the slice in reverse order. -/
def sliceIntReverse (xs : List Int) : List Int := xs.reverse

/-! ## Field tables (`InitGaloisFields`) -/

/-- The doubling walk of `InitGaloisFields`: `n` iterations left, loop counter `i`, value `x`. -/
def initLoop (prim : Int) : Nat → Int → Int → List Int → List Int →
    Except Panic (List Int × List Int)
  | 0, _, _, ex, lg => .ok (ex, lg)
  | n + 1, i, x, ex, lg => do
    let ex1 ← store ex i x
    let lg1 ← store lg x i
    let x1 := wrap64 (x * 2)
    let x2 := if Int.land x1 256 ≠ 0 then Int.xor x1 prim else x1
    initLoop prim n (i + 1) x2 ex1 lg1

/-- The update of `x` at the end of the loop body of `InitGaloisFields`:
`x <<= 1; if x&0x100 != 0 { x ^= prim }`. -/
def nextWalk (prim x : Int) : Int :=
  let x1 := wrap64 (x * 2)
  if Int.land x1 256 ≠ 0 then Int.xor x1 prim else x1

/-- Go `InitGaloisFields(prim, firstConsecutiveRoot)`, run on the current package variables `s`:
the new package variables and the returned `error` (always nil). -/
def InitGaloisFields (s : Tables) (prim firstConsecutiveRoot : Int) :
    Except Panic (Tables × Option RSError) := do
  let (ex, lg) ← initLoop prim 255 0 1 s.exponents s.logs
  let ex2 := ex.take 255 ++ (ex.take 255 ++ ex.drop 510)
  pure (⟨ex2, lg, firstConsecutiveRoot⟩, none)

/-! ## Single value manipulations (`manipulations.go`) -/

/-- Go `gfAddition`. -/
def gfAddition (x y : Int) : Int := Int.xor x y

/-- Go `gfSubtraction`. -/
def gfSubtraction (x y : Int) : Int := gfAddition x y

/-- Go `gfMultiplication`. -/
def gfMultiplication (G : Tables) (x y : Int) : Except Panic Int :=
  if x = 0 ∨ y = 0 then .ok 0
  else do
    let lx ← index G.logs x
    let ly ← index G.logs y
    index G.exponents (wrap64 (lx + ly))

/-- Go `gfDivision`: the value and the returned `error`. -/
def gfDivision (G : Tables) (x y : Int) : Except Panic (Int × Option RSError) :=
  if y = 0 then .ok (-1, some .zeroDivision)
  else if x = 0 then .ok (0, none)
  else do
    let lx ← index G.logs x
    let ly ← index G.logs y
    let v ← index G.exponents (Int.tmod (wrap64 (wrap64 (lx + 255) - ly)) 255)
    pure (v, none)

/-- Go `gfPower`. -/
def gfPower (G : Tables) (x power : Int) : Except Panic Int := do
  let lx ← index G.logs x
  let ind := Int.tmod (wrap64 (lx * power)) 255
  if ind ≥ 0 then index G.exponents ind
  else index G.exponents (G.exponents.length + ind)

/-- Go `gfInverse`. -/
def gfInverse (G : Tables) (x : Int) : Except Panic Int := do
  let lx ← index G.logs x
  index G.exponents (wrap64 (255 - lx))

/-! ## Polynomial manipulations (`manipulations.go`) -/

/-- Go `gfPolynomialScale`. -/
def gfPolynomialScale (G : Tables) (p : List Int) (x : Int) : Except Panic (List Int) :=
  p.mapM (fun c => gfMultiplication G c x)

/-- Inner loop of `gfPolynomialDivision` over `j`, at outer position `i`. -/
def divInner (G : Tables) (coef : Int) (i : Nat) :
    List Int → Nat → List Int → Except Panic (List Int)
  | [], _, out => .ok out
  | d :: ds, j, out =>
    if d ≠ 0 then do
      let m ← gfMultiplication G d coef
      let old ← index out (i + j : Nat)
      let out1 ← store out (i + j : Nat) (Int.xor old m)
      divInner G coef i ds (j + 1) out1
    else divInner G coef i ds (j + 1) out

/-- Outer loop of `gfPolynomialDivision`: `n` iterations left, at position `i`. -/
def divOuter (G : Tables) (divisor : List Int) : Nat → Nat → List Int → Except Panic (List Int)
  | 0, _, out => .ok out
  | n + 1, i, out => do
    let coef ← index out i
    if coef ≠ 0 then do
      let out1 ← divInner G coef i (divisor.drop 1) 1 out
      divOuter G divisor n (i + 1) out1
    else divOuter G divisor n (i + 1) out

/-- Go `gfPolynomialDivision`: quotient and remainder. -/
def gfPolynomialDivision (G : Tables) (dividend divisor : List Int) :
    Except Panic (List Int × List Int) := do
  let bound : Int := (dividend.length : Int) - ((divisor.length : Int) - 1)
  let out ← divOuter G divisor bound.toNat 0 dividend
  splitAt out ((divisor.length : Int) - 1)

/-- Horner loop of `gfPolynomialEval`. -/
def evalLoop (G : Tables) (x : Int) : List Int → Int → Except Panic Int
  | [], y => .ok y
  | c :: cs, y => do
    let m ← gfMultiplication G y x
    evalLoop G x cs (Int.xor m c)

/-- Go `gfPolynomialEval`. -/
def gfPolynomialEval (G : Tables) (poly : List Int) (x : Int) : Except Panic Int :=
  match poly with
  | [] => .error .indexOutOfRange
  | y :: cs => evalLoop G x cs y

/-- Inner loop of `gfPolynomialMultiplication` over the coefficients of `p`, for `q[j]`. -/
def mulInner (G : Tables) (qj : Int) (j : Nat) :
    List Int → Nat → List Int → Except Panic (List Int)
  | [], _, r => .ok r
  | c :: cs, i, r => do
    let m ← gfMultiplication G c qj
    let old ← index r (i + j : Nat)
    let r1 ← store r (i + j : Nat) (Int.xor old m)
    mulInner G qj j cs (i + 1) r1

/-- Outer loop of `gfPolynomialMultiplication` over the coefficients of `q`. -/
def mulOuter (G : Tables) (p : List Int) : List Int → Nat → List Int → Except Panic (List Int)
  | [], _, r => .ok r
  | qj :: qs, j, r => do
    let r1 ← mulInner G qj j p 0 r
    mulOuter G p qs (j + 1) r1

/-- Go `gfPolynomialMultiplication`. -/
def gfPolynomialMultiplication (G : Tables) (p q : List Int) : Except Panic (List Int) := do
  let r ← makeZeros ((p.length : Int) + (q.length : Int) - 1)
  mulOuter G p q 0 r

/-- Go `gfPolynomialAddition`: both operands are right-aligned in the result. -/
def gfPolynomialAddition (p q : List Int) : List Int :=
  let n := if p.length > q.length then p.length else q.length
  let r := List.replicate (n - p.length) 0 ++ p
  r.take (n - q.length) ++ List.zipWith Int.xor (r.drop (n - q.length)) q

/-! ## Decoding (`decode.go`) -/

/-- Loop of `calculateSyndromes`: `n` syndromes left, loop counter `i`. -/
def syndLoop (G : Tables) (msg : List Int) : Nat → Int → Except Panic (List Int)
  | 0, _ => .ok []
  | n + 1, i => do
    let x ← gfPower G 2 (wrap64 (i + G.fcr))
    let v ← gfPolynomialEval G msg x
    let rest ← syndLoop G msg n (i + 1)
    pure (v :: rest)

/-- Go `calculateSyndromes`: the `nsym` evaluations with a zero coefficient prepended. -/
def calculateSyndromes (G : Tables) (msg : List Int) (nsym : Int) : Except Panic (List Int) := do
  let _ ← makeZeros nsym
  let synd ← syndLoop G msg nsym.toNat 0
  pure (0 :: synd)

/-- Go `isSyndromeClean`. -/
def isSyndromeClean : List Int → Bool
  | [] => true
  | v :: vs => if v > 0 then false else isSyndromeClean vs

/-- Loop of `calcErrorLocatorPolynomial`. -/
def locatorLoop (G : Tables) : List Int → List Int → Except Panic (List Int)
  | [], loc => .ok loc
  | p :: ps, loc => do
    let x ← gfPower G 2 p
    let loc1 ← gfPolynomialMultiplication G loc (gfPolynomialAddition [1] [x, 0])
    locatorLoop G ps loc1

/-- Go `calcErrorLocatorPolynomial`. -/
def calcErrorLocatorPolynomial (G : Tables) (errorPositions : List Int) :
    Except Panic (List Int) :=
  locatorLoop G errorPositions [1]

/-- Go `calcErrorPolynomial`. -/
def calcErrorPolynomial (G : Tables) (synd errorLocatorPolynomial : List Int) (nsym : Int) :
    Except Panic (List Int) := do
  let zs ← makeZeros (wrap64 (nsym + 1))
  let placeholder := 1 :: zs
  let prod ← gfPolynomialMultiplication G synd errorLocatorPolynomial
  let (_, remainder) ← gfPolynomialDivision G prod placeholder
  pure remainder

/-- Discrepancy loop of `unknownErrorLocator` over `j`: `n` terms left. -/
def deltaLoop (G : Tables) (errLoc synd : List Int) (K : Int) :
    Nat → Int → Int → Except Panic Int
  | 0, _, delta => .ok delta
  | n + 1, j, delta => do
    let a ← index errLoc ((errLoc.length : Int) - (j + 1))
    let b ← index synd (K - j)
    let m ← gfMultiplication G a b
    deltaLoop G errLoc synd K n (j + 1) (Int.xor delta m)

/-- Main loop of `unknownErrorLocator` (Berlekamp-Massey): `n` iterations left, counter `i`. -/
def bmLoop (G : Tables) (synd erasureLoc : List Int) (erasureCount syndShift : Int) :
    Nat → Int → List Int → List Int → Except Panic (List Int)
  | 0, _, errLoc, _ => .ok errLoc
  | n + 1, i, errLoc, oldLoc => do
    let K : Int :=
      if erasureLoc.length > 0 then wrap64 (wrap64 (erasureCount + i) + syndShift)
      else wrap64 (i + syndShift)
    let d0 ← index synd K
    let delta ← deltaLoop G errLoc synd K (errLoc.length - 1) 1 d0
    let oldLoc1 := oldLoc ++ [0]
    if delta ≠ 0 then
      if oldLoc1.length > errLoc.length then do
        let newLoc ← gfPolynomialScale G oldLoc1 delta
        let inv ← gfInverse G delta
        let oldLoc2 ← gfPolynomialScale G errLoc inv
        let upd ← gfPolynomialScale G oldLoc2 delta
        bmLoop G synd erasureLoc erasureCount syndShift n (i + 1)
          (gfPolynomialAddition newLoc upd) oldLoc2
      else do
        let upd ← gfPolynomialScale G oldLoc1 delta
        bmLoop G synd erasureLoc erasureCount syndShift n (i + 1)
          (gfPolynomialAddition errLoc upd) oldLoc1
    else bmLoop G synd erasureLoc erasureCount syndShift n (i + 1) errLoc oldLoc1

/-- Go `unknownErrorLocator`: the locator and the returned `error`. -/
def unknownErrorLocator (G : Tables) (synd erasureLoc : List Int) (nsym erasureCount : Int) :
    Except Panic (List Int × Option RSError) := do
  let start : List Int := if erasureLoc.length > 0 then erasureLoc else [1]
  let syndShift : Int := if (synd.length : Int) > nsym then wrap64 (synd.length - nsym) else 0
  let errLoc0 ← bmLoop G synd erasureLoc erasureCount syndShift
    (wrap64 (nsym - erasureCount)).toNat 0 start start
  let errLoc := errLoc0.dropWhile (fun c => c == 0)
  let errs : Int := (errLoc.length : Int) - 1
  if wrap64 ((errs - erasureLoc.length) * 2 + wrap64 (erasureCount - erasureLoc.length)) > nsym
  then pure ([], some (.tooManyErrors (wrap64 (errs * 2 + erasureCount)) nsym errs erasureCount))
  else pure (errLoc, none)

/-- Loop of `findErrors`: `n` candidate exponents left, counter `i`. -/
def chienLoop (G : Tables) (errLoc : List Int) (msgLen : Int) :
    Nat → Int → List Int → Except Panic (List Int)
  | 0, _, errPos => .ok errPos
  | n + 1, i, errPos => do
    let x ← gfPower G 2 i
    let v ← gfPolynomialEval G errLoc x
    if v = 0 then chienLoop G errLoc msgLen n (i + 1) (errPos ++ [msgLen - 1 - i])
    else chienLoop G errLoc msgLen n (i + 1) errPos

/-- Go `findErrors`: the error positions and the returned `error`. -/
def findErrors (G : Tables) (errLoc : List Int) (msgLen : Int) :
    Except Panic (List Int × Option RSError) := do
  let errs : Int := (errLoc.length : Int) - 1
  let errPos ← chienLoop G errLoc msgLen msgLen.toNat 0 []
  if (errPos.length : Int) ≠ errs then pure ([], some .chienMismatch)
  else pure (errPos, none)

/-- One pass of the inner loop of `calcForneySyndromes` for the location element `x`. -/
def forneyPass (G : Tables) (x : Int) : List Int → Except Panic (List Int)
  | a :: b :: rest => do
    let m ← gfMultiplication G a x
    let tl ← forneyPass G x (b :: rest)
    pure (Int.xor m b :: tl)
  | l => .ok l

/-- Outer loop of `calcForneySyndromes` over the erasure degrees. -/
def forneySyndLoop (G : Tables) : List Int → List Int → Except Panic (List Int)
  | [], fsynd => .ok fsynd
  | d :: ds, fsynd => do
    let x ← gfPower G 2 d
    let fsynd1 ← forneyPass G x fsynd
    forneySyndLoop G ds fsynd1

/-- Go `calcForneySyndromes`. -/
def calcForneySyndromes (G : Tables) (synd pos : List Int) (msgLen : Int) :
    Except Panic (List Int) := do
  let erasePosReversed := pos.map (fun p => wrap64 (wrap64 (msgLen - 1) - p))
  let _ ← makeZeros ((synd.length : Int) - 1)
  forneySyndLoop G erasePosReversed (synd.drop 1)

/-! ## Forney algorithm (`algorithms.go`) -/

/-- The factors `1 - X_j * X_i^{-1}` for `j ≠ i` collected by `forney`. -/
def primeFactors (G : Tables) (locationInverse : Int) (i : Nat) :
    List Int → Nat → Except Panic (List Int)
  | [], _ => .ok []
  | xj :: xs, j =>
    if j ≠ i then do
      let m ← gfMultiplication G locationInverse xj
      let tl ← primeFactors G locationInverse i xs (j + 1)
      pure (gfSubtraction 1 m :: tl)
    else primeFactors G locationInverse i xs (j + 1)

/-- The product loop of `forney` giving the denominator. -/
def primeProduct (G : Tables) : List Int → Int → Except Panic Int
  | [], acc => .ok acc
  | c :: cs, acc => do
    let acc1 ← gfMultiplication G acc c
    primeProduct G cs acc1

/-- Main loop of `forney` over the locations; the error of `gfDivision` is discarded. -/
def forneyLoop (G : Tables) (errorPolynomial locationPolynomial errPos : List Int) (fcr : Int) :
    List Int → Nat → List Int → Except Panic (List Int)
  | [], _, E => .ok E
  | location :: rest, i, E => do
    let locationInverse ← gfInverse G location
    let temp ← primeFactors G locationInverse i locationPolynomial 0
    let errorLocatorPrime ← primeProduct G temp 1
    let y0 ← gfPolynomialEval G errorPolynomial locationInverse
    let pw ← gfPower G location (wrap64 (1 - fcr))
    let y ← gfMultiplication G pw y0
    let (magnitude, _) ← gfDivision G y errorLocatorPrime
    let pos ← index errPos i
    let E1 ← store E pos magnitude
    forneyLoop G errorPolynomial locationPolynomial errPos fcr rest (i + 1) E1

/-- Go `forney`. -/
def forney (G : Tables) (msgIn errorPolynomial locationPolynomial errPos : List Int) (fcr : Int) :
    Except Panic (List Int) :=
  forneyLoop G errorPolynomial locationPolynomial errPos fcr locationPolynomial 0
    (List.replicate msgIn.length 0)

/-- Second loop of `correctErrors`: the location elements `2^(-(255 - c))`. -/
def locationLoop (G : Tables) : List Int → Except Panic (List Int)
  | [] => .ok []
  | c :: cs => do
    let l := wrap64 (255 - c)
    let x ← gfPower G 2 (wrap64 (-l))
    let tl ← locationLoop G cs
    pure (x :: tl)

/-- Go `correctErrors`. -/
def correctErrors (G : Tables) (msgIn synd errPos : List Int) : Except Panic (List Int) := do
  let coefPos := errPos.map (fun p => wrap64 (((msgIn.length : Int) - 1) - p))
  let errorLocatorPolynomial ← calcErrorLocatorPolynomial G coefPos
  let errorPolynomial ← calcErrorPolynomial G (sliceIntReverse synd) errorLocatorPolynomial
    ((errorLocatorPolynomial.length : Int) - 1)
  let locationPolynomial ← locationLoop G coefPos
  let E ← forney G msgIn errorPolynomial locationPolynomial errPos G.fcr
  pure (gfPolynomialAddition msgIn E)

/-- The loop of `Decode` that sets the erased symbols to zero. -/
def zeroErasures : List Int → List Int → Except Panic (List Int)
  | [], msg => .ok msg
  | ePos :: rest, msg => do
    let msg1 ← store msg ePos 0
    zeroErasures rest msg1

/-- Go `Decode`: the message, the ecc block and the returned `error`. -/
def Decode (G : Tables) (msg : List Int) (numberEccSymbols : Int) (erasedIndices : List Int) :
    Except Panic (List Int × List Int × Option RSError) :=
  if msg.length > 255 then .ok ([], [], some (.messageTooLong msg.length))
  else do
    let msgOut ← zeroErasures erasedIndices msg
    if (erasedIndices.length : Int) > numberEccSymbols then
      pure ([], [], some .tooManyErasures)
    else do
      let synd ← calculateSyndromes G msgOut numberEccSymbols
      if isSyndromeClean synd then do
        let (m, e) ← splitAt msgOut ((msgOut.length : Int) - numberEccSymbols)
        pure (m, e, none)
      else do
        let fsynd ← calcForneySyndromes G synd erasedIndices msgOut.length
        let (errLoc, err) ← unknownErrorLocator G fsynd [] numberEccSymbols erasedIndices.length
        if err ≠ none then pure ([], [], err)
        else do
          let (errPos, err1) ← findErrors G (sliceIntReverse errLoc) msgOut.length
          if err1 ≠ none then pure ([], [], err1)
          else if errPos.length = 0 ∧ erasedIndices.length = 0 then
            pure ([], [], some .noErrorPositions)
          else do
            let msgOut1 ← correctErrors G msgOut synd (erasedIndices ++ errPos)
            let synd1 ← calculateSyndromes G msgOut1 numberEccSymbols
            if !isSyndromeClean synd1 then pure ([], [], some .couldNotCorrect)
            else do
              let (m, e) ← splitAt msgOut1 ((msgOut1.length : Int) - numberEccSymbols)
              pure (m, e, none)

/-! ## The field used by the tests: `InitGaloisFields(301, 1)` -/

deriving instance DecidableEq for Except

/-- The package variables after `InitGaloisFields(301, 1)` at program start, written out
(`init_301` below shows that this is what the function computes). -/
def field301 : Tables :=
  ⟨[1, 2, 4, 8, 16, 32, 64, 128, 45, 90, 180, 69, 138, 57, 114, 228, 229, 231, 227, 235, 251,
    219, 155, 27, 54, 108, 216, 157, 23, 46, 92, 184, 93, 186, 89, 178, 73, 146, 9, 18, 36, 72, 144,
    13, 26, 52, 104, 208, 141, 55, 110, 220, 149, 7, 14, 28, 56, 112, 224, 237, 247, 195, 171, 123,
    246, 193, 175, 115, 230, 225, 239, 243, 203, 187, 91, 182, 65, 130, 41, 82, 164, 101, 202, 185,
    95, 190, 81, 162, 105, 210, 137, 63, 126, 252, 213, 135, 35, 70, 140, 53, 106, 212, 133, 39, 78,
    156, 21, 42, 84, 168, 125, 250, 217, 159, 19, 38, 76, 152, 29, 58, 116, 232, 253, 215, 131, 43,
    86, 172, 117, 234, 249, 223, 147, 11, 22, 44, 88, 176, 77, 154, 25, 50, 100, 200, 189, 87, 174,
    113, 226, 233, 255, 211, 139, 59, 118, 236, 245, 199, 163, 107, 214, 129, 47, 94, 188, 85, 170,
    121, 242, 201, 191, 83, 166, 97, 194, 169, 127, 254, 209, 143, 51, 102, 204, 181, 71, 142, 49,
    98, 196, 165, 103, 206, 177, 79, 158, 17, 34, 68, 136, 61, 122, 244, 197, 167, 99, 198, 161, 111,
    222, 145, 15, 30, 60, 120, 240, 205, 183, 67, 134, 33, 66, 132, 37, 74, 148, 5, 10, 20, 40, 80,
    160, 109, 218, 153, 31, 62, 124, 248, 221, 151, 3, 6, 12, 24, 48, 96, 192, 173, 119, 238, 241,
    207, 179, 75, 150, 1, 2, 4, 8, 16, 32, 64, 128, 45, 90, 180, 69, 138, 57, 114, 228, 229, 231,
    227, 235, 251, 219, 155, 27, 54, 108, 216, 157, 23, 46, 92, 184, 93, 186, 89, 178, 73, 146, 9,
    18, 36, 72, 144, 13, 26, 52, 104, 208, 141, 55, 110, 220, 149, 7, 14, 28, 56, 112, 224, 237, 247,
    195, 171, 123, 246, 193, 175, 115, 230, 225, 239, 243, 203, 187, 91, 182, 65, 130, 41, 82, 164,
    101, 202, 185, 95, 190, 81, 162, 105, 210, 137, 63, 126, 252, 213, 135, 35, 70, 140, 53, 106,
    212, 133, 39, 78, 156, 21, 42, 84, 168, 125, 250, 217, 159, 19, 38, 76, 152, 29, 58, 116, 232,
    253, 215, 131, 43, 86, 172, 117, 234, 249, 223, 147, 11, 22, 44, 88, 176, 77, 154, 25, 50, 100,
    200, 189, 87, 174, 113, 226, 233, 255, 211, 139, 59, 118, 236, 245, 199, 163, 107, 214, 129, 47,
    94, 188, 85, 170, 121, 242, 201, 191, 83, 166, 97, 194, 169, 127, 254, 209, 143, 51, 102, 204,
    181, 71, 142, 49, 98, 196, 165, 103, 206, 177, 79, 158, 17, 34, 68, 136, 61, 122, 244, 197, 167,
    99, 198, 161, 111, 222, 145, 15, 30, 60, 120, 240, 205, 183, 67, 134, 33, 66, 132, 37, 74, 148,
    5, 10, 20, 40, 80, 160, 109, 218, 153, 31, 62, 124, 248, 221, 151, 3, 6, 12, 24, 48, 96, 192,
    173, 119, 238, 241, 207, 179, 75, 150],
   [0, 0, 1, 240, 2, 225, 241, 53, 3, 38, 226, 133, 242, 43, 54, 210, 4, 195, 39, 114, 227, 106,
    134, 28, 243, 140, 44, 23, 55, 118, 211, 234, 5, 219, 196, 96, 40, 222, 115, 103, 228, 78, 107,
    125, 135, 8, 29, 162, 244, 186, 141, 180, 45, 99, 24, 49, 56, 13, 119, 153, 212, 199, 235, 91, 6,
    76, 220, 217, 197, 11, 97, 184, 41, 36, 223, 253, 116, 138, 104, 193, 229, 86, 79, 171, 108, 165,
    126, 145, 136, 34, 9, 74, 30, 32, 163, 84, 245, 173, 187, 204, 142, 81, 181, 190, 46, 88, 100,
    159, 25, 231, 50, 207, 57, 147, 14, 67, 120, 128, 154, 248, 213, 167, 200, 63, 236, 110, 92, 176,
    7, 161, 77, 124, 221, 102, 218, 95, 198, 90, 12, 152, 98, 48, 185, 179, 42, 209, 37, 132, 224,
    52, 254, 239, 117, 233, 139, 22, 105, 27, 194, 113, 230, 206, 87, 158, 80, 189, 172, 203, 109,
    175, 166, 62, 127, 247, 146, 66, 137, 192, 35, 252, 10, 183, 75, 216, 31, 83, 33, 73, 164, 144,
    85, 170, 246, 65, 174, 61, 188, 202, 205, 157, 143, 169, 82, 72, 182, 215, 191, 251, 47, 178, 89,
    151, 101, 94, 160, 123, 26, 112, 232, 21, 51, 238, 208, 131, 58, 69, 148, 18, 15, 16, 68, 17,
    121, 149, 129, 19, 155, 59, 249, 70, 214, 250, 168, 71, 201, 156, 64, 60, 237, 130, 111, 20, 93,
    122, 177, 150],
   1⟩

/-! ## The field GF(2^8) read from the tables -/

/-- Antilog table of `field301` read as a function on naturals. -/
def expT (i : Nat) : Nat := (field301.exponents.getD i 0).toNat

/-- Log table of `field301` read as a function on naturals. -/
def logT (x : Nat) : Nat := (field301.logs.getD x 0).toNat

/-- Doubling step of the table walk: shift left and reduce by 301 when bit 8 appears. -/
def dbl (y : Nat) : Nat := if y < 128 then 2 * y else (2 * y) ^^^ 301

/-- Product of two symbols as `gfMultiplication` computes it from the tables. -/
def mulN (x y : Nat) : Nat := if x = 0 ∨ y = 0 then 0 else expT (logT x + logT y)

/-- The power `2^k` of the generator, read from the antilog table. -/
def pw (k : Nat) : Nat := expT (k % 255)

/-- Inverse of a symbol as `gfInverse` computes it from the tables. -/
def invN (x : Nat) : Nat := expT (255 - logT x)

/-- The field GF(2^8) on the symbols `0..255`: addition is XOR and multiplication is the
table lookup of `gfMultiplication` on the tables of `InitGaloisFields(301, _)`. -/
structure GF256 where
  val : Nat
  lt : val < 256
  deriving DecidableEq

/-- The symbol `n mod 256`. -/
def GF256.ofNat (n : Nat) : GF256 := ⟨n % 256, Nat.mod_lt _ (by decide)⟩

/-- The Go `int` holding a symbol. -/
def GF256.toInt (a : GF256) : Int := (a.val : Int)

instance : Zero GF256 := ⟨GF256.ofNat 0⟩

instance : One GF256 := ⟨GF256.ofNat 1⟩

instance : Add GF256 := ⟨fun a b => GF256.ofNat (a.val ^^^ b.val)⟩

instance : Neg GF256 := ⟨fun a => a⟩

instance : Mul GF256 := ⟨fun a b => GF256.ofNat (mulN a.val b.val)⟩

instance : Inv GF256 := ⟨fun a => if a.val = 0 then GF256.ofNat 0 else GF256.ofNat (invN a.val)⟩

/-- Image of a natural number in the field (characteristic 2: its parity). -/
def GF256.natCast (n : Nat) : GF256 := GF256.ofNat (n % 2)

/-- Image of an integer in the field (characteristic 2: its parity). -/
def GF256.intCast (z : Int) : GF256 := GF256.ofNat (z % 2).toNat

/-- The generator `2` of the multiplicative group, as a field element. -/
def GF256.alpha : GF256 := GF256.ofNat 2

/-! ## Coefficient lists over a field and the Berlekamp-Massey loop on them -/

/-- The Go slice holding the symbols of a list of field elements. -/
def toInts (l : List GF256) : List Int := l.map GF256.toInt

/-- Horner accumulation as in the loop of `gfPolynomialEval`: the coefficients are sent into `R`
by `e` and accumulated at the point `x`, starting from `y`.  With `e = id` this is evaluation in
the field; with `e = Polynomial.C` and `x = Polynomial.X` it is the polynomial whose
coefficients, highest degree first, are the list. -/
def horner {F R : Type} [Mul R] [Add R] (e : F → R) (x : R) : List F → R → R
  | [], y => y
  | c :: cs, y => horner e x cs (y * x + e c)

/-- Right-aligned coefficient-wise sum of two lists, as `gfPolynomialAddition` computes it. -/
def addP {F : Type} [Field F] (p q : List F) : List F :=
  let n := if p.length > q.length then p.length else q.length
  let r := List.replicate (n - p.length) 0 ++ p
  r.take (n - q.length) ++ List.zipWith (· + ·) (r.drop (n - q.length)) q

/-- Coefficient `k` of the product of two coefficient lists (a convolution sum). -/
def convCoef {F : Type} [Field F] (p q : List F) (k : Nat) : F :=
  ∑ j in Finset.range q.length, if j ≤ k then p.getD (k - j) 0 * q.getD j 0 else 0

/-- The product list: `len p + len q - 1` convolution coefficients. -/
def mulP {F : Type} [Field F] (p q : List F) : List F :=
  (List.range (p.length + q.length - 1)).map (convCoef p q)

/-- Coefficient of degree `j` of a list whose last entry is the constant term. -/
def cf {F : Type} [Zero F] (l : List F) (j : Nat) : F := l.reverse.getD j 0

/-- Discrepancy of the connection list `l` on the sequence `s` at index `k`:
`∑_j l_j s_{k-j}`, with `l_j` the coefficient of degree `j`. -/
def disc {F : Type} [Field F] (l : List F) (s : Nat → F) (k : Nat) : F :=
  ∑ j in Finset.range (k + 1), cf l j * s (k - j)

/-- The discrepancy as the loop of `unknownErrorLocator` accumulates it. -/
def bmDelta {F : Type} [Field F] (C S : List F) (K : Nat) : F :=
  S.getD K 0 + ∑ j in Finset.Ico 1 C.length, cf C j * S.getD (K - j) 0

/-- One iteration of the Berlekamp-Massey loop of `unknownErrorLocator` on the pair
(current locator, previous locator). -/
def bmStep {F : Type} [Field F] [DecidableEq F] (S : List F) (i : Nat)
    (st : List F × List F) : List F × List F :=
  if bmDelta st.1 S i = 0 then (st.1, st.2 ++ [0])
  else if (st.2 ++ [0]).length > st.1.length then
    (addP ((st.2 ++ [0]).map (· * bmDelta st.1 S i))
        ((st.1.map (· * (bmDelta st.1 S i)⁻¹)).map (· * bmDelta st.1 S i)),
      st.1.map (· * (bmDelta st.1 S i)⁻¹))
  else (addP st.1 ((st.2 ++ [0]).map (· * bmDelta st.1 S i)), st.2 ++ [0])

/-- The Berlekamp-Massey loop: `n` iterations starting at index `i`. -/
def bmRun {F : Type} [Field F] [DecidableEq F] (S : List F) :
    Nat → Nat → List F × List F → List F
  | 0, _, st => st.1
  | n + 1, i, st => bmRun S n (i + 1) (bmStep S i st)

/-- Invariant of the Berlekamp-Massey loop before iteration `i`: `C` (of length `L + 1`)
generates the first `i` terms of `s`, `B` is the scaled previous locator, and `L ≤ T`. -/
structure BMInv {F : Type} [Field F] (s : Nat → F) (T i : Nat) (C B : List F) : Prop where
  len : C.length + B.length = i + 2
  lenC : 1 ≤ C.length
  lenB : 1 ≤ B.length
  c0 : cf C 0 = 1
  gen : ∀ k, C.length ≤ k + 1 → k < i → disc C s k = 0
  old0 : ∀ k, B.length ≤ k + 1 → k + 1 < i → disc B s k = 0
  old1 : ∀ k, B.length ≤ k + 1 → k + 1 = i → disc B s k = 1
  bound : C.length ≤ T + 1

/-- The degrees at which a word has a non-zero coefficient, in increasing order. -/
def errDegs {F : Type} [Zero F] [DecidableEq F] (e : List F) : List Nat :=
  (List.range e.length).filter (fun i => decide (cf e i ≠ 0))

/-- The locator built by `calcErrorLocatorPolynomial`: the running product is multiplied by
`x_i * x + 1` for each location element. -/
def locP {F : Type} [Field F] (pts : List F) (loc : List F) : List F :=
  pts.foldl (fun acc x => mulP acc [x, 1]) loc

/-! ## Basic facts about the helpers -/

theorem store_length {xs : List Int} {i v : Int} {ys : List Int}
    (h : store xs i v = .ok ys) : ys.length = xs.length := by
  unfold store at h
  split at h
  · cases h; simp
  · cases h

theorem zeroErasures_length : ∀ (E msg out : List Int),
    zeroErasures E msg = .ok out → out.length = msg.length
  | [], msg, out, h => by
    simp only [zeroErasures] at h; cases h; rfl
  | p :: E, msg, out, h => by
    simp only [zeroErasures, bind, Except.bind] at h
    cases hs : store msg p 0 with
    | error e => rw [hs] at h; cases h
    | ok m1 =>
      rw [hs] at h
      rw [zeroErasures_length E m1 out h, store_length hs]

theorem zeroErasures_ok : ∀ (E msg : List Int),
    (∀ p ∈ E, 0 ≤ p ∧ p < (msg.length : Int)) → ∃ out, zeroErasures E msg = .ok out
  | [], msg, _ => ⟨msg, rfl⟩
  | p :: E, msg, h => by
    have hp := h p (List.mem_cons_self _ _)
    have hs : store msg p 0 = .ok (msg.set p.toNat 0) := by
      unfold store; rw [if_pos hp]
    simp only [zeroErasures, bind, Except.bind, hs]
    apply zeroErasures_ok E
    intro q hq
    simpa using h q (List.mem_cons_of_mem _ hq)

theorem gfPolynomialAddition_length (p q : List Int) :
    (gfPolynomialAddition p q).length = max p.length q.length := by
  unfold gfPolynomialAddition
  simp only [List.length_append, List.length_take, List.length_replicate, List.length_zipWith,
    List.length_drop]
  split <;> omega

theorem forneyLoop_length (G : Tables) (ep lp errPos : List Int) (fcr : Int) :
    ∀ (rest : List Int) (i : Nat) (E out : List Int),
      forneyLoop G ep lp errPos fcr rest i E = .ok out → out.length = E.length
  | [], i, E, out, h => by
    simp only [forneyLoop] at h; cases h; rfl
  | x :: rest, i, E, out, h => by
    simp only [forneyLoop, bind, Except.bind] at h
    repeat' split at h
    all_goals first
      | (rename_i v hst
         rw [forneyLoop_length G ep lp errPos fcr rest (i + 1) _ out h, store_length hst])
      | cases h

theorem correctErrors_length {G : Tables} {msgIn synd errPos out : List Int}
    (h : correctErrors G msgIn synd errPos = .ok out) : out.length = msgIn.length := by
  simp only [correctErrors, bind, Except.bind, pure, Except.pure] at h
  repeat' split at h
  all_goals first
    | (rename_i E hE
       cases h
       unfold forney at hE
       rw [gfPolynomialAddition_length, forneyLoop_length _ _ _ _ _ _ _ _ _ hE]
       simp)
    | cases h

theorem calculateSyndromes_nsym_nonneg {G : Tables} {msg synd : List Int} {nsym : Int}
    (h : calculateSyndromes G msg nsym = .ok synd) : 0 ≤ nsym := by
  by_contra hneg
  simp only [calculateSyndromes, makeZeros, if_neg hneg, bind, Except.bind] at h
  cases h

theorem splitAt_ok {xs m e : List Int} {k : Int} (h : splitAt xs k = .ok (m, e)) :
    0 ≤ k ∧ k ≤ (xs.length : Int) ∧ m = xs.take k.toNat ∧ e = xs.drop k.toNat := by
  unfold splitAt at h
  split at h
  · rename_i hk
    cases h
    exact ⟨hk.1, hk.2, rfl, rfl⟩
  · cases h

/-- `InitGaloisFields(301, 1)` run at program start returns nil and leaves the tables
`field301`. -/
theorem init_301 : InitGaloisFields Tables.zero 301 1 = .ok (field301, none) := by
  decide!

/-- A word whose syndromes pass `isSyndromeClean` is returned split, unchanged. -/
theorem decode_clean_split (G : Tables) (c : List Int) (nsym : Int) (synd : List Int)
    (hlen : c.length ≤ 255) (h0 : 0 ≤ nsym) (hn : nsym ≤ (c.length : Int))
    (hs : calculateSyndromes G c nsym = .ok synd) (hc : isSyndromeClean synd = true) :
    Decode G c nsym [] =
      .ok (c.take ((c.length : Int) - nsym).toNat, c.drop ((c.length : Int) - nsym).toNat, none) := by
  unfold Decode
  rw [if_neg (by omega)]
  simp only [zeroErasures, bind, Except.bind, hs, List.length_nil]
  rw [if_neg (by simpa using h0)]
  simp only [hc, if_true]
  unfold splitAt
  rw [if_pos (by omega)]
  rfl

/-- Shape of every successful decode: the result is the split of a word of at most 255 symbols
whose syndromes pass `isSyndromeClean`. -/
theorem decode_ok_shape {G : Tables} {r E m e : List Int} {nsym : Int}
    (h : Decode G r nsym E = .ok (m, e, none)) :
    ∃ w synd, w.length ≤ 255 ∧ nsym ≤ (w.length : Int) ∧
      calculateSyndromes G w nsym = .ok synd ∧ isSyndromeClean synd = true ∧
      m = w.take ((w.length : Int) - nsym).toNat ∧ e = w.drop ((w.length : Int) - nsym).toNat := by
  unfold Decode at h
  split at h
  · cases h
  rename_i hlen
  simp only [bind, Except.bind, pure, Except.pure] at h
  split at h
  · cases h
  rename_i msgOut hz
  have hzl := zeroErasures_length _ _ _ hz
  split at h
  · cases h
  split at h
  · cases h
  rename_i synd hs
  split at h
  · -- clean on entry
    rename_i hc
    split at h
    · cases h
    rename_i me hsp
    obtain ⟨m1, e1⟩ := me
    cases h
    obtain ⟨_, hk, hm, he⟩ := splitAt_ok hsp
    exact ⟨msgOut, synd, by omega, by omega, hs, hc, hm, he⟩
  · split at h
    · cases h
    rename_i fsynd hfs
    split at h
    · cases h
    rename_i loc hloc
    split at h
    · rename_i hne
      simp only [Except.ok.injEq, Prod.mk.injEq] at h
      exact absurd h.2.2 hne
    split at h
    · cases h
    rename_i pos hpos
    split at h
    · rename_i hne
      simp only [Except.ok.injEq, Prod.mk.injEq] at h
      exact absurd h.2.2 hne
    split at h
    · simp at h
    split at h
    · cases h
    rename_i msgOut1 hce
    split at h
    · cases h
    rename_i synd1 hs1
    split at h
    · simp at h
    rename_i hc1
    split at h
    · cases h
    rename_i me hsp
    obtain ⟨m1, e1⟩ := me
    cases h
    obtain ⟨_, hk, hm, he⟩ := splitAt_ok hsp
    have hl := correctErrors_length hce
    refine ⟨msgOut1, synd1, by omega, by omega, hs1, ?_, hm, he⟩
    simpa using hc1

/-! ## Claims about `Decode` -/

/-- C2 (the code departs from the claim): `[1, 2]` is a codeword for `nsym = 1` (its syndromes
are all zero), yet with its first symbol declared erased, that is with exactly `nsym` erasures,
`Decode` gives up with "Could not correct message" instead of returning `([1], [2])`. -/
theorem Decode_exactly_nsym_erasures_fails :
    ∃ G, InitGaloisFields Tables.zero 301 1 = .ok (G, none) ∧
      calculateSyndromes G [1, 2] 1 = .ok [0, 0] ∧
      Decode G [1, 2] 1 [0] = .ok ([], [], some .couldNotCorrect) ∧
      RSError.couldNotCorrect.text = "Could not correct message" :=
  ⟨field301, init_301, by decide!, by decide!, by decide⟩

/-- C3 (the code departs from the claim): with position 1 listed twice as erased, `Decode`
on the symbols `[1, 0]` with `nsym = 2` returns without error the ecc block `[1, -1]`;
`-1` is not a symbol and the syndromes of the returned word are `[0, -3, -5]`, not zero. -/
theorem Decode_duplicate_erasure_returns_non_symbol :
    ∃ G, InitGaloisFields Tables.zero 301 1 = .ok (G, none) ∧
      Decode G [1, 0] 2 [1, 1] = .ok ([], [1, -1], none) ∧
      calculateSyndromes G ([] ++ [1, -1]) 2 = .ok [0, -3, -5] ∧
      isSyndromeClean [0, -3, -5] = true :=
  ⟨field301, init_301, by decide!, by decide!, by decide⟩

/-- C4: a codeword of at most 255 symbols whose syndromes pass `isSyndromeClean` is decoded,
with no erasures, to its own split `(c[:len-nsym], c[len-nsym:])` and no error. -/
theorem Decode_clean_codeword (G : Tables) (c : List Int) (nsym : Int) (synd : List Int)
    (hlen : c.length ≤ 255) (h0 : 0 ≤ nsym) (hn : nsym ≤ (c.length : Int))
    (hs : calculateSyndromes G c nsym = .ok synd) (hc : isSyndromeClean synd = true) :
    Decode G c nsym [] =
        .ok (c.take ((c.length : Int) - nsym).toNat, c.drop ((c.length : Int) - nsym).toNat,
          none) ∧
      c.take ((c.length : Int) - nsym).toNat ++ c.drop ((c.length : Int) - nsym).toNat = c :=
  ⟨decode_clean_split G c nsym synd hlen h0 hn hs hc, List.take_append_drop _ _⟩

/-- Witness of C4 on the codeword of `TestCorrectMessage`. -/
theorem Decode_clean_codeword_witness :
    calculateSyndromes field301
        [68, 90, 46, 145, 46, 131, 153, 53, 32, 43, 239, 193, 240, 155, 85, 215, 63, 202] 8 =
        .ok [0, 0, 0, 0, 0, 0, 0, 0, 0] ∧
      Decode field301
        [68, 90, 46, 145, 46, 131, 153, 53, 32, 43, 239, 193, 240, 155, 85, 215, 63, 202] 8 [] =
        .ok ([68, 90, 46, 145, 46, 131, 153, 53, 32, 43],
          [239, 193, 240, 155, 85, 215, 63, 202], none) :=
  have hs : calculateSyndromes field301
      [68, 90, 46, 145, 46, 131, 153, 53, 32, 43, 239, 193, 240, 155, 85, 215, 63, 202] 8 =
      .ok [0, 0, 0, 0, 0, 0, 0, 0, 0] := by decide!
  ⟨hs, (Decode_clean_codeword field301 _ 8 _ (by decide) (by decide) (by decide) hs
    (by decide)).1⟩

/-- C5: `Decode` is idempotent: whenever it returns `(m, e)` without error, decoding `m ++ e`
again with the same `nsym` and no erasures returns `(m, e)` without error. -/
theorem Decode_idempotent (G : Tables) (r E m e : List Int) (nsym : Int)
    (h : Decode G r nsym E = .ok (m, e, none)) :
    Decode G (m ++ e) nsym [] = .ok (m, e, none) := by
  obtain ⟨w, synd, hlen, hn, hs, hc, hm, he⟩ := decode_ok_shape h
  have hw : m ++ e = w := by rw [hm, he, List.take_append_drop]
  rw [hw, hm, he]
  exact decode_clean_split G w nsym synd hlen (calculateSyndromes_nsym_nonneg hs) hn hs hc

/-- Witness of C5: a word with one wrong symbol is corrected, and the result decodes to itself. -/
theorem Decode_idempotent_witness :
    Decode field301 [1, 6, 9] 2 [] = .ok ([1], [6, 8], none) ∧
      Decode field301 ([1] ++ [6, 8]) 2 [] = .ok ([1], [6, 8], none) :=
  have h : Decode field301 [1, 6, 9] 2 [] = .ok ([1], [6, 8], none) := by decide!
  ⟨h, Decode_idempotent field301 [1, 6, 9] [] [1] [6, 8] 2 h⟩

/-- C6: after `InitGaloisFields(301, 1)` the word of `TestCorrectMessageWithErrors` (three wrong
symbols, at positions 6, 8 and 13) is decoded without error to the original message and ecc. -/
theorem Decode_three_errors :
    ∃ G, InitGaloisFields Tables.zero 301 1 = .ok (G, none) ∧
      Decode G [68, 90, 46, 145, 46, 131, 11, 53, 12, 43, 239, 193, 240, 125, 85, 215, 63, 202]
          8 [] =
        .ok ([68, 90, 46, 145, 46, 131, 153, 53, 32, 43],
          [239, 193, 240, 155, 85, 215, 63, 202], none) :=
  ⟨field301, init_301, by decide!⟩

/-- C7: after `InitGaloisFields(301, 1)` the codeword of `TestCorrectMessageWithErasure` with
positions 4, 6 and 8 declared erased is decoded without error to the original message and ecc:
the three symbols set to zero are restored. -/
theorem Decode_three_erasures :
    ∃ G, InitGaloisFields Tables.zero 301 1 = .ok (G, none) ∧
      zeroErasures [4, 6, 8]
          [68, 90, 46, 145, 46, 131, 153, 53, 32, 43, 239, 193, 240, 155, 85, 215, 63, 202] =
        .ok [68, 90, 46, 145, 0, 131, 0, 53, 0, 43, 239, 193, 240, 155, 85, 215, 63, 202] ∧
      Decode G [68, 90, 46, 145, 46, 131, 153, 53, 32, 43, 239, 193, 240, 155, 85, 215, 63, 202]
          8 [4, 6, 8] =
        .ok ([68, 90, 46, 145, 46, 131, 153, 53, 32, 43],
          [239, 193, 240, 155, 85, 215, 63, 202], none) :=
  ⟨field301, init_301, by decide, by decide!⟩

/-- C8: a word of more than 255 symbols is rejected with the message-too-long error and empty
message and ecc, whatever the tables, `nsym` and the erasure list are. -/
theorem Decode_message_too_long (G : Tables) (msg : List Int) (nsym : Int) (E : List Int)
    (h : msg.length > 255) :
    Decode G msg nsym E = .ok ([], [], some (.messageTooLong msg.length)) ∧
      (RSError.messageTooLong msg.length).text =
        "Message is too long (" ++ toString msg.length ++ " when max is 255)" := by
  refine ⟨?_, rfl⟩
  unfold Decode
  rw [if_pos h]

/-- Witness of C8 on the 300 zero symbols of `TestCorrectMessageTooLong`. -/
theorem Decode_message_too_long_witness :
    (List.replicate 300 (0 : Int)).length > 255 ∧
      Decode field301 (List.replicate 300 0) 8 [] = .ok ([], [], some (.messageTooLong 300)) ∧
      (RSError.messageTooLong 300).text = "Message is too long (300 when max is 255)" :=
  have hl : (List.replicate 300 (0 : Int)).length = 300 := List.length_replicate _ _
  have h : (List.replicate 300 (0 : Int)).length > 255 := by rw [hl]; decide
  ⟨h, by
    have h1 := (Decode_message_too_long field301 (List.replicate 300 0) 8 [] h).1
    rw [hl] at h1
    exact h1, by decide⟩

/-- C9: with at most 255 symbols and in-range erasure positions, more erasures than `nsym` are
rejected with "Too many erasures to correct" and empty message and ecc; the tables are never
consulted (the result is the same for every `G`). -/
theorem Decode_too_many_erasures (G : Tables) (msg : List Int) (nsym : Int) (E : List Int)
    (hlen : msg.length ≤ 255) (hpos : ∀ p ∈ E, 0 ≤ p ∧ p < (msg.length : Int))
    (hmany : nsym < (E.length : Int)) :
    Decode G msg nsym E = .ok ([], [], some .tooManyErasures) ∧
      RSError.tooManyErasures.text = "Too many erasures to correct" := by
  refine ⟨?_, rfl⟩
  obtain ⟨out, hout⟩ := zeroErasures_ok E msg hpos
  unfold Decode
  rw [if_neg (by omega)]
  simp only [bind, Except.bind, hout]
  rw [if_pos (by omega)]
  rfl

/-- Witness of C9 on the nine erasures of `TestCorrectTooManyErasures`; the tables are the
zero tables of program start, on which any field computation would panic. -/
theorem Decode_too_many_erasures_witness :
    Decode Tables.zero
        [68, 90, 46, 145, 46, 131, 153, 53, 32, 43, 239, 193, 240, 155, 85, 215, 63, 202] 8
        [4, 6, 8, 9, 10, 11, 12, 13, 14] = .ok ([], [], some .tooManyErasures) :=
  (Decode_too_many_erasures Tables.zero
    [68, 90, 46, 145, 46, 131, 153, 53, 32, 43, 239, 193, 240, 155, 85, 215, 63, 202] 8
    [4, 6, 8, 9, 10, 11, 12, 13, 14] (by decide) (by decide) (by decide)).1

/-- C10: after `InitGaloisFields(301, 1)` the word of `TestCorrectMessageWithTooManyErrors`
(five wrong symbols) is rejected: the locator found has degree 4, `findErrors` finds no matching
number of roots and raises its root-count mismatch, which `Decode` returns with empty message
and ecc. -/
theorem Decode_five_errors_root_mismatch :
    ∃ G, InitGaloisFields Tables.zero 301 1 = .ok (G, none) ∧
      unknownErrorLocator G [100, 16, 219, 212, 126, 123, 77, 30] [] 8 0 =
        .ok ([231, 227, 149, 75, 1], none) ∧
      findErrors G (sliceIntReverse [231, 227, 149, 75, 1]) 18 = .ok ([], some .chienMismatch) ∧
      Decode G [68, 90, 25, 145, 46, 131, 11, 53, 12, 43, 239, 11, 240, 125, 85, 215, 63, 202]
          8 [] = .ok ([], [], some .chienMismatch) ∧
      RSError.chienMismatch.text =
        "too many (or few) errors found by Chien Search for the errata locator polynomial" :=
  ⟨field301, init_301, by decide!, by decide!, by decide!, by decide⟩

/-! ## Facts read from the tables of `InitGaloisFields(301, 1)` -/

attribute [irreducible] field301 wrap64

theorem exponents_length : field301.exponents.length = 510 := by decide!

theorem logs_length : field301.logs.length = 256 := by decide!

theorem exponents_range_all :
    field301.exponents.all (fun v => decide (0 < v ∧ v < 256)) = true := by decide!

theorem logs_range_all :
    field301.logs.all (fun v => decide (0 ≤ v ∧ v < 255)) = true := by decide!

theorem exponents_periodic : field301.exponents.drop 255 = field301.exponents.take 255 := by
  decide!

theorem exponents_entry (i : Nat) (h : i < 510) :
    0 < field301.exponents.getD i 0 ∧ field301.exponents.getD i 0 < 256 := by
  have hall := exponents_range_all
  rw [List.all_eq_true] at hall
  have hi : i < field301.exponents.length := by rw [exponents_length]; exact h
  have hm : field301.exponents.getD i 0 ∈ field301.exponents := by
    rw [List.getD_eq_getElem _ _ hi]; exact List.getElem_mem _
  simpa using hall _ hm

theorem logs_entry (x : Nat) (h : x < 256) :
    0 ≤ field301.logs.getD x 0 ∧ field301.logs.getD x 0 < 255 := by
  have hall := logs_range_all
  rw [List.all_eq_true] at hall
  have hi : x < field301.logs.length := by rw [logs_length]; exact h
  have hm : field301.logs.getD x 0 ∈ field301.logs := by
    rw [List.getD_eq_getElem _ _ hi]; exact List.getElem_mem _
  simpa using hall _ hm

theorem expT_pos (i : Nat) (h : i < 510) : 0 < expT i ∧ expT i < 256 := by
  have := exponents_entry i h
  unfold expT; omega

theorem logT_lt (x : Nat) (h : x < 256) : logT x < 255 := by
  have := logs_entry x h
  unfold logT; omega

theorem expT_add255 (i : Nat) (h : i < 255) : expT (i + 255) = expT i := by
  unfold expT
  have h1 : field301.exponents.getD (i + 255) 0 = (field301.exponents.drop 255).getD i 0 := by
    rw [List.getD_eq_getElem?_getD, List.getD_eq_getElem?_getD, List.getElem?_drop, add_comm]
  have h2 : (field301.exponents.take 255).getD i 0 = field301.exponents.getD i 0 := by
    rw [List.getD_eq_getElem?_getD, List.getD_eq_getElem?_getD, List.getElem?_take, if_pos h]
  rw [h1, exponents_periodic, h2]

theorem logT_expT : ∀ i < 255, logT (expT i) = i := by decide!

theorem expT_logT : ∀ x < 256, x ≠ 0 → expT (logT x) = x := by decide!

theorem expT_succ : ∀ i < 255, expT (i + 1) = dbl (expT i) := by decide!

attribute [irreducible] expT logT

/-! ## Field laws of the table arithmetic -/

theorem two_mul_xor (a b : Nat) : 2 * (a ^^^ b) = (2 * a) ^^^ (2 * b) := by
  apply Nat.eq_of_testBit_eq
  intro i
  cases i with
  | zero => simp [Nat.testBit_zero]
  | succ i =>
    have h1 : 2 * (a ^^^ b) / 2 = a ^^^ b := by omega
    have h2 : 2 * a / 2 = a := by omega
    have h3 : 2 * b / 2 = b := by omega
    rw [Nat.testBit_succ, Nat.testBit_succ, Nat.xor_div_two, h1, h2, h3]

theorem xor_div_128 (a b : Nat) : (a ^^^ b) / 128 = (a / 128) ^^^ (b / 128) := by
  have h : ∀ x : Nat, x / 128 = x / 2 / 2 / 2 / 2 / 2 / 2 / 2 := by intro x; omega
  rw [h, h a, h b]
  simp only [Nat.xor_div_two]

theorem xor_lt_256 {a b : Nat} (ha : a < 256) (hb : b < 256) : a ^^^ b < 256 :=
  Nat.xor_lt_two_pow (n := 8) ha hb

theorem dbl_xor (y z : Nat) (hy : y < 256) (hz : z < 256) :
    dbl (y ^^^ z) = dbl y ^^^ dbl z := by
  have hx := xor_lt_256 hy hz
  have hd := xor_div_128 y z
  have hy1 : y / 128 = 0 ∨ y / 128 = 1 := by omega
  have hz1 : z / 128 = 0 ∨ z / 128 = 1 := by omega
  unfold dbl
  rw [two_mul_xor]
  rcases hy1 with hy1 | hy1 <;> rcases hz1 with hz1 | hz1 <;> rw [hy1, hz1] at hd
  · have h1 : y ^^^ z < 128 := by
      have : (y ^^^ z) / 128 = 0 := by rw [hd]; rfl
      omega
    rw [if_pos h1, if_pos (by omega), if_pos (by omega)]
  · have h1 : ¬ (y ^^^ z < 128) := by
      have : (y ^^^ z) / 128 = 1 := by rw [hd]; rfl
      omega
    rw [if_neg h1, if_pos (by omega), if_neg (by omega), Nat.xor_assoc]
  · have h1 : ¬ (y ^^^ z < 128) := by
      have : (y ^^^ z) / 128 = 1 := by rw [hd]; rfl
      omega
    rw [if_neg h1, if_neg (by omega), if_pos (by omega), Nat.xor_assoc, Nat.xor_assoc,
      Nat.xor_comm (2 * z)]
  · have h1 : y ^^^ z < 128 := by
      have : (y ^^^ z) / 128 = 0 := by rw [hd]; rfl
      omega
    rw [if_pos h1, if_neg (by omega), if_neg (by omega)]
    rw [Nat.xor_assoc, ← Nat.xor_assoc 301, Nat.xor_comm 301 (2 * z), Nat.xor_assoc (2 * z),
      Nat.xor_self, Nat.xor_zero]

theorem pw_pos (k : Nat) : 0 < pw k ∧ pw k < 256 :=
  expT_pos _ (by have := Nat.mod_lt k (show 255 > 0 by decide); omega)

theorem logT_pw (k : Nat) : logT (pw k) = k % 255 :=
  logT_expT _ (Nat.mod_lt k (by decide))

theorem pw_logT (x : Nat) (h0 : x ≠ 0) (h : x < 256) : pw (logT x) = x := by
  unfold pw
  rw [Nat.mod_eq_of_lt (logT_lt x h)]
  exact expT_logT x h h0

theorem expT_eq_pw (n : Nat) (h : n < 510) : expT n = pw n := by
  unfold pw
  by_cases h1 : n < 255
  · rw [Nat.mod_eq_of_lt h1]
  · have h2 : n = (n - 255) + 255 := by omega
    have h3 : n % 255 = n - 255 := by omega
    rw [h3]
    conv_lhs => rw [h2]
    exact expT_add255 _ (by omega)

theorem pw_mod (k : Nat) : pw (k % 255) = pw k := by
  unfold pw; rw [Nat.mod_mod]

theorem mulN_pw (a b : Nat) : mulN (pw a) (pw b) = pw (a + b) := by
  have ha := pw_pos a
  have hb := pw_pos b
  unfold mulN
  rw [if_neg (by omega), logT_pw, logT_pw]
  have h1 := Nat.mod_lt a (show 255 > 0 by decide)
  have h2 := Nat.mod_lt b (show 255 > 0 by decide)
  rw [expT_eq_pw _ (by omega)]
  unfold pw
  rw [← Nat.add_mod]

theorem mulN_zero_left (y : Nat) : mulN 0 y = 0 := by simp [mulN]

theorem mulN_zero_right (x : Nat) : mulN x 0 = 0 := by simp [mulN]

theorem mulN_lt (x y : Nat) (hx : x < 256) (hy : y < 256) : mulN x y < 256 := by
  unfold mulN
  split
  · decide
  · have := logT_lt x hx
    have := logT_lt y hy
    exact (expT_pos _ (by omega)).2

theorem mulN_comm (x y : Nat) : mulN x y = mulN y x := by
  unfold mulN
  rw [Nat.add_comm]
  simp only [or_comm]

theorem dbl_pw (k : Nat) : dbl (pw k) = pw (k + 1) := by
  have h1 := Nat.mod_lt k (show 255 > 0 by decide)
  have h := expT_succ (k % 255) h1
  have h2 : pw k = expT (k % 255) := rfl
  rw [h2, ← h, expT_eq_pw _ (by omega)]
  unfold pw
  rw [Nat.mod_add_mod]

theorem dbl_zero : dbl 0 = 0 := by decide

theorem mulN_pw_succ (k y : Nat) (hy : y < 256) : mulN (pw (k + 1)) y = dbl (mulN (pw k) y) := by
  by_cases h0 : y = 0
  · subst h0; rw [mulN_zero_right, mulN_zero_right, dbl_zero]
  · rw [← pw_logT y h0 hy, mulN_pw, mulN_pw, dbl_pw]
    congr 1; omega

theorem mulN_pw_zero (y : Nat) (hy : y < 256) : mulN (pw 0) y = y := by
  by_cases h0 : y = 0
  · subst h0; rw [mulN_zero_right]
  · conv_rhs => rw [← pw_logT y h0 hy]
    conv_lhs => rw [← pw_logT y h0 hy]
    rw [mulN_pw, Nat.zero_add]

theorem mulN_pw_xor (k : Nat) : ∀ y z, y < 256 → z < 256 →
    mulN (pw k) (y ^^^ z) = mulN (pw k) y ^^^ mulN (pw k) z := by
  induction k with
  | zero =>
    intro y z hy hz
    rw [mulN_pw_zero _ (xor_lt_256 hy hz), mulN_pw_zero _ hy, mulN_pw_zero _ hz]
  | succ k ih =>
    intro y z hy hz
    rw [mulN_pw_succ _ _ (xor_lt_256 hy hz), mulN_pw_succ _ _ hy, mulN_pw_succ _ _ hz, ih y z hy hz]
    exact dbl_xor _ _ (mulN_lt _ _ (pw_pos k).2 hy) (mulN_lt _ _ (pw_pos k).2 hz)

theorem mulN_xor (x y z : Nat) (hx : x < 256) (hy : y < 256) (hz : z < 256) :
    mulN x (y ^^^ z) = mulN x y ^^^ mulN x z := by
  by_cases h0 : x = 0
  · subst h0; simp [mulN_zero_left]
  · rw [← pw_logT x h0 hx]
    exact mulN_pw_xor _ y z hy hz

theorem mulN_assoc (x y z : Nat) (hx : x < 256) (hy : y < 256) (hz : z < 256) :
    mulN (mulN x y) z = mulN x (mulN y z) := by
  by_cases hx0 : x = 0
  · subst hx0; simp [mulN_zero_left]
  by_cases hy0 : y = 0
  · subst hy0; simp [mulN_zero_left, mulN_zero_right]
  by_cases hz0 : z = 0
  · subst hz0; simp [mulN_zero_right]
  rw [← pw_logT x hx0 hx, ← pw_logT y hy0 hy, ← pw_logT z hz0 hz]
  simp only [mulN_pw, Nat.add_assoc]

theorem pw_zero : pw 0 = 1 := by decide!

theorem pw_one : pw 1 = 2 := by decide!

theorem mulN_one (x : Nat) (hx : x < 256) : mulN 1 x = x := by
  rw [← pw_zero]; exact mulN_pw_zero x hx

theorem invN_eq (x : Nat) : invN x = pw (255 - logT x) := by
  unfold invN
  exact expT_eq_pw _ (by omega)

theorem mulN_invN (x : Nat) (h0 : x ≠ 0) (hx : x < 256) : mulN x (invN x) = 1 := by
  rw [invN_eq x]
  have hl := logT_lt x hx
  have h : logT x + (255 - logT x) = 255 := by omega
  have h1 : mulN (pw (logT x)) (pw (255 - logT x)) = 1 := by
    rw [mulN_pw, h, ← pw_zero]
    unfold pw
    rfl
  rwa [pw_logT x h0 hx] at h1

theorem mulN_ne_zero (x y : Nat) (hx0 : x ≠ 0) (hy0 : y ≠ 0) (hx : x < 256) (hy : y < 256) :
    mulN x y ≠ 0 := by
  rw [← pw_logT x hx0 hx, ← pw_logT y hy0 hy, mulN_pw]
  have := pw_pos (logT x + logT y)
  omega

theorem GF256.ext {a b : GF256} (h : a.val = b.val) : a = b := by
  cases a; cases b; simp only [GF256.mk.injEq]; exact h

theorem GF256.val_injective : Function.Injective GF256.val := fun _ _ h => GF256.ext h

theorem GF256.val_zero : (0 : GF256).val = 0 := rfl

theorem GF256.val_one : (1 : GF256).val = 1 := rfl

theorem GF256.val_add (a b : GF256) : (a + b).val = a.val ^^^ b.val :=
  Nat.mod_eq_of_lt (xor_lt_256 a.lt b.lt)

theorem GF256.val_neg (a : GF256) : (-a).val = a.val := rfl

theorem GF256.val_mul (a b : GF256) : (a * b).val = mulN a.val b.val :=
  Nat.mod_eq_of_lt (mulN_lt _ _ a.lt b.lt)

theorem invN_lt (x : Nat) : invN x < 256 := (expT_pos _ (by omega)).2

theorem GF256.val_inv (a : GF256) (h : a ≠ 0) : (a⁻¹).val = invN a.val := by
  have h0 : a.val ≠ 0 := fun e => h (GF256.ext e)
  show (if a.val = 0 then GF256.ofNat 0 else GF256.ofNat (invN a.val)).val = _
  rw [if_neg h0]
  exact Nat.mod_eq_of_lt (invN_lt _)

theorem GF256.inv_zero_eq : (0 : GF256)⁻¹ = 0 := rfl

theorem GF256.add_assoc' (a b c : GF256) : a + b + c = a + (b + c) :=
  GF256.ext (by simp only [GF256.val_add, Nat.xor_assoc])

theorem GF256.zero_add' (a : GF256) : 0 + a = a :=
  GF256.ext (by rw [GF256.val_add, GF256.val_zero, Nat.zero_xor])

theorem GF256.add_zero' (a : GF256) : a + 0 = a :=
  GF256.ext (by rw [GF256.val_add, GF256.val_zero, Nat.xor_zero])

theorem GF256.add_comm' (a b : GF256) : a + b = b + a :=
  GF256.ext (by rw [GF256.val_add, GF256.val_add, Nat.xor_comm])

theorem GF256.add_self (a : GF256) : a + a = 0 :=
  GF256.ext (by rw [GF256.val_add, Nat.xor_self, GF256.val_zero])

theorem GF256.neg_add_cancel' (a : GF256) : -a + a = 0 := GF256.add_self a

theorem GF256.left_distrib' (a b c : GF256) : a * (b + c) = a * b + a * c :=
  GF256.ext (by
    rw [GF256.val_mul, GF256.val_add, GF256.val_add, GF256.val_mul, GF256.val_mul]
    exact mulN_xor _ _ _ a.lt b.lt c.lt)

theorem GF256.mul_comm' (a b : GF256) : a * b = b * a :=
  GF256.ext (by rw [GF256.val_mul, GF256.val_mul, mulN_comm])

theorem GF256.right_distrib' (a b c : GF256) : (a + b) * c = a * c + b * c := by
  rw [GF256.mul_comm', GF256.left_distrib', GF256.mul_comm' c a, GF256.mul_comm' c b]

theorem GF256.zero_mul' (a : GF256) : 0 * a = 0 :=
  GF256.ext (by rw [GF256.val_mul, GF256.val_zero, mulN_zero_left])

theorem GF256.mul_zero' (a : GF256) : a * 0 = 0 :=
  GF256.ext (by rw [GF256.val_mul, GF256.val_zero, mulN_zero_right])

theorem GF256.mul_assoc' (a b c : GF256) : a * b * c = a * (b * c) :=
  GF256.ext (by
    simp only [GF256.val_mul]
    exact mulN_assoc _ _ _ a.lt b.lt c.lt)

theorem GF256.one_mul' (a : GF256) : 1 * a = a :=
  GF256.ext (by rw [GF256.val_mul, GF256.val_one, mulN_one _ a.lt])

theorem GF256.mul_one' (a : GF256) : a * 1 = a := by
  rw [GF256.mul_comm', GF256.one_mul']

theorem GF256.zero_ne_one' : (0 : GF256) ≠ 1 := fun h => by
  have := congrArg GF256.val h
  rw [GF256.val_zero, GF256.val_one] at this
  omega

theorem GF256.mul_inv_cancel' (a : GF256) (h : a ≠ 0) : a * a⁻¹ = 1 :=
  GF256.ext (by
    have h0 : a.val ≠ 0 := fun e => h (GF256.ext e)
    rw [GF256.val_mul, GF256.val_inv a h, GF256.val_one]
    exact mulN_invN _ h0 a.lt)

theorem GF256.natCast_succ' (n : Nat) : GF256.natCast (n + 1) = GF256.natCast n + 1 :=
  GF256.ext (by
    rw [GF256.val_add, GF256.val_one]
    show (n + 1) % 2 % 256 = (n % 2 % 256) ^^^ 1
    rcases Nat.mod_two_eq_zero_or_one n with h | h
    · have : (n + 1) % 2 = 1 := by omega
      rw [h, this]; rfl
    · have : (n + 1) % 2 = 0 := by omega
      rw [h, this]; rfl)

theorem GF256.intCast_ofNat' (n : Nat) : GF256.intCast (n : Int) = GF256.natCast n := by
  unfold GF256.intCast GF256.natCast
  congr 1

theorem GF256.intCast_negSucc' (n : Nat) :
    GF256.intCast (Int.negSucc n) = -(GF256.natCast (n + 1)) := by
  show GF256.intCast (Int.negSucc n) = GF256.natCast (n + 1)
  unfold GF256.intCast GF256.natCast
  congr 1
  rw [Int.negSucc_eq]
  omega

instance : CommRing GF256 :=
  { add := (· + ·)
    add_assoc := GF256.add_assoc'
    zero := 0
    zero_add := GF256.zero_add'
    add_zero := GF256.add_zero'
    nsmul := nsmulRec
    nsmul_zero := fun _ => rfl
    nsmul_succ := fun _ _ => rfl
    add_comm := GF256.add_comm'
    mul := (· * ·)
    left_distrib := GF256.left_distrib'
    right_distrib := GF256.right_distrib'
    zero_mul := GF256.zero_mul'
    mul_zero := GF256.mul_zero'
    mul_assoc := GF256.mul_assoc'
    one := 1
    one_mul := GF256.one_mul'
    mul_one := GF256.mul_one'
    natCast := GF256.natCast
    natCast_zero := rfl
    natCast_succ := GF256.natCast_succ'
    npow := fun n a => npowRec n a
    npow_zero := fun _ => rfl
    npow_succ := fun _ _ => rfl
    neg := fun a => -a
    sub := fun a b => a + -b
    sub_eq_add_neg := fun _ _ => rfl
    zsmul := zsmulRec
    zsmul_zero' := fun _ => rfl
    zsmul_succ' := fun _ _ => rfl
    zsmul_neg' := fun _ _ => rfl
    neg_add_cancel := GF256.neg_add_cancel'
    intCast := GF256.intCast
    intCast_ofNat := GF256.intCast_ofNat'
    intCast_negSucc := GF256.intCast_negSucc'
    mul_comm := GF256.mul_comm' }

instance : Field GF256 :=
  { (inferInstance : CommRing GF256) with
    inv := fun a => a⁻¹
    exists_pair_ne := ⟨0, 1, GF256.zero_ne_one'⟩
    mul_inv_cancel := GF256.mul_inv_cancel'
    inv_zero := GF256.inv_zero_eq
    nnqsmul := _
    nnqsmul_def := fun _ _ => rfl
    qsmul := _
    qsmul_def := fun _ _ => rfl }

instance : CharP GF256 2 :=
  CharTwo.of_one_ne_zero_of_two_eq_zero (fun h => GF256.zero_ne_one' h.symm)
    (by rw [← one_add_one_eq_two]; exact GF256.add_self 1)

/-! ## The scalar functions compute in the field -/

theorem bind_ok {α β : Type} (a : α) (f : α → Except Panic β) :
    (Except.ok a >>= f) = f a := Eq.trans rfl rfl

theorem bind_error {α β : Type} (e : Panic) (f : α → Except Panic β) :
    ((Except.error e : Except Panic α) >>= f) = Except.error e := Eq.trans rfl rfl

theorem wrap64_eq (z : Int) (h1 : -9223372036854775808 ≤ z) (h2 : z < 9223372036854775808) :
    wrap64 z = z := by
  unfold wrap64
  omega

theorem index_ok (xs : List Int) (k : Nat) (h : k < xs.length) :
    index xs (k : Int) = .ok (xs.getD k 0) := by
  unfold index
  rw [if_pos ⟨Int.natCast_nonneg k, by exact_mod_cast h⟩]
  simp

theorem index_logs (x : Nat) (h : x < 256) : index field301.logs (x : Int) = .ok (logT x : Int) := by
  rw [index_ok _ _ (by rw [logs_length]; exact h)]
  have := logs_entry x h
  unfold logT
  rw [Int.toNat_of_nonneg this.1]

theorem index_exps (i : Nat) (h : i < 510) :
    index field301.exponents (i : Int) = .ok (expT i : Int) := by
  rw [index_ok _ _ (by rw [exponents_length]; exact h)]
  have := exponents_entry i h
  unfold expT
  rw [Int.toNat_of_nonneg (le_of_lt this.1)]

theorem GF256.toInt_eq_zero {a : GF256} : a.toInt = 0 ↔ a = 0 := by
  unfold GF256.toInt
  constructor
  · intro h
    exact GF256.ext (by rw [GF256.val_zero]; exact_mod_cast h)
  · intro h
    rw [h, GF256.val_zero]; rfl

theorem GF256.toInt_injective : Function.Injective GF256.toInt := by
  intro a b h
  unfold GF256.toInt at h
  exact GF256.ext (by exact_mod_cast h)

theorem GF256.toInt_range (a : GF256) : 0 ≤ a.toInt ∧ a.toInt < 256 := by
  unfold GF256.toInt
  have := a.lt
  omega

theorem GF256.toInt_zero : (0 : GF256).toInt = 0 := rfl

theorem GF256.toInt_one : (1 : GF256).toInt = 1 := rfl

/-- Every Go `int` in `0..255` is the image of a field element. -/
theorem GF256.exists_of_range (x : Int) (h : 0 ≤ x ∧ x ≤ 255) : ∃ a : GF256, a.toInt = x :=
  ⟨⟨x.toNat, by omega⟩, by unfold GF256.toInt; simp; omega⟩

theorem natCast_xor (a b : Nat) : Int.xor (a : Int) (b : Int) = ((a ^^^ b : Nat) : Int) := rfl

theorem GF256.toInt_add (a b : GF256) : Int.xor a.toInt b.toInt = (a + b).toInt := by
  unfold GF256.toInt
  rw [GF256.val_add]
  rfl

theorem gfMultiplication_ok (a b : GF256) :
    gfMultiplication field301 a.toInt b.toInt = .ok (a * b).toInt := by
  unfold gfMultiplication
  by_cases h : a.toInt = 0 ∨ b.toInt = 0
  · rw [if_pos h]
    have : a * b = 0 := by
      rcases h with h | h
      · rw [GF256.toInt_eq_zero.mp h, zero_mul]
      · rw [GF256.toInt_eq_zero.mp h, mul_zero]
    rw [this]; rfl
  · rw [if_neg h]
    have ha : a.val ≠ 0 := fun e => h (Or.inl (by unfold GF256.toInt; rw [e]; rfl))
    have hb : b.val ≠ 0 := fun e => h (Or.inr (by unfold GF256.toInt; rw [e]; rfl))
    have hla := logT_lt a.val a.lt
    have hlb := logT_lt b.val b.lt
    unfold GF256.toInt
    simp only [bind, Except.bind, index_logs _ a.lt, index_logs _ b.lt]
    rw [wrap64_eq _ (by omega) (by omega)]
    have : ((logT a.val : Int) + (logT b.val : Int)) = ((logT a.val + logT b.val : Nat) : Int) := by
      push_cast; rfl
    rw [this, index_exps _ (by omega), GF256.val_mul]
    unfold mulN
    rw [if_neg (by omega)]

theorem GF256.alpha_val : GF256.alpha.val = 2 := rfl

theorem GF256.alpha_toInt : GF256.alpha.toInt = 2 := rfl

theorem GF256.alpha_pow_val (k : Nat) : (GF256.alpha ^ k).val = pw k := by
  induction k with
  | zero => rw [pow_zero, GF256.val_one, pw_zero]
  | succ k ih =>
    rw [pow_succ, GF256.val_mul, ih, GF256.alpha_val, ← pw_one, mulN_pw]

theorem GF256.alpha_pow_ne_zero (k : Nat) : GF256.alpha ^ k ≠ 0 := by
  intro h
  have := congrArg GF256.val h
  rw [GF256.alpha_pow_val, GF256.val_zero] at this
  have := pw_pos k
  omega

theorem GF256.alpha_ne_zero : GF256.alpha ≠ 0 := by
  have := GF256.alpha_pow_ne_zero 1
  rwa [pow_one] at this

theorem GF256.alpha_pow_mod (k : Nat) : GF256.alpha ^ (k % 255) = GF256.alpha ^ k :=
  GF256.ext (by rw [GF256.alpha_pow_val, GF256.alpha_pow_val, pw_mod])

theorem GF256.alpha_pow_255 : GF256.alpha ^ 255 = 1 := by
  rw [← GF256.alpha_pow_mod]; rfl

/-- Powers of the generator with exponents below 255 are pairwise distinct. -/
theorem GF256.alpha_pow_injective {i j : Nat} (hi : i < 255) (hj : j < 255)
    (h : GF256.alpha ^ i = GF256.alpha ^ j) : i = j := by
  have h1 := congrArg GF256.val h
  rw [GF256.alpha_pow_val, GF256.alpha_pow_val] at h1
  have h2 := congrArg logT h1
  rw [logT_pw, logT_pw, Nat.mod_eq_of_lt hi, Nat.mod_eq_of_lt hj] at h2
  exact h2

theorem logT_two : logT 2 = 1 := by decide!

theorem expT_zero : expT 0 = 1 := by decide!

theorem tmod_255 (p : Int) :
    Int.tmod p 255 = if 0 ≤ p then p % 255 else -((-p) % 255) := by
  split
  · rename_i h
    exact Int.tmod_eq_emod h (by decide)
  · rename_i h
    obtain ⟨n, rfl⟩ : ∃ n, p = Int.negSucc n := Int.eq_negSucc_of_lt_zero (by omega)
    have h1 : Int.tmod (Int.negSucc n) 255 = -(((n + 1) % 255 : Nat) : Int) := rfl
    rw [h1, Int.negSucc_eq]
    omega

theorem gfPower_two (p : Int) (h1 : -4611686018427387904 < p) (h2 : p < 4611686018427387904) :
    gfPower field301 2 p = .ok (GF256.alpha ^ (p % 255).toNat).toInt := by
  unfold gfPower
  have hl : index field301.logs 2 = .ok (1 : Int) := by
    have := index_logs 2 (by decide)
    rw [logT_two] at this
    exact this
  simp only [bind, Except.bind, hl, one_mul]
  rw [wrap64_eq _ (by omega) (by omega), tmod_255]
  unfold GF256.toInt
  rw [GF256.alpha_pow_val]
  by_cases hp : 0 ≤ p
  · rw [if_pos hp]
    have h3 : 0 ≤ p % 255 := Int.emod_nonneg _ (by decide)
    have h4 : p % 255 < 255 := Int.emod_lt_of_pos _ (by decide)
    rw [if_pos (by omega)]
    obtain ⟨n, hn⟩ : ∃ n : Nat, p % 255 = (n : Int) := ⟨(p % 255).toNat, by omega⟩
    rw [hn, Int.toNat_ofNat, index_exps _ (by omega), expT_eq_pw _ (by omega)]
  · rw [if_neg hp]
    have h3 : 0 ≤ (-p) % 255 := Int.emod_nonneg _ (by decide)
    have h4 : (-p) % 255 < 255 := Int.emod_lt_of_pos _ (by decide)
    obtain ⟨m, hm⟩ : ∃ m : Nat, (-p) % 255 = (m : Int) := ⟨((-p) % 255).toNat, by omega⟩
    obtain ⟨n, hn⟩ : ∃ n : Nat, p % 255 = (n : Int) := ⟨(p % 255).toNat, by omega⟩
    rw [hm, hn, Int.toNat_ofNat]
    by_cases h0 : m = 0
    · subst h0
      rw [if_pos (by decide)]
      have h6 : n = 0 := by omega
      subst h6
      have h9 := index_exps 0 (by decide)
      rw [expT_eq_pw 0 (by decide)] at h9
      exact h9
    · rw [if_neg (by omega), exponents_length]
      have h7 : ((510 : Nat) : Int) + -(m : Int) = ((510 - m : Nat) : Int) := by omega
      rw [h7, index_exps _ (by omega), expT_eq_pw _ (by omega)]
      have h8 : pw (510 - m) = pw n := by
        rw [← pw_mod (510 - m), ← pw_mod n]
        congr 1
        omega
      rw [h8]

theorem gfPower_exp_zero (a : GF256) : gfPower field301 a.toInt 0 = .ok 1 := by
  unfold gfPower GF256.toInt
  simp only [bind, Except.bind, index_logs _ a.lt, mul_zero]
  rw [wrap64_eq _ (by decide) (by decide)]
  have h0 : Int.tmod 0 255 = 0 := by decide
  rw [h0, if_pos (by decide)]
  have h9 := index_exps 0 (by decide)
  rw [expT_zero] at h9
  exact h9

theorem gfInverse_ok (a : GF256) (h : a ≠ 0) :
    gfInverse field301 a.toInt = .ok (a⁻¹).toInt := by
  unfold gfInverse GF256.toInt
  have hl := logT_lt a.val a.lt
  simp only [bind, Except.bind, index_logs _ a.lt]
  rw [wrap64_eq _ (by omega) (by omega)]
  have h1 : (255 : Int) - (logT a.val : Int) = ((255 - logT a.val : Nat) : Int) := by omega
  rw [h1, index_exps _ (by omega), GF256.val_inv a h]
  rfl

theorem GF256.div_val (a b : GF256) (ha : a ≠ 0) (hb : b ≠ 0) :
    (a / b).val = pw (logT a.val + 255 - logT b.val) := by
  have hav : a.val ≠ 0 := fun e => ha (GF256.ext e)
  have hlb := logT_lt b.val b.lt
  rw [div_eq_mul_inv, GF256.val_mul, GF256.val_inv b hb, invN_eq]
  have h1 : mulN (pw (logT a.val)) (pw (255 - logT b.val)) =
      pw (logT a.val + 255 - logT b.val) := by
    rw [mulN_pw]
    congr 1
    omega
  rwa [pw_logT a.val hav a.lt] at h1

theorem gfDivision_ok (a b : GF256) (h : b ≠ 0) :
    gfDivision field301 a.toInt b.toInt = .ok ((a / b).toInt, none) := by
  unfold gfDivision
  have hb : b.toInt ≠ 0 := fun e => h (GF256.toInt_eq_zero.mp e)
  rw [if_neg hb]
  by_cases ha : a.toInt = 0
  · rw [if_pos ha, GF256.toInt_eq_zero.mp ha, zero_div, GF256.toInt_zero]
  · rw [if_neg ha]
    have ha0 : a ≠ 0 := fun e => ha (GF256.toInt_eq_zero.mpr e)
    have hla := logT_lt a.val a.lt
    have hlb := logT_lt b.val b.lt
    have hv : (a / b).toInt = ((expT ((logT a.val + 255 - logT b.val) % 255) : Nat) : Int) := by
      unfold GF256.toInt
      rw [GF256.div_val a b ha0 h]
      unfold pw
      rfl
    rw [hv]
    unfold GF256.toInt
    rw [index_logs _ a.lt, bind_ok, index_logs _ b.lt, bind_ok]
    rw [wrap64_eq ((logT a.val : Int) + 255) (by omega) (by omega),
      wrap64_eq _ (by omega) (by omega), tmod_255, if_pos (by omega)]
    have h1 : ((logT a.val : Int) + 255 - (logT b.val : Int)) % 255 =
        (((logT a.val + 255 - logT b.val) % 255 : Nat) : Int) := by omega
    have h2 := Nat.mod_lt (logT a.val + 255 - logT b.val) (show 255 > 0 by decide)
    rw [h1, index_exps _ (by omega), bind_ok]
    exact Eq.trans rfl rfl

/-! ## The tables after `InitGaloisFields(301, fcr)` -/

/-- The tables after `InitGaloisFields(301, fcr)` at program start do not depend on `fcr`. -/
theorem init_301_tables (G : Tables) (fcr : Int)
    (hG : InitGaloisFields Tables.zero 301 fcr = .ok (G, none)) :
    G = ⟨field301.exponents, field301.logs, fcr⟩ := by
  have h := init_301
  unfold InitGaloisFields at h hG
  generalize initLoop 301 255 0 1 Tables.zero.exponents Tables.zero.logs = r at h hG
  rcases r with e | ⟨ex, lg⟩
  · rw [bind_error] at h
    cases h
  · rw [bind_ok] at h hG
    have h1 : (⟨ex.take 255 ++ (ex.take 255 ++ ex.drop 510), lg, 1⟩ : Tables) = field301 :=
      congrArg Prod.fst (Except.ok.inj h)
    have h2 : (⟨ex.take 255 ++ (ex.take 255 ++ ex.drop 510), lg, fcr⟩ : Tables) = G :=
      congrArg Prod.fst (Except.ok.inj hG)
    rw [← h2, ← h1]

theorem gfMultiplication_tables (G H : Tables) (he : G.exponents = H.exponents)
    (hl : G.logs = H.logs) (x y : Int) : gfMultiplication G x y = gfMultiplication H x y := by
  unfold gfMultiplication
  rw [he, hl]

theorem gfInverse_tables (G H : Tables) (he : G.exponents = H.exponents)
    (hl : G.logs = H.logs) (x : Int) : gfInverse G x = gfInverse H x := by
  unfold gfInverse
  rw [he, hl]

theorem gfDivision_tables (G H : Tables) (he : G.exponents = H.exponents)
    (hl : G.logs = H.logs) (x y : Int) : gfDivision G x y = gfDivision H x y := by
  unfold gfDivision
  rw [he, hl]

theorem int_zero_xor (c : Int) : Int.xor 0 c = c := by
  cases c with
  | ofNat n => show Int.ofNat (0 ^^^ n) = Int.ofNat n; rw [Nat.zero_xor]
  | negSucc n => show Int.negSucc (0 ^^^ n) = Int.negSucc n; rw [Nat.zero_xor]

theorem evalLoop_zero (G : Tables) : ∀ (cs : List Int) (y : Int),
    evalLoop G 0 cs y = .ok ((y :: cs).getLast (List.cons_ne_nil _ _))
  | [], y => rfl
  | c :: cs, y => by
    have hm : gfMultiplication G y 0 = .ok 0 := by
      unfold gfMultiplication
      rw [if_pos (Or.inr rfl)]
    rw [evalLoop, hm, bind_ok, int_zero_xor, evalLoop_zero G cs c, List.getLast_cons_cons]

/-! ## Claims about the field operations -/

/-- C11 (the code departs from the claim): with the same location element listed twice the
denominator of the Forney formula is zero and `gfDivision` returns its error next to `-1`;
`forney` drops that error, stores `-1` (not a symbol) as the magnitude of both positions, and
returns normally: its Go result type `[]int` has no error to report. -/
theorem forney_swallows_zero_division :
    ∃ G, InitGaloisFields Tables.zero 301 1 = .ok (G, none) ∧
      (∃ xinv, gfInverse G 1 = .ok xinv ∧ primeFactors G xinv 0 [1, 1] 0 = .ok [0] ∧
        primeProduct G [0] 1 = .ok 0) ∧
      gfDivision G 1 0 = .ok (-1, some .zeroDivision) ∧
      forney G [0, 0] [1] [1, 1] [0, 1] 1 = .ok [-1, -1] :=
  ⟨field301, init_301, ⟨1, by decide!, by decide!, by decide!⟩, by decide!, by decide!⟩

/-- C12: after `InitGaloisFields(301, fcr)`, for every symbol `x` in `1..255`, `gfInverse(x)`
returns a value whose product with `x` under `gfMultiplication` is 1. -/
theorem gfMultiplication_gfInverse (G : Tables) (fcr : Int)
    (hG : InitGaloisFields Tables.zero 301 fcr = .ok (G, none)) (x : Int)
    (h1 : 1 ≤ x) (h2 : x ≤ 255) :
    ∃ inv, gfInverse G x = .ok inv ∧ gfMultiplication G x inv = .ok 1 := by
  have hT := init_301_tables G fcr hG
  have he : G.exponents = field301.exponents := by rw [hT]
  have hl : G.logs = field301.logs := by rw [hT]
  obtain ⟨a, ha⟩ := GF256.exists_of_range x ⟨by omega, h2⟩
  have ha0 : a ≠ 0 := by
    intro h0
    rw [h0, GF256.toInt_zero] at ha
    omega
  refine ⟨(a⁻¹).toInt, ?_, ?_⟩
  · rw [gfInverse_tables G field301 he hl, ← ha, gfInverse_ok a ha0]
  · rw [gfMultiplication_tables G field301 he hl, ← ha, gfMultiplication_ok,
      mul_inv_cancel₀ ha0]
    rfl

/-- Witness of C12 at the symbol 2 of `TestGfInverse`. -/
theorem gfMultiplication_gfInverse_witness :
    ∃ inv, gfInverse field301 2 = .ok inv ∧ gfMultiplication field301 2 inv = .ok 1 :=
  gfMultiplication_gfInverse field301 1 init_301 2 (by decide) (by decide)

/-- C13: after `InitGaloisFields(301, fcr)`, for every symbol `x` in `0..255` and `y` in
`1..255`, dividing the product `gfMultiplication(x, y)` by `y` returns `x` and no error. -/
theorem gfDivision_gfMultiplication (G : Tables) (fcr : Int)
    (hG : InitGaloisFields Tables.zero 301 fcr = .ok (G, none)) (x y : Int)
    (hx1 : 0 ≤ x) (hx2 : x ≤ 255) (hy1 : 1 ≤ y) (hy2 : y ≤ 255) :
    ∃ m, gfMultiplication G x y = .ok m ∧ gfDivision G m y = .ok (x, none) := by
  have hT := init_301_tables G fcr hG
  have he : G.exponents = field301.exponents := by rw [hT]
  have hl : G.logs = field301.logs := by rw [hT]
  obtain ⟨a, ha⟩ := GF256.exists_of_range x ⟨hx1, hx2⟩
  obtain ⟨b, hb⟩ := GF256.exists_of_range y ⟨by omega, hy2⟩
  have hb0 : b ≠ 0 := by
    intro h0
    rw [h0, GF256.toInt_zero] at hb
    omega
  refine ⟨(a * b).toInt, ?_, ?_⟩
  · rw [gfMultiplication_tables G field301 he hl, ← ha, ← hb, gfMultiplication_ok]
  · rw [gfDivision_tables G field301 he hl, ← ha, ← hb, gfDivision_ok _ _ hb0,
      mul_div_assoc, div_self hb0, mul_one]

/-- Witness of C13 at `x = 2`, `y = 14`. -/
theorem gfDivision_gfMultiplication_witness :
    ∃ m, gfMultiplication field301 2 14 = .ok m ∧ gfDivision field301 m 14 = .ok (2, none) :=
  gfDivision_gfMultiplication field301 1 init_301 2 14 (by decide) (by decide) (by decide)
    (by decide)

/-- C14: `gfDivision` on tables of the declared sizes whose logs lie in `0..254` (as after any
`InitGaloisFields`, and at program start): dividing by 0 gives `-1` with the zero-division
error, whatever `x` is; `0 / y` is `0` without error; for `x, y` in `1..255` the result is
`exponents[(logs[x] + 255 - logs[y]) mod 255]` without error; so an error is returned exactly
when `y = 0`. -/
theorem gfDivision_cases (G : Tables) (hex : G.exponents.length = 510)
    (hlg : G.logs.length = 256) (hrange : ∀ v ∈ G.logs, 0 ≤ v ∧ v < 255) :
    (∀ x : Int, gfDivision G x 0 = .ok (-1, some .zeroDivision)) ∧
      RSError.zeroDivision.text = "Zero Division Error" ∧
      (∀ y : Int, 1 ≤ y → y ≤ 255 → gfDivision G 0 y = .ok (0, none)) ∧
      (∀ x y : Int, 1 ≤ x → x ≤ 255 → 1 ≤ y → y ≤ 255 →
        gfDivision G x y =
          .ok (G.exponents.getD
            ((G.logs.getD x.toNat 0 + 255 - G.logs.getD y.toNat 0) % 255).toNat 0, none)) ∧
      (∀ x y : Int, 0 ≤ x → x ≤ 255 → 0 ≤ y → y ≤ 255 →
        ∃ v err, gfDivision G x y = .ok (v, err) ∧ (err ≠ none ↔ y = 0)) := by
  have hlog : ∀ x : Int, 0 ≤ x → x ≤ 255 →
      index G.logs x = .ok (G.logs.getD x.toNat 0) ∧
        0 ≤ G.logs.getD x.toNat 0 ∧ G.logs.getD x.toNat 0 < 255 := by
    intro x h0 h1
    have hx : x.toNat < G.logs.length := by rw [hlg]; omega
    refine ⟨?_, ?_⟩
    · unfold index
      rw [if_pos ⟨h0, by rw [hlg]; omega⟩]
    · apply hrange
      rw [List.getD_eq_getElem _ _ hx]
      exact List.getElem_mem _
  have hzero : ∀ x : Int, gfDivision G x 0 = .ok (-1, some .zeroDivision) := by
    intro x
    unfold gfDivision
    rw [if_pos rfl]
  have hnum : ∀ y : Int, 1 ≤ y → y ≤ 255 → gfDivision G 0 y = .ok (0, none) := by
    intro y h1 _
    unfold gfDivision
    rw [if_neg (by omega), if_pos rfl]
  have hgen : ∀ x y : Int, 1 ≤ x → x ≤ 255 → 1 ≤ y → y ≤ 255 →
      gfDivision G x y =
        .ok (G.exponents.getD
          ((G.logs.getD x.toNat 0 + 255 - G.logs.getD y.toNat 0) % 255).toNat 0, none) := by
    intro x y hx1 hx2 hy1 hy2
    obtain ⟨ex, hx3, hx4⟩ := hlog x (by omega) hx2
    obtain ⟨ey, hy3, hy4⟩ := hlog y (by omega) hy2
    unfold gfDivision
    rw [if_neg (by omega), if_neg (by omega), ex, bind_ok, ey, bind_ok,
      wrap64_eq (G.logs.getD x.toNat 0 + 255) (by omega) (by omega),
      wrap64_eq _ (by omega) (by omega), Int.tmod_eq_emod (by omega) (by decide)]
    have hi : 0 ≤ (G.logs.getD x.toNat 0 + 255 - G.logs.getD y.toNat 0) % 255 ∧
        (G.logs.getD x.toNat 0 + 255 - G.logs.getD y.toNat 0) % 255 < 255 := by omega
    unfold index
    rw [if_pos ⟨hi.1, by rw [hex]; omega⟩, bind_ok]
    rfl
  refine ⟨hzero, rfl, hnum, hgen, ?_⟩
  intro x y hx1 hx2 hy1 hy2
  by_cases hy : y = 0
  · subst hy
    exact ⟨_, _, hzero x, by simp⟩
  · by_cases hx : x = 0
    · subst hx
      exact ⟨_, _, hnum y (by omega) hy2, by simp [hy]⟩
    · exact ⟨_, _, hgen x y (by omega) hx2 (by omega) hy2, by simp [hy]⟩

/-- Witness of C14 on the tables of `InitGaloisFields(301, 1)` and the values of
`TestGfDivision`. -/
theorem gfDivision_cases_witness :
    field301.exponents.length = 510 ∧ field301.logs.length = 256 ∧
      gfDivision field301 2 0 = .ok (-1, some .zeroDivision) ∧
      gfDivision field301 0 14 = .ok (0, none) ∧
      gfDivision field301 2 14 = .ok (197, none) :=
  have hr : ∀ v ∈ field301.logs, 0 ≤ v ∧ v < 255 := by
    have hall := logs_range_all
    rw [List.all_eq_true] at hall
    intro v hv
    simpa using hall v hv
  have h := gfDivision_cases field301 exponents_length logs_length hr
  ⟨exponents_length, logs_length, h.1 2, h.2.2.1 14 (by decide) (by decide), by
    have h4 := h.2.2.2.1 2 14 (by decide) (by decide) (by decide) (by decide)
    rw [h4]
    decide!⟩

/-- C15: for every non-empty list of integers `p` and every state of the tables,
`gfPolynomialEval(p, 0)` returns the last element of `p`. -/
theorem gfPolynomialEval_at_zero (G : Tables) (p : List Int) (h : p ≠ []) :
    gfPolynomialEval G p 0 = .ok (p.getLast h) := by
  rcases p with _ | ⟨y, cs⟩
  · exact absurd rfl h
  · rw [gfPolynomialEval, evalLoop_zero]

/-- Witness of C15 on the zero tables of program start and a list with a negative entry. -/
theorem gfPolynomialEval_at_zero_witness :
    gfPolynomialEval Tables.zero [5, 2, -7] 0 = .ok (-7) :=
  gfPolynomialEval_at_zero Tables.zero [5, 2, -7] (by decide)

/-- C16: after `InitGaloisFields(301, fcr)` the tables have 510 and 256 entries,
`exponents[0] = 1`, the entries `exponents[0..254]` are pairwise distinct values in `1..255`,
every symbol in `1..255` occurs among them, `logs[exponents[i]] = i` for `i < 255`,
`exponents[logs[x]] = x` for `x` in `1..255`, and `exponents[10] = 180`, `logs[10] = 226`. -/
theorem InitGaloisFields_301_tables (G : Tables) (fcr : Int)
    (hG : InitGaloisFields Tables.zero 301 fcr = .ok (G, none)) :
    G.exponents.length = 510 ∧ G.logs.length = 256 ∧ G.fcr = fcr ∧
      G.exponents.getD 0 0 = 1 ∧
      (∀ i : Nat, i < 255 → 1 ≤ G.exponents.getD i 0 ∧ G.exponents.getD i 0 ≤ 255) ∧
      (∀ i j : Nat, i < 255 → j < 255 →
        G.exponents.getD i 0 = G.exponents.getD j 0 → i = j) ∧
      (∀ x : Nat, 1 ≤ x → x ≤ 255 → ∃ i : Nat, i < 255 ∧ G.exponents.getD i 0 = (x : Int)) ∧
      (∀ i : Nat, i < 255 → G.logs.getD (G.exponents.getD i 0).toNat 0 = (i : Int)) ∧
      (∀ x : Nat, 1 ≤ x → x ≤ 255 →
        G.exponents.getD (G.logs.getD x 0).toNat 0 = (x : Int)) ∧
      G.exponents.getD 10 0 = 180 ∧ G.logs.getD 10 0 = 226 := by
  have hT := init_301_tables G fcr hG
  have he : G.exponents = field301.exponents := by rw [hT]
  have hl : G.logs = field301.logs := by rw [hT]
  have hf : G.fcr = fcr := by rw [hT]
  rw [he, hl]
  have hinv : ∀ i : Nat, i < 255 →
      field301.logs.getD (field301.exponents.getD i 0).toNat 0 = (i : Int) := by
    intro i hi
    have h1 := logT_expT i hi
    have h2 := logs_entry (expT i) (expT_pos i (by omega)).2
    unfold logT at h1
    unfold expT at h1 h2
    omega
  have hinv2 : ∀ x : Nat, 1 ≤ x → x ≤ 255 →
      field301.exponents.getD (field301.logs.getD x 0).toNat 0 = (x : Int) := by
    intro x hx1 hx2
    have h1 := expT_logT x (by omega) (by omega)
    have h2 := exponents_entry (logT x) (by have := logT_lt x (by omega); omega)
    unfold expT at h1
    unfold logT at h1 h2
    omega
  refine ⟨exponents_length, logs_length, hf, by decide!, ?_, ?_, ?_, hinv, hinv2, by decide!,
    by decide!⟩
  · intro i hi
    have := exponents_entry i (by omega)
    omega
  · intro i j hi hj hij
    have h1 := hinv i hi
    have h2 := hinv j hj
    rw [hij] at h1
    omega
  · intro x hx1 hx2
    have h0 := logs_entry x (by omega)
    refine ⟨(field301.logs.getD x 0).toNat, by omega, hinv2 x hx1 hx2⟩

/-- Witness of C16 on the tables of `InitGaloisFields(301, 1)`: the two entries checked by
`TestInitGaloisFields`. -/
theorem InitGaloisFields_301_tables_witness :
    field301.exponents.getD 10 0 = 180 ∧ field301.logs.getD 10 0 = 226 :=
  (InitGaloisFields_301_tables field301 1 init_301).2.2.2.2.2.2.2.2.2

/-- For every `prim` in `[0, 255]`, `InitGaloisFields(prim, fcr)` at program start aborts with
an index out of range.  The walk reaches `x = 256` after eight doublings; XOR with a `prim`
below 256 leaves bit 8 set, so `exponents[8]` receives a value above 255 and the store
`logs[x] = 8` is out of range. -/
theorem InitGaloisFields_small_prim_panics (prim : Nat) (hp : prim < 256) (fcr : Int) :
    InitGaloisFields Tables.zero (prim : Int) fcr = .error .indexOutOfRange := by
  have h : ∀ p : Nat, p < 256 →
      initLoop (p : Int) 255 0 1 Tables.zero.exponents Tables.zero.logs =
        .error .indexOutOfRange := by decide!
  unfold InitGaloisFields
  rw [h prim hp, bind_error]

/-- C17 (counterexample to the claim as stated): `prim = 29`, the low byte of the usual
polynomial `0x11d`, lies in `[0, 255]`, and `InitGaloisFields(29, 1)` at program start does not
complete: it aborts with an index out of range. -/
theorem InitGaloisFields_small_prim_counterexample :
    (0 : Int) ≤ 29 ∧ (29 : Int) ≤ 255 ∧
      InitGaloisFields Tables.zero 29 1 = .error .indexOutOfRange :=
  ⟨by decide, by decide, InitGaloisFields_small_prim_panics 29 (by decide) 1⟩

/-- C18 (the code departs from the claim): on the input of `TestGfPolynomialDivision`, a
dividend of 4 and a divisor of 4 coefficients, the returned remainder has 1 coefficient, not
`len(divisor) - 1 = 3`: the buffer is split at index `len(divisor) - 1` counted from its
front. -/
theorem gfPolynomialDivision_remainder_length :
    ∃ G, InitGaloisFields Tables.zero 301 1 = .ok (G, none) ∧
      gfPolynomialDivision G [5, 11, 156, 163] [2, 15, 252, 3] = .ok ([5, 56, 231], [172]) ∧
      ([172] : List Int).length ≠ ([2, 15, 252, 3] : List Int).length - 1 :=
  ⟨field301, init_301, by decide!, by decide⟩

/-- C19 (the code departs from the claim): `isSyndromeClean` tests `v > 0`, so the list `[-1]`,
whose only coefficient is not zero, is reported clean. -/
theorem isSyndromeClean_negative :
    isSyndromeClean [-1] = true ∧ ¬ (∀ v ∈ ([-1] : List Int), v = 0) :=
  ⟨by decide, by decide⟩

/-- C20: let `L0` be the locator held by `unknownErrorLocator` after its iterations, `L` the
list `L0` without its leading zeros and `errs = len(L) - 1`.  Then the function returns the
too-many-errors error exactly when
`(errs - len(erasureLoc)) * 2 + (erasureCount - len(erasureLoc)) > nsym`, and returns `L`
without error otherwise; so with an empty erasure locator every successful result `L`
satisfies `2 * (len(L) - 1) + erasureCount ≤ nsym`.  (Sizes are those of Go values: far below
the 64-bit limit.) -/
theorem unknownErrorLocator_check (G : Tables) (synd erasureLoc L0 : List Int)
    (nsym erasureCount : Int) (hn : 0 ≤ nsym) (hlen : nsym ≤ (synd.length : Int))
    (hs : synd.length < 1152921504606846976)
    (he : erasureLoc.length < 1152921504606846976)
    (hL : L0.length < 1152921504606846976)
    (hc1 : -1152921504606846976 < erasureCount) (hc2 : erasureCount < 1152921504606846976)
    (hrun : bmLoop G synd erasureLoc erasureCount ((synd.length : Int) - nsym)
      (nsym - erasureCount).toNat 0 (if erasureLoc.length > 0 then erasureLoc else [1])
      (if erasureLoc.length > 0 then erasureLoc else [1]) = .ok L0) :
    unknownErrorLocator G synd erasureLoc nsym erasureCount =
        (if (((L0.dropWhile (fun c => c == 0)).length : Int) - 1 - erasureLoc.length) * 2 +
            (erasureCount - erasureLoc.length) > nsym
        then .ok ([], some (.tooManyErrors
          ((((L0.dropWhile (fun c => c == 0)).length : Int) - 1) * 2 + erasureCount) nsym
          (((L0.dropWhile (fun c => c == 0)).length : Int) - 1) erasureCount))
        else .ok (L0.dropWhile (fun c => c == 0), none)) ∧
      (erasureLoc = [] → ∀ L, unknownErrorLocator G synd erasureLoc nsym erasureCount =
        .ok (L, none) → 2 * ((L.length : Int) - 1) + erasureCount ≤ nsym) := by
  have hd : (L0.dropWhile (fun c => c == 0)).length ≤ L0.length :=
    (List.dropWhile_sublist _).length_le
  have hshift : (if (synd.length : Int) > nsym then wrap64 ((synd.length : Int) - nsym) else 0) =
      (synd.length : Int) - nsym := by
    split
    · rw [wrap64_eq _ (by omega) (by omega)]
    · omega
  have hmain : unknownErrorLocator G synd erasureLoc nsym erasureCount =
      (if (((L0.dropWhile (fun c => c == 0)).length : Int) - 1 - erasureLoc.length) * 2 +
          (erasureCount - erasureLoc.length) > nsym
      then .ok ([], some (.tooManyErrors
        ((((L0.dropWhile (fun c => c == 0)).length : Int) - 1) * 2 + erasureCount) nsym
        (((L0.dropWhile (fun c => c == 0)).length : Int) - 1) erasureCount))
      else .ok (L0.dropWhile (fun c => c == 0), none)) := by
    unfold unknownErrorLocator
    dsimp only
    rw [hshift, wrap64_eq (nsym - erasureCount) (by omega) (by omega), hrun, bind_ok,
      wrap64_eq (erasureCount - (erasureLoc.length : Int)) (by omega) (by omega),
      wrap64_eq _ (by omega) (by omega), wrap64_eq _ (by omega) (by omega)]
    rfl
  refine ⟨hmain, ?_⟩
  intro hnil L hres
  rw [hmain] at hres
  subst hnil
  split at hres
  · cases hres
  · rename_i hcond
    have : L = L0.dropWhile (fun c => c == 0) := by
      have := Except.ok.inj hres
      exact (congrArg Prod.fst this).symm
    rw [this]
    simp only [List.length_nil, Nat.cast_zero, sub_zero] at hcond
    omega

/-- Witness of C20 on the input of `TestUnknownErrorLocatorTooManyErrors`: the loop leaves a
locator of degree 3, and `3 * 2 + 3 = 9 > 8` is rejected with the message the test expects. -/
theorem unknownErrorLocator_check_witness :
    bmLoop field301 [169, 221, 32, 205, 193, 85, 88, 249] [] 3 0 5 0 [1] [1] =
        .ok [22, 60, 95, 1] ∧
      unknownErrorLocator field301 [169, 221, 32, 205, 193, 85, 88, 249] [] 8 3 =
        .ok ([], some (.tooManyErrors 9 8 3 3)) ∧
      (RSError.tooManyErrors 9 8 3 3).text =
        "Too many errors to correct: 9 of max 8 (Found at least 3 errors and 3 erasures)" :=
  have hrun : bmLoop field301 [169, 221, 32, 205, 193, 85, 88, 249] [] 3 0 5 0 [1] [1] =
      .ok [22, 60, 95, 1] := by decide!
  ⟨hrun, (unknownErrorLocator_check field301 [169, 221, 32, 205, 193, 85, 88, 249] []
    [22, 60, 95, 1] 8 3 (by decide) (by decide) (by decide) (by decide) (by decide) (by decide)
    (by decide) hrun).1, by decide⟩

/-! ## Polynomial functions compute on coefficient lists -/

section PolyRefinement

theorem toInts_length (l : List GF256) : (toInts l).length = l.length := by
  unfold toInts; rw [List.length_map]

theorem toInts_cons (a : GF256) (l : List GF256) : toInts (a :: l) = a.toInt :: toInts l := rfl

theorem toInts_nil : toInts [] = [] := rfl

theorem toInts_append (l m : List GF256) : toInts (l ++ m) = toInts l ++ toInts m := by
  unfold toInts; rw [List.map_append]

theorem toInts_injective : Function.Injective toInts :=
  List.map_injective_iff.mpr GF256.toInt_injective

theorem toInts_getD (l : List GF256) (k : Nat) :
    (toInts l).getD k 0 = (l.getD k 0).toInt := by
  unfold toInts
  rw [← GF256.toInt_zero, List.getD_map]

/-- Every Go slice of symbols in `0..255` is the image of a list of field elements. -/
theorem exists_toInts (xs : List Int) (h : ∀ x ∈ xs, 0 ≤ x ∧ x ≤ 255) :
    ∃ l : List GF256, toInts l = xs := by
  induction xs with
  | nil => exact ⟨[], rfl⟩
  | cons x xs ih =>
    obtain ⟨l, hl⟩ := ih (fun y hy => h y (List.mem_cons_of_mem _ hy))
    obtain ⟨a, ha⟩ := GF256.exists_of_range x (h x (List.mem_cons_self _ _))
    exact ⟨a :: l, by rw [toInts_cons, ha, hl]⟩

theorem evalLoop_ok (x : GF256) : ∀ (cs : List GF256) (y : GF256),
    evalLoop field301 x.toInt (toInts cs) y.toInt = .ok (horner id x cs y).toInt
  | [], y => rfl
  | c :: cs, y => by
    rw [toInts_cons, evalLoop, gfMultiplication_ok, bind_ok, GF256.toInt_add, horner]
    exact evalLoop_ok x cs _

theorem gfPolynomialEval_ok (x y : GF256) (cs : List GF256) :
    gfPolynomialEval field301 (toInts (y :: cs)) x.toInt = .ok (horner id x cs y).toInt := by
  rw [toInts_cons, gfPolynomialEval]
  exact evalLoop_ok x cs y

theorem gfPolynomialScale_ok (x : GF256) : ∀ p : List GF256,
    gfPolynomialScale field301 (toInts p) x.toInt = .ok (toInts (p.map (· * x)))
  | [] => rfl
  | c :: cs => by
    have ih := gfPolynomialScale_ok x cs
    unfold gfPolynomialScale at ih ⊢
    rw [toInts_cons, List.mapM_cons, gfMultiplication_ok, bind_ok, ih, bind_ok]
    rfl

theorem toInts_replicate_zero (n : Nat) :
    toInts (List.replicate n 0) = List.replicate n 0 := by
  unfold toInts
  rw [List.map_replicate]
  rfl

theorem toInts_zipWith (l m : List GF256) :
    List.zipWith Int.xor (toInts l) (toInts m) = toInts (List.zipWith (· + ·) l m) := by
  unfold toInts
  rw [List.zipWith_map, List.map_zipWith]
  congr 1
  funext a b
  exact GF256.toInt_add a b

theorem gfPolynomialAddition_ok (p q : List GF256) :
    gfPolynomialAddition (toInts p) (toInts q) = toInts (addP p q) := by
  unfold gfPolynomialAddition addP
  simp only [toInts_length]
  rw [toInts_append, ← toInts_zipWith, ← toInts_replicate_zero]
  unfold toInts
  simp only [List.map_take, List.map_drop, List.map_append]

end PolyRefinement

section ProductRefinement

open Finset

theorem index_toInts (r : List GF256) (k : Nat) (h : k < r.length) :
    index (toInts r) (k : Int) = .ok (r.getD k 0).toInt := by
  rw [index_ok _ _ (by rw [toInts_length]; exact h), toInts_getD]

theorem store_toInts (r : List GF256) (k : Nat) (h : k < r.length) (v : GF256) :
    store (toInts r) (k : Int) v.toInt = .ok (toInts (r.set k v)) := by
  unfold store
  rw [if_pos ⟨Int.natCast_nonneg k, by rw [toInts_length]; exact_mod_cast h⟩]
  unfold toInts
  rw [List.map_set]
  rfl

theorem getD_set_eq {α : Type} (l : List α) (i k : Nat) (a d : α) (h : i < l.length) :
    (l.set i a).getD k d = if k = i then a else l.getD k d := by
  rw [List.getD_eq_getElem?_getD, List.getD_eq_getElem?_getD, List.getElem?_set]
  by_cases hk : k = i
  · subst hk
    simp [h]
  · rw [if_neg (fun e => hk e.symm), if_neg hk]

theorem mulInner_ok (qj : GF256) (j : Nat) : ∀ (cs : List GF256) (i : Nat) (r : List GF256),
    i + j + cs.length ≤ r.length →
    ∃ r', mulInner field301 qj.toInt j (toInts cs) i (toInts r) = .ok (toInts r') ∧
      r'.length = r.length ∧
      ∀ k, r'.getD k 0 = r.getD k 0 +
        (if i + j ≤ k ∧ k < i + j + cs.length then cs.getD (k - (i + j)) 0 * qj else 0)
  | [], i, r, _ => ⟨r, rfl, rfl, fun k => by simp⟩
  | c :: cs, i, r, h => by
    rw [List.length_cons] at h
    have hlt : i + j < r.length := by omega
    obtain ⟨r', h1, h2, h3⟩ := mulInner_ok qj j cs (i + 1)
      (r.set (i + j) (r.getD (i + j) 0 + c * qj)) (by rw [List.length_set]; omega)
    refine ⟨r', ?_, by rw [h2, List.length_set], ?_⟩
    · rw [toInts_cons, mulInner, gfMultiplication_ok, bind_ok, index_toInts _ _ hlt, bind_ok,
        GF256.toInt_add, store_toInts _ _ hlt, bind_ok]
      exact h1
    · intro k
      rw [h3 k, getD_set_eq _ _ _ _ _ hlt, List.length_cons]
      by_cases hk : k = i + j
      · subst hk
        rw [if_pos rfl, if_neg (by omega), if_pos (by omega), Nat.sub_self, add_zero]
        rfl
      · rw [if_neg hk]
        by_cases hk2 : i + 1 + j ≤ k ∧ k < i + 1 + j + cs.length
        · rw [if_pos hk2, if_pos (by omega)]
          have : k - (i + j) = (k - (i + 1 + j)) + 1 := by omega
          rw [this]
          rfl
        · rw [if_neg hk2, if_neg (by omega)]

theorem mulOuter_ok (p : List GF256) : ∀ (qs : List GF256) (j : Nat) (r : List GF256),
    (qs ≠ [] → j + qs.length + p.length ≤ r.length + 1) →
    ∃ r', mulOuter field301 (toInts p) (toInts qs) j (toInts r) = .ok (toInts r') ∧
      r'.length = r.length ∧
      ∀ k, r'.getD k 0 = r.getD k 0 +
        ∑ j' in Finset.range qs.length,
          if j + j' ≤ k then p.getD (k - (j + j')) 0 * qs.getD j' 0 else 0
  | [], j, r, _ => ⟨r, rfl, rfl, fun k => by simp⟩
  | qj :: qs, j, r, h => by
    have h' := h (List.cons_ne_nil _ _)
    rw [List.length_cons] at h'
    obtain ⟨r1, h1, h2, h3⟩ := mulInner_ok qj j p 0 r (by omega)
    obtain ⟨r', h4, h5, h6⟩ := mulOuter_ok p qs (j + 1) r1 (fun _ => by rw [h2]; omega)
    refine ⟨r', ?_, by rw [h5, h2], ?_⟩
    · rw [toInts_cons, mulOuter, h1, bind_ok]
      exact h4
    · intro k
      rw [h6 k, h3 k, List.length_cons, Finset.sum_range_succ', add_assoc]
      congr 1
      rw [add_comm]
      congr 1
      · apply Finset.sum_congr rfl
        intro x _
        have e1 : j + 1 + x = j + (x + 1) := by omega
        rw [e1]
        rfl
      · simp only [Nat.zero_add, Nat.add_zero]
        by_cases hk : j ≤ k
        · rw [if_pos hk]
          by_cases hk2 : k < j + p.length
          · rw [if_pos ⟨hk, hk2⟩]; rfl
          · rw [if_neg (fun e => hk2 e.2)]
            have : p.getD (k - j) 0 = 0 := List.getD_eq_default _ _ (by omega)
            rw [this, zero_mul]
        · rw [if_neg hk, if_neg (fun e => hk e.1)]

theorem getD_replicate_zero {α : Type} (n k : Nat) (d : α) :
    (List.replicate n d).getD k d = d := by
  rw [List.getD_eq_getElem?_getD, List.getElem?_replicate]
  split <;> rfl

theorem mulP_length {F : Type} [Field F] (p q : List F) :
    (mulP p q).length = p.length + q.length - 1 := by
  unfold mulP; rw [List.length_map, List.length_range]

theorem mulP_getD {F : Type} [Field F] (p q : List F) (k : Nat)
    (h : k < p.length + q.length - 1) : (mulP p q).getD k 0 = convCoef p q k := by
  unfold mulP
  rw [List.getD_eq_getElem _ _ (by rw [List.length_map, List.length_range]; exact h)]
  simp

theorem gfPolynomialMultiplication_ok (p q : List GF256) (hp : p ≠ []) :
    gfPolynomialMultiplication field301 (toInts p) (toInts q) = .ok (toInts (mulP p q)) := by
  have hp1 : 1 ≤ p.length := List.length_pos.mpr hp
  obtain ⟨r', h1, h2, h3⟩ := mulOuter_ok p q 0 (List.replicate (p.length + q.length - 1) 0)
    (fun _ => by rw [List.length_replicate]; omega)
  have hr : r' = mulP p q := by
    apply List.ext_getElem
    · rw [h2, List.length_replicate, mulP_length]
    · intro k hk1 hk2
      have e1 := h3 k
      rw [getD_replicate_zero, zero_add] at e1
      rw [List.getD_eq_getElem _ _ hk1] at e1
      have e2 := mulP_getD p q k (by rw [mulP_length] at hk2; exact hk2)
      rw [List.getD_eq_getElem _ _ hk2] at e2
      rw [e1, e2]
      unfold convCoef
      apply Finset.sum_congr rfl
      intro x _
      rw [Nat.zero_add]
  unfold gfPolynomialMultiplication makeZeros
  rw [toInts_length, toInts_length, if_pos (by omega), bind_ok]
  have e3 : ((p.length : Int) + (q.length : Int) - 1).toNat = p.length + q.length - 1 := by omega
  rw [e3, ← toInts_replicate_zero, h1, hr]

end ProductRefinement

section DivisionRefinement

theorem divInner_zeros (G : Tables) (coef : Int) (i : Nat) : ∀ (k j : Nat) (out : List Int),
    divInner G coef i (List.replicate k 0) j out = .ok out
  | 0, _, _ => rfl
  | k + 1, j, out => by
    rw [List.replicate_succ, divInner, if_neg (by simp)]
    exact divInner_zeros G coef i k (j + 1) out

theorem divOuter_placeholder (G : Tables) (k : Nat) : ∀ (n i : Nat) (out : List Int),
    i + n ≤ out.length → divOuter G (1 :: List.replicate k 0) n i out = .ok out
  | 0, _, _, _ => rfl
  | n + 1, i, out, h => by
    rw [divOuter, index_ok _ _ (by omega), bind_ok, List.drop_one, List.tail_cons,
      divInner_zeros, bind_ok]
    have ih := divOuter_placeholder G k n (i + 1) out (by omega)
    rw [ih]
    split <;> rfl

/-- Dividing by the monomial `[1, 0, ..., 0]` leaves the buffer untouched; the function then
splits it at `len(divisor) - 1` counted from the front. -/
theorem gfPolynomialDivision_placeholder (G : Tables) (dividend : List Int) (k : Nat)
    (h : k ≤ dividend.length) :
    gfPolynomialDivision G dividend (1 :: List.replicate k 0) =
      .ok (dividend.take k, dividend.drop k) := by
  unfold gfPolynomialDivision
  dsimp only
  rw [divOuter_placeholder G k _ 0 dividend (by
    rw [List.length_cons, List.length_replicate]; omega), bind_ok]
  unfold splitAt
  rw [List.length_cons, List.length_replicate]
  have e : ((k + 1 : Nat) : Int) - 1 = (k : Int) := by omega
  rw [e, if_pos ⟨by omega, by exact_mod_cast h⟩, Int.toNat_ofNat]

theorem calcErrorPolynomial_ok (s l : List GF256) (t : Nat) (hs : s ≠ [])
    (ht : t + 1 ≤ s.length + l.length - 1) (hsmall : t < 1000) :
    calcErrorPolynomial field301 (toInts s) (toInts l) (t : Int) =
      .ok (toInts ((mulP s l).drop (t + 1))) := by
  unfold calcErrorPolynomial makeZeros
  rw [wrap64_eq _ (by omega) (by omega), if_pos (by omega), bind_ok,
    gfPolynomialMultiplication_ok s l hs, bind_ok]
  have e : ((t : Int) + 1).toNat = t + 1 := by omega
  rw [e, gfPolynomialDivision_placeholder _ _ _ (by rw [toInts_length, mulP_length]; exact ht),
    bind_ok]
  unfold toInts
  rw [List.map_drop]
  rfl

end DivisionRefinement

/-! ## Coefficient lists as polynomials -/

section PolyOfListFacts

open Polynomial

section PolyOfList

variable {F : Type} [Field F]

theorem horner_append {E R : Type} [Mul R] [Add R] (e : E → R) (x : R) :
    ∀ (l m : List E) (a : R), horner e x (l ++ m) a = horner e x m (horner e x l a)
  | [], _, _ => rfl
  | c :: l, m, a => by
    rw [List.cons_append, horner, horner]
    exact horner_append e x l m _

theorem eval_horner (x : F) : ∀ (l : List F) (a : F[X]),
    (horner C X l a).eval x = horner id x l (a.eval x)
  | [], _ => rfl
  | c :: l, a => by
    rw [horner, horner, eval_horner x l]
    simp

theorem horner_acc : ∀ (l : List F) (a : F[X]),
    horner C X l a = a * X ^ l.length + horner C X l 0
  | [], a => by simp [horner]
  | c :: l, a => by
    rw [horner, horner, horner_acc l (a * X + C c), horner_acc l (0 * X + C c),
      List.length_cons]
    ring

theorem horner_cons (c : F) (l : List F) :
    horner C X (c :: l) 0 = C c * X ^ l.length + horner C X l 0 := by
  rw [horner, horner_acc]
  simp

theorem horner_snoc (l : List F) (c : F) :
    horner C X (l ++ [c]) 0 = horner C X l 0 * X + C c := by
  rw [horner_append]
  rfl

theorem horner_poly_append (l m : List F) :
    horner C X (l ++ m) 0 = horner C X l 0 * X ^ m.length + horner C X m 0 := by
  rw [horner_append, horner_acc]

theorem degree_horner_lt : ∀ l : List F, (horner C X l 0 : F[X]).degree < l.length
  | [] => by
    show (0 : F[X]).degree < _
    rw [degree_zero]
    exact WithBot.bot_lt_coe _
  | c :: l => by
    rw [horner_cons, List.length_cons]
    refine lt_of_le_of_lt (degree_add_le _ _) (max_lt ?_ ?_)
    · refine lt_of_le_of_lt (degree_C_mul_X_pow_le _ _) ?_
      exact_mod_cast Nat.lt_succ_self _
    · refine lt_trans (degree_horner_lt l) ?_
      exact_mod_cast Nat.lt_succ_self _

theorem coeff_horner : ∀ (l : List F) (k : Nat),
    (horner C X l 0 : F[X]).coeff k = if k < l.length then l.getD (l.length - 1 - k) 0 else 0 := by
  intro l
  induction l using List.reverseRecOn with
  | nil => intro k; simp [horner]
  | append_singleton l c ih =>
    intro k
    rw [horner_snoc, List.length_append, List.length_singleton]
    cases k with
    | zero =>
      rw [coeff_add, coeff_C_zero, mul_coeff_zero, coeff_X_zero, mul_zero, zero_add,
        if_pos (by omega)]
      have : l.length + 1 - 1 - 0 = l.length := by omega
      rw [this, List.getD_append_right _ _ _ _ (le_refl _), Nat.sub_self]
      rfl
    | succ k =>
      rw [coeff_add, coeff_mul_X, coeff_C_succ, add_zero, ih k]
      by_cases hk : k < l.length
      · rw [if_pos hk, if_pos (by omega)]
        have : l.length + 1 - 1 - (k + 1) = l.length - 1 - k := by omega
        rw [this, List.getD_append _ _ _ _ (by omega)]
      · rw [if_neg hk, if_neg (by omega)]

theorem monic_horner_one (l : List F) : (horner C X (1 :: l) 0 : F[X]).Monic := by
  rw [horner_cons, C_1, one_mul]
  exact monic_X_pow_add (degree_horner_lt l)

theorem natDegree_horner_one (l : List F) :
    (horner C X (1 :: l) 0 : F[X]).natDegree = l.length := by
  rw [horner_cons, C_1, one_mul]
  rw [natDegree_add_eq_left_of_degree_lt (by rw [degree_X_pow]; exact degree_horner_lt l),
    natDegree_X_pow]

end PolyOfList

end PolyOfListFacts

section PolyMulFacts

open Polynomial

section PolyMul

variable {F : Type} [Field F]

theorem getD_reverse (l : List F) (k : Nat) (h : k < l.length) :
    l.reverse.getD k 0 = l.getD (l.length - 1 - k) 0 := by
  rw [List.getD_eq_getElem?_getD, List.getD_eq_getElem?_getD, List.getElem?_reverse h]

theorem coeff_horner_reverse (l : List F) (k : Nat) :
    (horner C X l.reverse 0 : F[X]).coeff k = l.getD k 0 := by
  rw [coeff_horner, List.length_reverse]
  by_cases hk : k < l.length
  · rw [if_pos hk, getD_reverse _ _ (by omega)]
    congr 1
    omega
  · rw [if_neg hk, List.getD_eq_default _ _ (by omega)]

theorem horner_eq_reflect (l : List F) :
    (horner C X l 0 : F[X]) = reflect (l.length - 1) (horner C X l.reverse 0) := by
  ext k
  rw [coeff_reflect, coeff_horner_reverse, coeff_horner]
  by_cases hk : k < l.length
  · rw [if_pos hk, revAt_le (by omega)]
  · rw [if_neg hk]
    by_cases h0 : l.length = 0
    · rw [List.length_eq_zero.mp h0]; rfl
    · rw [revAt_eq_self_of_lt (by omega), List.getD_eq_default _ _ (by omega)]

theorem natDegree_horner_le (l : List F) : (horner C X l 0 : F[X]).natDegree ≤ l.length - 1 := by
  by_cases h0 : l.length = 0
  · rw [List.length_eq_zero.mp h0]
    show (0 : F[X]).natDegree ≤ _
    simp
  · have h := degree_horner_lt l
    by_cases hz : (horner C X l 0 : F[X]) = 0
    · rw [hz]; simp
    · rw [degree_eq_natDegree hz] at h
      have : (horner C X l 0 : F[X]).natDegree < l.length := by exact_mod_cast h
      omega

theorem convCoef_eq (p q : List F) (k : Nat) :
    convCoef p q k = ∑ i in Finset.range (k + 1), p.getD i 0 * q.getD (k - i) 0 := by
  unfold convCoef
  rw [← Finset.sum_range_reflect (fun i => p.getD i 0 * q.getD (k - i) 0) (k + 1),
    ← Finset.sum_filter]
  have h1 : ∑ j in Finset.range (k + 1), p.getD (k + 1 - 1 - j) 0 * q.getD (k - (k + 1 - 1 - j)) 0
      = ∑ j in (Finset.range (k + 1)).filter (fun j => j < q.length),
          p.getD (k - j) 0 * q.getD j 0 := by
    rw [Finset.sum_filter]
    apply Finset.sum_congr rfl
    intro j hj
    rw [Finset.mem_range] at hj
    have e1 : k + 1 - 1 - j = k - j := by omega
    have e2 : k - (k - j) = j := by omega
    rw [e1, e2]
    by_cases hjm : j < q.length
    · rw [if_pos hjm]
    · rw [if_neg hjm, List.getD_eq_default q _ (by omega), mul_zero]
  rw [h1]
  apply Finset.sum_congr
  · ext j
    simp only [Finset.mem_filter, Finset.mem_range]
    omega
  · intro _ _; rfl

theorem mulP_getD_all (p q : List F) (k : Nat) : (mulP p q).getD k 0 = convCoef p q k := by
  by_cases hk : k < p.length + q.length - 1
  · exact mulP_getD p q k hk
  · rw [List.getD_eq_default _ _ (by rw [mulP_length]; omega)]
    unfold convCoef
    symm
    apply Finset.sum_eq_zero
    intro j hj
    rw [Finset.mem_range] at hj
    split
    · rw [List.getD_eq_default p _ (by omega), zero_mul]
    · rfl

theorem horner_reverse_mulP (p q : List F) :
    (horner C X (mulP p q).reverse 0 : F[X]) =
      horner C X p.reverse 0 * horner C X q.reverse 0 := by
  ext k
  rw [coeff_horner_reverse, mulP_getD_all, convCoef_eq, coeff_mul,
    Finset.Nat.sum_antidiagonal_eq_sum_range_succ
      (fun i j => (horner C X p.reverse 0 : F[X]).coeff i * (horner C X q.reverse 0).coeff j)]
  apply Finset.sum_congr rfl
  intro i _
  rw [coeff_horner_reverse, coeff_horner_reverse]

/-- The product list represents the product of the polynomials. -/
theorem horner_mulP (p q : List F) (hp : p ≠ []) (hq : q ≠ []) :
    (horner C X (mulP p q) 0 : F[X]) = horner C X p 0 * horner C X q 0 := by
  have hp1 : 1 ≤ p.length := List.length_pos.mpr hp
  have hq1 : 1 ≤ q.length := List.length_pos.mpr hq
  rw [horner_eq_reflect (mulP p q), horner_reverse_mulP, mulP_length, horner_eq_reflect p,
    horner_eq_reflect q]
  have e : p.length + q.length - 1 - 1 = (p.length - 1) + (q.length - 1) := by omega
  rw [e]
  apply reflect_mul
  · have := natDegree_horner_le p.reverse
    rwa [List.length_reverse] at this
  · have := natDegree_horner_le q.reverse
    rwa [List.length_reverse] at this

end PolyMul

end PolyMulFacts

section CoefficientFacts

open Polynomial

section Coefficients

variable {F : Type} [Field F]

theorem cf_eq (l : List F) (j : Nat) :
    cf l j = if j < l.length then l.getD (l.length - 1 - j) 0 else 0 := by
  unfold cf
  by_cases h : j < l.length
  · rw [if_pos h, getD_reverse _ _ h]
  · rw [if_neg h, List.getD_eq_default _ _ (by rw [List.length_reverse]; omega)]

theorem cf_eq_coeff (l : List F) (j : Nat) : cf l j = (horner C X l 0 : F[X]).coeff j := by
  rw [cf_eq, coeff_horner]

theorem cf_of_le (l : List F) (j : Nat) (h : l.length ≤ j) : cf l j = 0 := by
  rw [cf_eq, if_neg (by omega)]

theorem cf_append_zero_zero (l : List F) : cf (l ++ [0]) 0 = 0 := by
  unfold cf; rw [List.reverse_append]; rfl

theorem cf_append_zero_succ (l : List F) (j : Nat) : cf (l ++ [0]) (j + 1) = cf l j := by
  unfold cf; rw [List.reverse_append]; rfl

theorem cf_map_mul (l : List F) (c : F) (j : Nat) : cf (l.map (· * c)) j = cf l j * c := by
  unfold cf
  rw [← List.map_reverse]
  have h := List.getD_map (l := l.reverse) (d := (0 : F)) (n := j) (· * c)
  simp only [zero_mul] at h
  exact h

theorem addP_length (p q : List F) : (addP p q).length = max p.length q.length := by
  unfold addP
  simp only [List.length_append, List.length_take, List.length_replicate, List.length_zipWith,
    List.length_drop]
  split <;> omega

theorem addP_getD (p q : List F) (k : Nat) (hk : k < max p.length q.length) :
    (addP p q).getD k 0 =
      (if k < max p.length q.length - p.length then 0
        else p.getD (k - (max p.length q.length - p.length)) 0) +
      (if k < max p.length q.length - q.length then 0
        else q.getD (k - (max p.length q.length - q.length)) 0) := by
  unfold addP
  by_cases hpq : p.length > q.length
  · have hm : max p.length q.length = p.length := by omega
    simp only [if_pos hpq, hm, Nat.sub_self, List.replicate_zero, List.nil_append]
    rw [if_neg (by omega), Nat.sub_zero]
    by_cases hk1 : k < p.length - q.length
    · rw [if_pos hk1, add_zero,
        List.getD_append _ _ _ _ (by rw [List.length_take]; omega)]
      rw [List.getD_eq_getElem?_getD, List.getD_eq_getElem?_getD, List.getElem?_take,
        if_pos hk1]
    · rw [if_neg hk1, List.getD_append_right _ _ _ _ (by rw [List.length_take]; omega),
        List.length_take]
      have e : min (p.length - q.length) p.length = p.length - q.length := by omega
      rw [e]
      rw [hm] at hk
      have h1 : k - (p.length - q.length) < q.length := by omega
      rw [List.getD_eq_getElem?_getD, List.getElem?_zipWith, List.getElem?_drop,
        List.getElem?_eq_getElem h1]
      have h2 : p.length - q.length + (k - (p.length - q.length)) = k := by omega
      rw [h2, List.getElem?_eq_getElem (by omega : k < p.length)]
      simp only [Option.getD_some]
      rw [List.getD_eq_getElem _ _ (by omega : k < p.length), List.getD_eq_getElem _ _ h1]
  · have hm : max p.length q.length = q.length := by omega
    simp only [if_neg hpq, hm, Nat.sub_self, List.take_zero, List.nil_append, List.drop_zero]
    rw [hm] at hk
    rw [if_neg (by omega : ¬ k < 0), Nat.sub_zero]
    rw [List.getD_eq_getElem?_getD, List.getElem?_zipWith, List.getElem?_eq_getElem hk,
      List.getElem?_eq_getElem (by rw [List.length_append, List.length_replicate]; omega)]
    simp only [Option.getD_some]
    rw [List.getD_eq_getElem q _ hk]
    congr 1
    by_cases hk1 : k < q.length - p.length
    · rw [if_pos hk1, List.getElem_append_left (by rw [List.length_replicate]; exact hk1),
        List.getElem_replicate]
    · rw [if_neg hk1, List.getElem_append_right (by rw [List.length_replicate]; omega),
        List.getD_eq_getElem _ _ (by omega)]
      simp only [List.length_replicate]

theorem cf_addP (p q : List F) (j : Nat) : cf (addP p q) j = cf p j + cf q j := by
  rw [cf_eq, cf_eq p, cf_eq q, addP_length]
  by_cases hj : j < max p.length q.length
  · rw [if_pos hj, addP_getD _ _ _ (by omega)]
    congr 1
    · by_cases h1 : j < p.length
      · rw [if_pos h1, if_neg (by omega)]
        congr 1
        omega
      · rw [if_neg h1, if_pos (by omega)]
    · by_cases h1 : j < q.length
      · rw [if_pos h1, if_neg (by omega)]
        congr 1
        omega
      · rw [if_neg h1, if_pos (by omega)]
  · rw [if_neg hj, if_neg (by omega), if_neg (by omega), add_zero]

end Coefficients

end CoefficientFacts

/-! ## The Berlekamp-Massey loop: Massey's bound and the loop invariant -/

section MasseyFacts

open Finset

section BM

variable {F : Type} [Field F]

theorem disc_addP (p q : List F) (s : Nat → F) (k : Nat) :
    disc (addP p q) s k = disc p s k + disc q s k := by
  unfold disc
  rw [← Finset.sum_add_distrib]
  apply Finset.sum_congr rfl
  intro j _
  rw [cf_addP, add_mul]

theorem disc_map_mul (l : List F) (c : F) (s : Nat → F) (k : Nat) :
    disc (l.map (· * c)) s k = disc l s k * c := by
  unfold disc
  rw [Finset.sum_mul]
  apply Finset.sum_congr rfl
  intro j _
  rw [cf_map_mul]
  ring

theorem disc_append_zero_succ (l : List F) (s : Nat → F) (k : Nat) :
    disc (l ++ [0]) s (k + 1) = disc l s k := by
  unfold disc
  rw [Finset.sum_range_succ', cf_append_zero_zero, zero_mul, add_zero]
  apply Finset.sum_congr rfl
  intro j _
  rw [cf_append_zero_succ, Nat.add_sub_add_right]

theorem disc_append_zero_zero (l : List F) (s : Nat → F) : disc (l ++ [0]) s 0 = 0 := by
  unfold disc
  rw [Finset.sum_range_one, cf_append_zero_zero, zero_mul]

theorem disc_eq_short (l : List F) (s : Nat → F) (k : Nat) (h : l.length ≤ k + 1) :
    disc l s k = ∑ j in Finset.range l.length, cf l j * s (k - j) := by
  unfold disc
  symm
  apply Finset.sum_subset
  · intro j hj
    rw [Finset.mem_range] at hj ⊢
    omega
  · intro j _ hj
    rw [Finset.mem_range] at hj
    rw [cf_of_le l j (by omega), zero_mul]

theorem bmDelta_eq_disc (C S : List F) (K : Nat) (h0 : cf C 0 = 1) (h1 : 1 ≤ C.length)
    (h2 : C.length ≤ K + 1) : bmDelta C S K = disc C (fun k => S.getD k 0) K := by
  rw [disc_eq_short _ _ _ h2]
  unfold bmDelta
  rw [Finset.range_eq_Ico,
    Finset.sum_eq_sum_Ico_succ_bot (show 0 < C.length by omega)
      (fun j => cf C j * S.getD (K - j) 0), h0, one_mul, Nat.sub_zero]

theorem map_mul_inv_cancel (l : List F) (d : F) (hd : d ≠ 0) :
    (l.map (· * d⁻¹)).map (· * d) = l := by
  rw [List.map_map]
  conv_rhs => rw [← List.map_id l]
  apply List.map_congr_left
  intro a _
  simp only [Function.comp_apply, id]
  rw [mul_assoc, inv_mul_cancel₀ hd, mul_one]

/-- Massey's bound: when a connection list of length `L + 1` generates the first `i` terms but
fails at index `i`, any connection list generating the first `i + 1` terms has length at least
`i + 1 - L + 1`. -/
theorem massey_bound (s : Nat → F) (i : Nat) (C L : List F)
    (hC1 : 1 ≤ C.length) (hL1 : 1 ≤ L.length) (hL0 : cf L 0 = 1)
    (hC : ∀ k, C.length ≤ k + 1 → k < i → disc C s k = 0)
    (hd : disc C s i ≠ 0)
    (hL : ∀ k, L.length ≤ k + 1 → k ≤ i → disc L s k = 0) :
    i + 3 ≤ C.length + L.length := by
  by_contra hcon
  have hle : C.length + L.length ≤ i + 2 := by omega
  -- the double sum, computed in two ways
  have e1 : ∑ a in Finset.range L.length, cf L a * disc C s (i - a) = disc C s i := by
    rw [Finset.range_eq_Ico,
      Finset.sum_eq_sum_Ico_succ_bot (show 0 < L.length by omega)
        (fun a => cf L a * disc C s (i - a)), hL0, one_mul, Nat.sub_zero]
    have : ∑ a in Finset.Ico (0 + 1) L.length, cf L a * disc C s (i - a) = 0 := by
      apply Finset.sum_eq_zero
      intro a ha
      rw [Finset.mem_Ico] at ha
      rw [hC (i - a) (by omega) (by omega), mul_zero]
    rw [this, add_zero]
  have e2 : ∑ b in Finset.range C.length, cf C b * disc L s (i - b) = 0 := by
    apply Finset.sum_eq_zero
    intro b hb
    rw [Finset.mem_range] at hb
    rw [hL (i - b) (by omega) (by omega), mul_zero]
  have e3 : ∑ a in Finset.range L.length, cf L a * disc C s (i - a) =
      ∑ b in Finset.range C.length, cf C b * disc L s (i - b) := by
    have f1 : ∀ a ∈ Finset.range L.length, cf L a * disc C s (i - a) =
        ∑ b in Finset.range C.length, cf L a * (cf C b * s (i - a - b)) := by
      intro a ha
      rw [Finset.mem_range] at ha
      rw [disc_eq_short C s (i - a) (by omega), Finset.mul_sum]
    have f2 : ∀ b ∈ Finset.range C.length, cf C b * disc L s (i - b) =
        ∑ a in Finset.range L.length, cf L a * (cf C b * s (i - a - b)) := by
      intro b hb
      rw [Finset.mem_range] at hb
      rw [disc_eq_short L s (i - b) (by omega), Finset.mul_sum]
      apply Finset.sum_congr rfl
      intro a _
      have : i - b - a = i - a - b := by omega
      rw [this]
      ring
    rw [Finset.sum_congr rfl f1, Finset.sum_congr rfl f2, Finset.sum_comm]
  rw [e1, e2] at e3
  exact hd e3

end BM

end MasseyFacts

section InvariantFacts

open Finset

section BMInvariant

variable {F : Type} [Field F] [CharP F 2] [DecidableEq F]

omit [CharP F 2] [DecidableEq F] in
theorem bmInv_init (s : Nat → F) (T : Nat) : BMInv s T 0 [1] [1] where
  len := rfl
  lenC := le_refl _
  lenB := le_refl _
  c0 := rfl
  gen := fun k _ hk => absurd hk (Nat.not_lt_zero k)
  old0 := fun k _ hk => absurd hk (Nat.not_lt_zero _)
  old1 := fun k _ hk => absurd hk (Nat.succ_ne_zero k)
  bound := by simp

theorem bmStep_inv (S L : List F) (N i : Nat) (C B : List F) (hi : i < N)
    (hL1 : 1 ≤ L.length) (hL0 : cf L 0 = 1)
    (hL : ∀ k, L.length ≤ k + 1 → k < N → disc L (fun k => S.getD k 0) k = 0)
    (inv : BMInv (fun k => S.getD k 0) (L.length - 1) i C B) :
    BMInv (fun k => S.getD k 0) (L.length - 1) (i + 1)
      (bmStep S i (C, B)).1 (bmStep S i (C, B)).2 := by
  obtain ⟨hlen, hlenC, hlenB, hc0, hgen, hold0, hold1, hbound⟩ := inv
  have hd : bmDelta C S i = disc C (fun k => S.getD k 0) i :=
    bmDelta_eq_disc C S i hc0 hlenC (by omega)
  have hB0 : ∀ k, B.length + 1 ≤ k + 1 → k < i →
      disc (B ++ [0]) (fun k => S.getD k 0) k = 0 := by
    intro k h1 h2
    obtain ⟨k', rfl⟩ : ∃ k', k = k' + 1 := ⟨k - 1, by omega⟩
    rw [disc_append_zero_succ]
    exact hold0 k' (by omega) (by omega)
  have hB1 : B.length + 1 ≤ i + 1 → disc (B ++ [0]) (fun k => S.getD k 0) i = 1 := by
    intro h1
    obtain ⟨k', rfl⟩ : ∃ k', i = k' + 1 := ⟨i - 1, by omega⟩
    rw [disc_append_zero_succ]
    exact hold1 k' (by omega) rfl
  have hBold0 : ∀ k, (B ++ [0]).length ≤ k + 1 → k + 1 < i + 1 →
      disc (B ++ [0]) (fun k => S.getD k 0) k = 0 := by
    intro k h1 h2
    rw [List.length_append, List.length_singleton] at h1
    exact hB0 k h1 (by omega)
  have hBold1 : ∀ k, (B ++ [0]).length ≤ k + 1 → k + 1 = i + 1 →
      disc (B ++ [0]) (fun k => S.getD k 0) k = 1 := by
    intro k h1 h2
    rw [List.length_append, List.length_singleton] at h1
    have : k = i := by omega
    subst this
    exact hB1 h1
  unfold bmStep
  simp only
  by_cases hz : bmDelta C S i = 0
  · rw [if_pos hz]
    refine ⟨?_, hlenC, ?_, hc0, ?_, hBold0, hBold1, hbound⟩
    · simp only [List.length_append, List.length_singleton]; omega
    · simp only [List.length_append, List.length_singleton]; omega
    · intro k h1 h2
      by_cases hk : k = i
      · subst hk
        rw [← hd]; exact hz
      · exact hgen k h1 (by omega)
  · rw [if_neg hz]
    have hdne : disc C (fun k => S.getD k 0) i ≠ 0 := by rw [← hd]; exact hz
    by_cases hsw : (B ++ [0]).length > C.length
    · rw [if_pos hsw, map_mul_inv_cancel _ _ hz]
      rw [List.length_append, List.length_singleton] at hsw
      have hmassey := massey_bound (fun k => S.getD k 0) i C L hlenC hL1 hL0 hgen hdne
        (fun k h1 h2 => hL k h1 (by omega))
      refine ⟨?_, ?_, ?_, ?_, ?_, ?_, ?_, ?_⟩
      · simp only [addP_length, List.length_map, List.length_append, List.length_singleton]
        omega
      · simp only [addP_length, List.length_map, List.length_append, List.length_singleton]
        omega
      · simp only [List.length_map]; exact hlenC
      · rw [cf_addP, cf_map_mul, cf_append_zero_zero, zero_mul, zero_add, hc0]
      · intro k h1 h2
        simp only [addP_length, List.length_map, List.length_append, List.length_singleton]
          at h1
        rw [disc_addP, disc_map_mul]
        by_cases hk : k = i
        · subst hk
          rw [hB1 (by omega), one_mul, ← hd]
          exact CharTwo.add_self_eq_zero _
        · rw [hB0 k (by omega) (by omega), zero_mul, zero_add]
          exact hgen k (by omega) (by omega)
      · intro k h1 h2
        simp only [List.length_map] at h1
        rw [disc_map_mul, hgen k h1 (by omega), zero_mul]
      · intro k h1 h2
        have : k = i := by omega
        subst this
        rw [disc_map_mul, hd, mul_inv_cancel₀ hdne]
      · simp only [addP_length, List.length_map, List.length_append, List.length_singleton]
        omega
    · rw [if_neg hsw]
      rw [List.length_append, List.length_singleton] at hsw
      refine ⟨?_, ?_, ?_, ?_, ?_, hBold0, hBold1, ?_⟩
      · simp only [addP_length, List.length_map, List.length_append, List.length_singleton]
        omega
      · simp only [addP_length, List.length_map, List.length_append, List.length_singleton]
        omega
      · simp only [List.length_append, List.length_singleton]; omega
      · rw [cf_addP, cf_map_mul, cf_append_zero_zero, zero_mul, add_zero, hc0]
      · intro k h1 h2
        simp only [addP_length, List.length_map, List.length_append, List.length_singleton]
          at h1
        rw [disc_addP, disc_map_mul]
        by_cases hk : k = i
        · subst hk
          rw [hB1 (by omega), one_mul, ← hd]
          exact CharTwo.add_self_eq_zero _
        · rw [hB0 k (by omega) (by omega), zero_mul, add_zero]
          exact hgen k (by omega) (by omega)
      · simp only [addP_length, List.length_map, List.length_append, List.length_singleton]
        omega

/-- After the loop the locator generates all `N` terms and is no longer than the list `L`. -/
theorem bmRun_inv (S L : List F) (N : Nat)
    (hL1 : 1 ≤ L.length) (hL0 : cf L 0 = 1)
    (hL : ∀ k, L.length ≤ k + 1 → k < N → disc L (fun k => S.getD k 0) k = 0) :
    ∀ (n i : Nat) (C B : List F), i + n = N →
      BMInv (fun k => S.getD k 0) (L.length - 1) i C B →
      1 ≤ (bmRun S n i (C, B)).length ∧ (bmRun S n i (C, B)).length ≤ L.length ∧
      cf (bmRun S n i (C, B)) 0 = 1 ∧
      ∀ k, (bmRun S n i (C, B)).length ≤ k + 1 → k < N →
        disc (bmRun S n i (C, B)) (fun k => S.getD k 0) k = 0
  | 0, i, C, B, hn, inv => by
    have : i = N := by omega
    subst this
    have hb : C.length ≤ L.length := by have := inv.bound; omega
    exact ⟨inv.lenC, hb, inv.c0, inv.gen⟩
  | n + 1, i, C, B, hn, inv => by
    rw [bmRun]
    exact bmRun_inv S L N hL1 hL0 hL n (i + 1) _ _ (by omega)
      (bmStep_inv S L N i C B (by omega) hL1 hL0 hL inv)

end BMInvariant

end InvariantFacts

/-! ## Power-sum sequences and their locator -/

section LocatorFacts

open Finset Polynomial

section Locator

variable {F : Type} [Field F] {ι : Type} [DecidableEq ι]

theorem disc_congr (l : List F) (s s' : Nat → F) (k : Nat) (h : ∀ m ≤ k, s m = s' m) :
    disc l s k = disc l s' k := by
  unfold disc
  apply Finset.sum_congr rfl
  intro j _
  rw [h (k - j) (Nat.sub_le _ _)]

/-- Power sums of pairwise distinct points that vanish for the first `|T|` exponents have zero
weights (the Vandermonde argument, through an interpolation polynomial). -/
theorem vandermonde_zero (T : Finset ι) (X v : ι → F) (hinj : Set.InjOn X T)
    (h : ∀ m < T.card, ∑ p in T, v p * X p ^ m = 0) : ∀ q ∈ T, v q = 0 := by
  intro q hq
  have hmon : (∏ p in T.erase q, (Polynomial.X - C (X p))).Monic :=
    monic_prod_of_monic _ _ (fun p _ => monic_X_sub_C _)
  have hdeg : (∏ p in T.erase q, (Polynomial.X - C (X p))).natDegree = T.card - 1 := by
    rw [natDegree_prod_of_monic _ _ (fun p _ => monic_X_sub_C _)]
    simp only [natDegree_X_sub_C, Finset.sum_const, smul_eq_mul, mul_one]
    rw [Finset.card_erase_of_mem hq]
  have hcard : 1 ≤ T.card := Finset.card_pos.mpr ⟨q, hq⟩
  have hsum : ∑ p in T, v p * (∏ p' in T.erase q, (Polynomial.X - C (X p'))).eval (X p) = 0 := by
    have e1 : ∀ p ∈ T, v p * (∏ p' in T.erase q, (Polynomial.X - C (X p'))).eval (X p) =
        ∑ m in Finset.range T.card,
          (∏ p' in T.erase q, (Polynomial.X - C (X p'))).coeff m * (v p * X p ^ m) := by
      intro p _
      rw [eval_eq_sum_range' (show _ < T.card by rw [hdeg]; omega), Finset.mul_sum]
      apply Finset.sum_congr rfl
      intro m _
      ring
    rw [Finset.sum_congr rfl e1, Finset.sum_comm]
    apply Finset.sum_eq_zero
    intro m hm
    rw [Finset.mem_range] at hm
    rw [← Finset.mul_sum, h m hm, mul_zero]
  rw [Finset.sum_eq_single_of_mem q hq] at hsum
  · rcases mul_eq_zero.mp hsum with h0 | h0
    · exact h0
    · exfalso
      rw [eval_prod] at h0
      obtain ⟨p, hp, hp0⟩ := Finset.prod_eq_zero_iff.mp h0
      rw [eval_sub, eval_X, eval_C, sub_eq_zero] at hp0
      have := hinj hq (Finset.mem_of_mem_erase hp) hp0
      exact (Finset.ne_of_mem_erase hp) this.symm
  · intro p hp hpq
    rw [eval_prod, Finset.prod_eq_zero (Finset.mem_erase.mpr ⟨hpq, hp⟩), mul_zero]
    rw [eval_sub, eval_X, eval_C, sub_self]

omit [DecidableEq ι] in
/-- The sequence `s_k = ∑_p w_p X_p^k` is generated by a connection list of length `|T| + 1`
(the coefficients of `∏ (x - X_p)`). -/
theorem locator_exists (T : Finset ι) (X w : ι → F) :
    ∃ L : List F, L.length = T.card + 1 ∧ cf L 0 = 1 ∧
      ∀ k, T.card ≤ k → disc L (fun k => ∑ p in T, w p * X p ^ k) k = 0 := by
  have hmon : (∏ p in T, (Polynomial.X - C (X p))).Monic :=
    monic_prod_of_monic _ _ (fun p _ => monic_X_sub_C _)
  have hdeg : (∏ p in T, (Polynomial.X - C (X p))).natDegree = T.card := by
    rw [natDegree_prod_of_monic _ _ (fun p _ => monic_X_sub_C _)]
    simp only [natDegree_X_sub_C, Finset.sum_const, smul_eq_mul, mul_one]
  have hcf : ∀ j, j ≤ T.card →
      cf ((List.range (T.card + 1)).map (∏ p in T, (Polynomial.X - C (X p))).coeff) j =
        (∏ p in T, (Polynomial.X - C (X p))).coeff (T.card - j) := by
    intro j hj
    rw [cf_eq, List.length_map, List.length_range, if_pos (by omega),
      List.getD_eq_getElem _ _ (by rw [List.length_map, List.length_range]; omega)]
    simp only [List.getElem_map, List.getElem_range]
    congr 1
  refine ⟨(List.range (T.card + 1)).map (∏ p in T, (Polynomial.X - C (X p))).coeff, ?_, ?_, ?_⟩
  · rw [List.length_map, List.length_range]
  · rw [hcf 0 (Nat.zero_le _), Nat.sub_zero, ← hdeg]
    exact hmon.coeff_natDegree
  · intro k hk
    rw [disc_eq_short _ _ _ (by rw [List.length_map, List.length_range]; omega),
      List.length_map, List.length_range]
    have e1 : ∀ j ∈ Finset.range (T.card + 1),
        cf ((List.range (T.card + 1)).map (∏ p in T, (Polynomial.X - C (X p))).coeff) j *
          (∑ p in T, w p * X p ^ (k - j)) =
        ∑ p in T, w p * X p ^ (k - T.card) *
          ((∏ p in T, (Polynomial.X - C (X p))).coeff (T.card - j) * X p ^ (T.card - j)) := by
      intro j hj
      rw [Finset.mem_range] at hj
      rw [hcf j (by omega), Finset.mul_sum]
      apply Finset.sum_congr rfl
      intro p _
      have : k - j = (k - T.card) + (T.card - j) := by omega
      rw [this, pow_add]
      ring
    rw [Finset.sum_congr rfl e1, Finset.sum_comm]
    apply Finset.sum_eq_zero
    intro p hp
    rw [← Finset.mul_sum]
    have e2 : ∑ j in Finset.range (T.card + 1),
        (∏ p in T, (Polynomial.X - C (X p))).coeff (T.card - j) * X p ^ (T.card - j) =
        (∏ p in T, (Polynomial.X - C (X p))).eval (X p) := by
      rw [eval_eq_sum_range' (show _ < T.card + 1 by rw [hdeg]; omega)]
      exact Finset.sum_range_reflect
        (fun m => (∏ p in T, (Polynomial.X - C (X p))).coeff m * X p ^ m) (T.card + 1)
    rw [e2, eval_prod, Finset.prod_eq_zero hp, mul_zero]
    rw [eval_sub, eval_X, eval_C, sub_self]

end Locator

end LocatorFacts

/-! ## `unknownErrorLocator` computes the Berlekamp-Massey loop -/

section LoopRefinement

open Finset

theorem deltaLoop_ok (C S : List GF256) (K : Nat) (hK : K < S.length) (hC : C.length ≤ K + 1) :
    ∀ (n j : Nat) (d : GF256), 1 ≤ j → j + n = C.length →
      deltaLoop field301 (toInts C) (toInts S) (K : Int) n (j : Int) d.toInt =
        .ok (d + ∑ a in Finset.Ico j C.length, cf C a * S.getD (K - a) 0).toInt
  | 0, j, d, _, hn => by
    rw [deltaLoop, Finset.Ico_eq_empty (by omega), Finset.sum_empty, add_zero]
  | n + 1, j, d, hj, hn => by
    have e1 : ((toInts C).length : Int) - ((j : Int) + 1) = ((C.length - 1 - j : Nat) : Int) := by
      rw [toInts_length]; omega
    have e2 : (K : Int) - (j : Int) = ((K - j : Nat) : Int) := by omega
    rw [deltaLoop, e1, index_toInts C _ (by omega), bind_ok, e2, index_toInts S _ (by omega),
      bind_ok, gfMultiplication_ok, bind_ok, GF256.toInt_add]
    have e3 : (j : Int) + 1 = ((j + 1 : Nat) : Int) := by push_cast; rfl
    rw [e3, deltaLoop_ok C S K hK hC n (j + 1) _ (by omega) (by omega),
      Finset.sum_eq_sum_Ico_succ_bot (show j < C.length by omega)
        (fun a => cf C a * S.getD (K - a) 0), cf_eq, if_pos (by omega), add_assoc]

theorem bmDelta_ok (C S : List GF256) (K : Nat) (hK : K < S.length) (h1 : 1 ≤ C.length)
    (hC : C.length ≤ K + 1) :
    deltaLoop field301 (toInts C) (toInts S) (K : Int) ((toInts C).length - 1) 1
        (S.getD K 0).toInt = .ok (bmDelta C S K).toInt := by
  have := deltaLoop_ok C S K hK hC (C.length - 1) 1 (S.getD K 0) (le_refl 1) (by omega)
  rw [toInts_length]
  exact this

theorem bmStep_length (S : List GF256) (i : Nat) (C B : List GF256)
    (hlen : C.length + B.length = i + 2) (hC : 1 ≤ C.length) (hB : 1 ≤ B.length) :
    (bmStep S i (C, B)).1.length + (bmStep S i (C, B)).2.length = i + 1 + 2 ∧
      1 ≤ (bmStep S i (C, B)).1.length ∧ 1 ≤ (bmStep S i (C, B)).2.length := by
  unfold bmStep
  dsimp only
  split
  · simp only [List.length_append, List.length_singleton]; omega
  · split
    · rename_i h
      rw [List.length_append, List.length_singleton] at h
      simp only [addP_length, List.length_map, List.length_append, List.length_singleton]
      omega
    · rename_i h
      rw [List.length_append, List.length_singleton] at h
      simp only [addP_length, List.length_map, List.length_append, List.length_singleton]
      omega

theorem bmLoop_ok (S : List GF256) (ec : Int) (hS : S.length < 1000) :
    ∀ (n i : Nat) (C B : List GF256), i + n ≤ S.length →
      C.length + B.length = i + 2 → 1 ≤ C.length → 1 ≤ B.length →
      bmLoop field301 (toInts S) [] ec 0 n (i : Int) (toInts C) (toInts B) =
        .ok (toInts (bmRun S n i (C, B)))
  | 0, i, C, B, _, _, _, _ => by rw [bmLoop, bmRun]
  | n + 1, i, C, B, hn, hlen, hC, hB => by
    have hstep := bmStep_length S i C B hlen hC hB
    have ih := bmLoop_ok S ec hS n (i + 1) (bmStep S i (C, B)).1 (bmStep S i (C, B)).2
      (by omega) hstep.1 hstep.2.1 hstep.2.2
    have e3 : (i : Int) + 1 = ((i + 1 : Nat) : Int) := by push_cast; rfl
    rw [bmLoop, bmRun]
    dsimp only
    rw [List.length_nil, if_neg (lt_irrefl 0), add_zero,
      wrap64_eq _ (by omega) (by omega), index_toInts S i (by omega), bind_ok,
      bmDelta_ok C S i (by omega) hC (by omega), bind_ok, e3]
    have e0 : toInts B ++ [0] = toInts (B ++ [0]) := by rw [toInts_append]; rfl
    rw [e0]
    by_cases hd : bmDelta C S i = 0
    · have hd' : ¬ (bmDelta C S i).toInt ≠ 0 := by rw [hd]; exact fun h => h rfl
      rw [if_neg hd']
      have hs : bmStep S i (C, B) = (C, B ++ [0]) := by
        unfold bmStep; rw [if_pos hd]
      rw [hs] at ih ⊢
      exact ih
    · have hd' : (bmDelta C S i).toInt ≠ 0 := fun e => hd (GF256.toInt_eq_zero.mp e)
      rw [if_pos hd']
      simp only [toInts_length]
      by_cases hl : (B ++ [0]).length > C.length
      · rw [if_pos hl, gfPolynomialScale_ok, bind_ok, gfInverse_ok _ hd, bind_ok,
          gfPolynomialScale_ok, bind_ok, gfPolynomialScale_ok, bind_ok,
          gfPolynomialAddition_ok]
        have hs : bmStep S i (C, B) =
            (addP ((B ++ [0]).map (· * bmDelta C S i))
              ((C.map (· * (bmDelta C S i)⁻¹)).map (· * bmDelta C S i)),
              C.map (· * (bmDelta C S i)⁻¹)) := by
          unfold bmStep; rw [if_neg hd, if_pos hl]
        rw [hs] at ih ⊢
        exact ih
      · rw [if_neg hl, gfPolynomialScale_ok, bind_ok, gfPolynomialAddition_ok]
        have hs : bmStep S i (C, B) =
            (addP C ((B ++ [0]).map (· * bmDelta C S i)), B ++ [0]) := by
          unfold bmStep; rw [if_neg hd, if_neg hl]
        rw [hs] at ih ⊢
        exact ih

end LoopRefinement

/-! ## The loop output is the locator of the error positions -/

section UniqueFacts

open Finset Polynomial

section Unique

variable {F : Type} [Field F] {ι : Type}

theorem horner_id_zero (x : F) (l : List F) :
    horner id x l 0 = (horner C X l 0 : F[X]).eval x := by
  rw [eval_horner, eval_zero]

/-- Evaluation of a coefficient list as a sum over its coefficients. -/
theorem horner_id_sum (x : F) (l : List F) :
    horner id x l 0 = ∑ j in Finset.range l.length, cf l j * x ^ j := by
  rcases l with _ | ⟨a, l⟩
  · rfl
  rw [horner_id_zero, eval_eq_sum_range' (n := (a :: l).length)]
  · apply Finset.sum_congr rfl
    intro j _
    rw [cf_eq_coeff]
  · have h := degree_horner_lt (a :: l)
    by_cases h0 : (horner C X (a :: l) 0 : F[X]) = 0
    · rw [h0, natDegree_zero]
      simp
    · exact (natDegree_lt_iff_degree_lt h0).mpr h

theorem cf_reverse (l : List F) (j : Nat) (hj : j < l.length) :
    cf l.reverse j = cf l (l.length - 1 - j) := by
  rw [cf_eq, cf_eq, List.length_reverse, if_pos hj, if_pos (by omega),
    getD_reverse _ _ (by omega)]

/-- A connection list that generates the power-sum sequence at the index `m + (len C - 1)`
gives a vanishing weighted power sum of the values of its reversed list. -/
theorem disc_power_sum (T : Finset ι) (X w : ι → F) (C : List F) (hC : 1 ≤ C.length) (m : Nat) :
    disc C (fun k => ∑ p in T, w p * X p ^ k) (m + (C.length - 1)) =
      ∑ p in T, (w p * horner id (X p) C.reverse 0) * X p ^ m := by
  rw [disc_eq_short _ _ _ (by omega)]
  have e1 : ∀ p ∈ T, (w p * horner id (X p) C.reverse 0) * X p ^ m =
      ∑ j in Finset.range C.length, cf C j * (w p * X p ^ (m + (C.length - 1) - j)) := by
    intro p _
    rw [horner_id_sum, List.length_reverse,
      ← Finset.sum_range_reflect (fun j => cf C.reverse j * X p ^ j) C.length,
      Finset.mul_sum, Finset.sum_mul]
    apply Finset.sum_congr rfl
    intro j hj
    rw [Finset.mem_range] at hj
    rw [cf_reverse _ _ (by omega)]
    have e2 : C.length - 1 - (C.length - 1 - j) = j := by omega
    have e3 : m + (C.length - 1) - j = (C.length - 1 - j) + m := by omega
    rw [e2, e3, pow_add]
    ring
  rw [Finset.sum_congr rfl e1, Finset.sum_comm]
  apply Finset.sum_congr rfl
  intro j _
  rw [Finset.mul_sum]

/-- The Berlekamp-Massey output on a power-sum sequence with `2 |T| ≤ N` known terms is the
locator of the points: it has length `|T| + 1`, and its reversed list is `∏ (x - X_p)`. -/
theorem locator_unique [DecidableEq F] [DecidableEq ι] (T : Finset ι) (pt w : ι → F) (hinj : Set.InjOn pt T)
    (hw : ∀ p ∈ T, w p ≠ 0) (N : Nat) (hN : 2 * T.card ≤ N) (cl : List F)
    (hC1 : 1 ≤ cl.length) (hC2 : cl.length ≤ T.card + 1) (hC0 : cf cl 0 = 1)
    (hgen : ∀ k, cl.length ≤ k + 1 → k < N → disc cl (fun k => ∑ p in T, w p * pt p ^ k) k = 0) :
    cl.length = T.card + 1 ∧ ∀ x, horner id x cl.reverse 0 = ∏ p in T, (x - pt p) := by
  have hroot : ∀ p ∈ T, horner id (pt p) cl.reverse 0 = 0 := by
    have hv := vandermonde_zero T pt (fun p => w p * horner id (pt p) cl.reverse 0) hinj
      (by
        intro m hm
        rw [← disc_power_sum T pt w cl hC1 m]
        exact hgen _ (by omega) (by omega))
    intro p hp
    rcases mul_eq_zero.mp (hv p hp) with h | h
    · exact absurd h (hw p hp)
    · exact h
  obtain ⟨l, hl⟩ : ∃ l, cl.reverse = 1 :: l := by
    rcases hr : cl.reverse with _ | ⟨a, l⟩
    · have : cl.length = 0 := by rw [← List.length_reverse, hr]; rfl
      omega
    · refine ⟨l, ?_⟩
      have h0 := hC0
      unfold cf at h0
      rw [hr] at h0
      simp only [List.getD_cons_zero] at h0
      rw [h0]
  have hlen : l.length + 1 = cl.length := by
    rw [← List.length_reverse cl, hl]; rfl
  have hmon := monic_horner_one l
  have hdeg := natDegree_horner_one l
  have hsub : (T.image pt).val ⊆ (horner C X (1 :: l) 0 : F[X]).roots := by
    intro a ha
    rw [Finset.mem_val, Finset.mem_image] at ha
    obtain ⟨p, hp, rfl⟩ := ha
    rw [mem_roots hmon.ne_zero, IsRoot.def, ← horner_id_zero, ← hl]
    exact hroot p hp
  have hcard : (T.image pt).card = T.card := Finset.card_image_of_injOn hinj
  have hle := card_le_degree_of_subset_roots hsub
  rw [hcard, hdeg] at hle
  have hlenC : cl.length = T.card + 1 := by omega
  refine ⟨hlenC, ?_⟩
  have hmon2 : (∏ p in T, (Polynomial.X - C (pt p))).Monic :=
    monic_prod_of_monic _ _ (fun p _ => monic_X_sub_C _)
  have hdeg2 : (∏ p in T, (Polynomial.X - C (pt p))).natDegree = T.card := by
    rw [natDegree_prod_of_monic _ _ (fun p _ => monic_X_sub_C _)]
    simp only [natDegree_X_sub_C, Finset.sum_const, smul_eq_mul, mul_one]
  have heq : (horner C X (1 :: l) 0 : F[X]) = ∏ p in T, (Polynomial.X - C (pt p)) := by
    apply Polynomial.eq_of_degree_le_of_eval_finset_eq (T.image pt)
    · rw [degree_eq_natDegree hmon.ne_zero, hdeg, hcard]
      exact_mod_cast (show l.length ≤ T.card by omega)
    · rw [degree_eq_natDegree hmon.ne_zero, degree_eq_natDegree hmon2.ne_zero, hdeg, hdeg2]
      congr 1
      omega
    · rw [hmon.leadingCoeff, hmon2.leadingCoeff]
    · intro a ha
      rw [Finset.mem_image] at ha
      obtain ⟨p, hp, rfl⟩ := ha
      rw [← horner_id_zero, ← hl, hroot p hp, eval_prod, Finset.prod_eq_zero hp]
      rw [eval_sub, eval_X, eval_C, sub_self]
  intro x
  rw [hl, horner_id_zero, heq, eval_prod]
  apply Finset.prod_congr rfl
  intro p _
  rw [eval_sub, eval_X, eval_C]

/-- The head of the locator is the product of the points up to sign, so it is not zero when no
point is zero. -/
theorem locator_head (T : Finset ι) (X : ι → F) (hX : ∀ p ∈ T, X p ≠ 0) (C : List F)
    (hC1 : 1 ≤ C.length) (h : ∀ x, horner id x C.reverse 0 = ∏ p in T, (x - X p)) :
    C.getD 0 0 ≠ 0 := by
  have h0 := h 0
  rw [horner_id_sum, List.length_reverse, Finset.range_eq_Ico,
    Finset.sum_eq_sum_Ico_succ_bot (show 0 < C.length by omega) (fun j => cf C.reverse j * 0 ^ j),
    Finset.sum_eq_zero, add_zero, pow_zero, mul_one, cf_reverse _ _ (by omega), cf_eq,
    if_pos (by omega)] at h0
  · have e : C.length - 1 - (C.length - 1 - 0) = 0 := by omega
    rw [e] at h0
    rw [h0]
    apply Finset.prod_ne_zero_iff.mpr
    intro p hp
    rw [zero_sub]
    exact neg_ne_zero.mpr (hX p hp)
  · intro j hj
    rw [Finset.mem_Ico] at hj
    rw [zero_pow (by omega), mul_zero]

end Unique

end UniqueFacts

/-! ## Syndromes -/

section SyndromeRefinement

open Finset

theorem field301_fcr : field301.fcr = 1 := by decide!

theorem alpha_pow_cast (i : Nat) :
    GF256.alpha ^ ((i : Int) % 255).toNat = GF256.alpha ^ i := by
  have e : ((i : Int) % 255).toNat = i % 255 := by omega
  rw [e, GF256.alpha_pow_mod]

theorem gfPower_two_nat (i : Nat) (h : i < 100000) :
    gfPower field301 2 (i : Int) = .ok (GF256.alpha ^ i).toInt := by
  rw [gfPower_two _ (by omega) (by omega), alpha_pow_cast]

theorem gfPolynomialEval_list (x : GF256) (l : List GF256) (hl : l ≠ []) :
    gfPolynomialEval field301 (toInts l) x.toInt = .ok (horner id x l 0).toInt := by
  rcases l with _ | ⟨y, cs⟩
  · exact absurd rfl hl
  · rw [gfPolynomialEval_ok]
    have : horner id x (y :: cs) 0 = horner id x cs y := by
      rw [horner, zero_mul, zero_add]; rfl
    rw [this]

/-- The syndromes of a word: its values at `α^1, ..., α^n`. -/
def syndromes (m : List GF256) (n : Nat) : List GF256 :=
  (List.range n).map (fun k => horner id (GF256.alpha ^ (k + 1)) m 0)

theorem syndLoop_ok (m : List GF256) (hm : m ≠ []) :
    ∀ (n i : Nat), i + n ≤ 1000 →
      syndLoop field301 (toInts m) n (i : Int) =
        .ok (toInts ((List.range' i n).map (fun k => horner id (GF256.alpha ^ (k + 1)) m 0)))
  | 0, i, _ => rfl
  | n + 1, i, h => by
    have e1 : (i : Int) + 1 = ((i + 1 : Nat) : Int) := by push_cast; rfl
    rw [syndLoop, field301_fcr, e1, wrap64_eq _ (by omega) (by omega),
      gfPower_two_nat _ (by omega), bind_ok, gfPolynomialEval_list _ _ hm, bind_ok,
      syndLoop_ok m hm n (i + 1) (by omega), bind_ok]
    rfl

theorem calculateSyndromes_ok (m : List GF256) (n : Nat) (hn : n ≤ 1000)
    (hm : m ≠ [] ∨ n = 0) :
    calculateSyndromes field301 (toInts m) (n : Int) = .ok (0 :: toInts (syndromes m n)) := by
  unfold calculateSyndromes makeZeros
  rw [if_pos (Int.natCast_nonneg n), bind_ok, Int.toNat_ofNat]
  rcases hm with hm | hm
  · have := syndLoop_ok m hm n 0 (by omega)
    rw [Nat.cast_zero] at this
    rw [this, bind_ok, ← List.range_eq_range']
    rfl
  · subst hm
    rfl

theorem isSyndromeClean_toInts : ∀ (l : List GF256),
    isSyndromeClean (toInts l) = true ↔ ∀ a ∈ l, a = 0
  | [] => by simp [toInts, isSyndromeClean]
  | a :: l => by
    rw [toInts_cons, isSyndromeClean]
    have ih := isSyndromeClean_toInts l
    by_cases h : a = 0
    · subst h
      rw [GF256.toInt_zero, if_neg (by decide), ih]
      simp
    · have hp : a.toInt > 0 := by
        have := a.toInt_range
        have := mt GF256.toInt_eq_zero.mp h
        omega
      rw [if_pos hp]
      simp [h]

theorem isSyndromeClean_zero_cons (l : List Int) :
    isSyndromeClean (0 :: l) = isSyndromeClean l := by
  rw [isSyndromeClean, if_neg (by decide)]

end SyndromeRefinement

section ErrorWordFacts

open Finset

section ErrorWord

variable {F : Type} [Field F]

theorem addP_eq_zipWith (p q : List F) (h : p.length = q.length) :
    addP p q = List.zipWith (· + ·) p q := by
  unfold addP
  simp [h]

theorem horner_id_addP (x : F) (p q : List F) (h : p.length = q.length) :
    horner id x (addP p q) 0 = horner id x p 0 + horner id x q 0 := by
  rw [horner_id_sum, horner_id_sum, horner_id_sum, addP_length, ← h, max_self,
    ← Finset.sum_add_distrib]
  apply Finset.sum_congr rfl
  intro j _
  rw [cf_addP, add_mul]

theorem zipWith_add_cancel [CharP F 2] : ∀ (c r : List F), c.length = r.length →
    List.zipWith (· + ·) c (List.zipWith (· + ·) c r) = r
  | [], [], _ => rfl
  | [], _ :: _, h => by simp at h
  | _ :: _, [], h => by simp at h
  | a :: c, b :: r, h => by
    simp only [List.zipWith_cons_cons]
    rw [zipWith_add_cancel c r (by simpa using h), ← add_assoc, CharTwo.add_self_eq_zero,
      zero_add]

theorem addP_cancel [CharP F 2] (c r : List F) (h : c.length = r.length) :
    addP c (addP c r) = r := by
  rw [addP_eq_zipWith c r h, addP_eq_zipWith _ _ (by simp [h]), zipWith_add_cancel c r h]

variable [DecidableEq F]

theorem errDegs_nodup (e : List F) : (errDegs e).Nodup :=
  List.Nodup.filter _ (List.nodup_range _)

theorem mem_errDegs (e : List F) (i : Nat) : i ∈ errDegs e ↔ i < e.length ∧ cf e i ≠ 0 := by
  unfold errDegs
  simp [List.mem_filter]

/-- The value of a word at `x` as a sum over its non-zero coefficients. -/
theorem horner_id_errDegs (x : F) (e : List F) :
    horner id x e 0 = ∑ i in (errDegs e).toFinset, cf e i * x ^ i := by
  rw [horner_id_sum]
  symm
  apply Finset.sum_subset
  · intro i hi
    rw [List.mem_toFinset, mem_errDegs] at hi
    exact Finset.mem_range.mpr hi.1
  · intro i hi hn
    rw [Finset.mem_range] at hi
    rw [List.mem_toFinset, mem_errDegs] at hn
    have : cf e i = 0 := by
      by_contra h
      exact hn ⟨hi, h⟩
    rw [this, zero_mul]

/-- The syndromes of an error word are weighted power sums of the error locations. -/
theorem syndrome_power_sum (a : F) (e : List F) (k : Nat) :
    horner id (a ^ (k + 1)) e 0 =
      ∑ i in (errDegs e).toFinset, (cf e i * a ^ i) * (a ^ i) ^ k := by
  rw [horner_id_errDegs]
  apply Finset.sum_congr rfl
  intro i _
  rw [← pow_mul, ← pow_mul, mul_assoc, ← pow_add]
  congr 2
  ring

theorem filter_getD_length : ∀ (l : List F),
    ((List.range l.length).filter (fun i => decide (l.getD i 0 ≠ 0))).length =
      (l.filter (fun a => decide (a ≠ 0))).length := by
  intro l
  induction l using List.reverseRecOn with
  | nil => rfl
  | append_singleton l a ih =>
    rw [List.length_append, List.length_singleton, List.range_succ, List.filter_append,
      List.filter_append, List.length_append, List.length_append]
    congr 1
    · rw [← ih]
      congr 1
      apply List.filter_congr
      intro i hi
      rw [List.mem_range] at hi
      rw [List.getD_append _ _ _ _ hi]
    · have : (l ++ [a]).getD l.length 0 = a := by
        rw [List.getD_append_right _ _ _ _ (le_refl _), Nat.sub_self]
        rfl
      simp only [List.filter_cons, List.filter_nil, this]
      split <;> rfl

theorem errDegs_length (e : List F) :
    (errDegs e).length = (e.filter (fun a => decide (a ≠ 0))).length := by
  have h := filter_getD_length e.reverse
  rw [List.length_reverse] at h
  unfold errDegs cf
  rw [h, List.filter_reverse, List.length_reverse]

end ErrorWord

theorem zip_diff_length : ∀ (c r : List GF256), c.length = r.length →
    ((List.zip (toInts c) (toInts r)).filter (fun p => decide (p.1 ≠ p.2))).length =
      ((addP c r).filter (fun a => decide (a ≠ 0))).length
  | [], [], _ => rfl
  | [], _ :: _, h => by simp at h
  | _ :: _, [], h => by simp at h
  | a :: c, b :: r, h => by
    have hl : c.length = r.length := by simpa using h
    have ih := zip_diff_length c r hl
    rw [addP_eq_zipWith _ _ hl] at ih
    rw [addP_eq_zipWith _ _ h, toInts_cons, toInts_cons, List.zip_cons_cons,
      List.zipWith_cons_cons, List.filter_cons, List.filter_cons]
    by_cases hab : a = b
    · subst hab
      have h1 : decide (a + a ≠ 0) = false := by
        rw [decide_eq_false_iff_not, not_not]; exact CharTwo.add_self_eq_zero a
      have h2 : decide ((a.toInt, a.toInt).1 ≠ (a.toInt, a.toInt).2) = false := by
        rw [decide_eq_false_iff_not, not_not]
      rw [h1, h2]
      exact ih
    · have h1 : decide (a + b ≠ 0) = true := by
        rw [decide_eq_true_iff]
        intro h0
        have h3 : a + b + b = b := by rw [h0, zero_add]
        rw [add_assoc, CharTwo.add_self_eq_zero, add_zero] at h3
        exact hab h3
      have h2 : decide ((a.toInt, b.toInt).1 ≠ (a.toInt, b.toInt).2) = true := by
        rw [decide_eq_true_iff]
        exact fun h0 => hab (GF256.toInt_injective h0)
      rw [h1, h2]
      simp only [if_true, List.length_cons]
      rw [ih]

end ErrorWordFacts

/-! ## Root search (`findErrors`) -/

section ChienRefinement

open Finset

theorem chienLoop_ok (Q : List GF256) (hQ : Q ≠ []) (N : Int) :
    ∀ (k i : Nat) (acc : List Int), i + k ≤ 1000 →
      chienLoop field301 (toInts Q) N k (i : Int) acc =
        .ok (acc ++ ((List.range' i k).filter
          (fun j => decide (horner id (GF256.alpha ^ j) Q 0 = 0))).map
            (fun (j : Nat) => N - 1 - (j : Int)))
  | 0, i, acc, _ => by
    rw [chienLoop]
    simp
  | k + 1, i, acc, h => by
    have e1 : (i : Int) + 1 = ((i + 1 : Nat) : Int) := by push_cast; rfl
    rw [chienLoop, gfPower_two_nat _ (by omega), bind_ok, gfPolynomialEval_list _ _ hQ, bind_ok,
      e1, List.range'_succ, List.filter_cons]
    by_cases hz : horner id (GF256.alpha ^ i) Q 0 = 0
    · rw [if_pos (GF256.toInt_eq_zero.mpr hz), chienLoop_ok Q hQ N k (i + 1) _ (by omega),
        if_pos (decide_eq_true hz), List.map_cons, List.append_assoc]
      rfl
    · rw [if_neg (fun h0 => hz (GF256.toInt_eq_zero.mp h0)),
        chienLoop_ok Q hQ N k (i + 1) _ (by omega), if_neg (by simpa using hz)]

theorem findErrors_ok (Q : List GF256) (hQ : Q ≠ []) (n : Nat) (hn : n ≤ 1000)
    (hcount : ((List.range n).filter
      (fun j => decide (horner id (GF256.alpha ^ j) Q 0 = 0))).length + 1 = Q.length) :
    findErrors field301 (toInts Q) (n : Int) =
      .ok (((List.range n).filter
        (fun j => decide (horner id (GF256.alpha ^ j) Q 0 = 0))).map
          (fun (j : Nat) => (n : Int) - 1 - (j : Int)), none) := by
  unfold findErrors
  dsimp only
  have h := chienLoop_ok Q hQ (n : Int) n 0 [] (by omega)
  rw [Nat.cast_zero] at h
  rw [Int.toNat_ofNat, h, bind_ok, List.nil_append, ← List.range_eq_range', List.length_map,
    toInts_length, if_neg]
  · rfl
  · rw [not_not, ← hcount]
    push_cast
    omega

/-- The roots of `∏ (x - α^p)` among `α^0, ..., α^(n-1)` are the exponents in the set. -/
theorem chien_filter (e : List GF256) (he : e.length ≤ 255) (Q : List GF256)
    (hQ : ∀ x, horner id x Q 0 = ∏ p in (errDegs e).toFinset, (x - GF256.alpha ^ p)) :
    (List.range e.length).filter (fun j => decide (horner id (GF256.alpha ^ j) Q 0 = 0)) =
      errDegs e := by
  unfold errDegs
  apply List.filter_congr
  intro j hj
  rw [List.mem_range] at hj
  rw [decide_eq_decide, hQ, Finset.prod_eq_zero_iff]
  constructor
  · rintro ⟨p, hp, h0⟩
    rw [List.mem_toFinset, mem_errDegs] at hp
    rw [sub_eq_zero] at h0
    have := GF256.alpha_pow_injective (by omega) (by omega) h0
    rw [this]
    exact hp.2
  · intro h
    exact ⟨j, by rw [List.mem_toFinset, mem_errDegs]; exact ⟨hj, h⟩, sub_self _⟩

end ChienRefinement

/-! ## Error correction (`correctErrors`, `forney`) -/

section LocatorRefinement

open Finset Polynomial

section LocatorProduct

variable {F : Type} [Field F]

theorem locP_length : ∀ (pts loc : List F), 1 ≤ loc.length →
    (locP pts loc).length = loc.length + pts.length
  | [], loc, _ => rfl
  | x :: pts, loc, h => by
    have hm : (mulP loc [x, 1]).length = loc.length + 1 := by
      rw [mulP_length]; simp
    rw [locP, List.foldl_cons]
    have := locP_length pts (mulP loc [x, 1]) (by omega)
    unfold locP at this
    rw [this, hm, List.length_cons]
    omega

theorem horner_pair (x : F) : (horner C X [x, 1] 0 : F[X]) = C x * X + 1 := by
  simp [horner]

theorem horner_locP : ∀ (pts loc : List F), loc ≠ [] →
    (horner C X (locP pts loc) 0 : F[X]) =
      horner C X loc 0 * (pts.map (fun x => C x * X + 1)).prod
  | [], loc, _ => by simp [locP]
  | x :: pts, loc, h => by
    have hm : mulP loc [x, 1] ≠ [] := by
      intro h0
      have := mulP_length loc [x, 1]
      rw [h0] at this
      have h1 : 1 ≤ loc.length := List.length_pos.mpr h
      simp at this
    rw [locP, List.foldl_cons]
    have := horner_locP pts (mulP loc [x, 1]) hm
    unfold locP at this
    rw [this, horner_mulP _ _ h (by simp), horner_pair, List.map_cons, List.prod_cons, mul_assoc]

end LocatorProduct

theorem locatorLoop_ok : ∀ (ds : List Nat) (loc : List GF256), loc ≠ [] →
    (∀ d ∈ ds, d < 1000) →
    locatorLoop field301 (ds.map (fun (d : Nat) => (d : Int))) (toInts loc) =
      .ok (toInts (locP (ds.map (fun d => GF256.alpha ^ d)) loc))
  | [], loc, _, _ => rfl
  | d :: ds, loc, h, hd => by
    have hm : mulP loc [GF256.alpha ^ d, 1] ≠ [] := by
      intro h0
      have := mulP_length loc [GF256.alpha ^ d, 1]
      rw [h0] at this
      have h1 : 1 ≤ loc.length := List.length_pos.mpr h
      simp at this
    have e1 : gfPolynomialAddition [1] [(GF256.alpha ^ d).toInt, 0] =
        toInts [GF256.alpha ^ d, 1] := by
      have := gfPolynomialAddition_ok [1] [GF256.alpha ^ d, 0]
      have e2 : addP [1] [GF256.alpha ^ d, 0] = [GF256.alpha ^ d, 1] := by
        simp [addP]
      rw [e2] at this
      exact this
    rw [List.map_cons, locatorLoop, gfPower_two_nat _ (by have := hd d (List.mem_cons_self _ _); omega), bind_ok,
      e1, gfPolynomialMultiplication_ok _ _ h, bind_ok,
      locatorLoop_ok ds _ hm (fun x hx => hd x (List.mem_cons_of_mem _ hx))]
    rfl

theorem locationLoop_ok : ∀ (ds : List Nat), (∀ d ∈ ds, d < 1000) →
    locationLoop field301 (ds.map (fun (d : Nat) => (d : Int))) =
      .ok (toInts (ds.map (fun d => GF256.alpha ^ d)))
  | [], _ => rfl
  | d :: ds, hd => by
    have h1 := hd d (List.mem_cons_self _ _)
    rw [List.map_cons, locationLoop]
    rw [wrap64_eq (255 - (d : Int)) (by omega) (by omega), wrap64_eq _ (by omega) (by omega),
      gfPower_two _ (by omega) (by omega), bind_ok,
      locationLoop_ok ds (fun x hx => hd x (List.mem_cons_of_mem _ hx)), bind_ok]
    have e : ((-(255 - (d : Int))) % 255).toNat = d % 255 := by omega
    rw [e, GF256.alpha_pow_mod]
    rfl

end LocatorRefinement

section EvaluatorFacts

open Finset Polynomial

section Evaluator

variable {F : Type} [Field F] {ι : Type} [DecidableEq ι]

omit [DecidableEq ι] in
theorem cf_drop (m : List F) (k j : Nat) (hj : j + k < m.length) :
    cf (m.drop k) j = cf m j := by
  rw [cf_eq, cf_eq, List.length_drop, if_pos (by omega), if_pos (by omega), List.getD_eq_getElem?_getD,
    List.getD_eq_getElem?_getD, List.getElem?_drop]
  congr 2
  omega

/-- The error evaluator `∑_p w_p x ∏_{q ≠ p} (1 - X_q x)` as a polynomial. -/
theorem omega_natDegree (T : Finset ι) (pt w : ι → F) :
    (∑ p in T, C (w p) * X * ∏ q in T.erase p, (1 - C (pt q) * X)).natDegree ≤ T.card := by
  apply natDegree_sum_le_of_forall_le
  intro p hp
  have h1 : (C (w p) * X : F[X]).natDegree ≤ 1 :=
    le_trans (natDegree_C_mul_le _ _) natDegree_X_le
  have h2 : (∏ q in T.erase p, (1 - C (pt q) * X)).natDegree ≤ T.card - 1 := by
    refine le_trans (natDegree_prod_le _ _) ?_
    rw [← Finset.card_erase_of_mem hp]
    refine le_trans (Finset.sum_le_card_nsmul _ _ 1 ?_) (by simp)
    intro q _
    refine le_trans (natDegree_sub_le _ _) ?_
    rw [natDegree_one]
    exact max_le (Nat.zero_le _) (le_trans (natDegree_C_mul_le _ _) natDegree_X_le)
  have hc : 1 ≤ T.card := Finset.card_pos.mpr ⟨p, hp⟩
  refine le_trans natDegree_mul_le ?_
  omega

/-- The key equation: syndrome polynomial times locator is the evaluator up to a multiple of
`x^(N+1)`. -/
theorem key_equation (T : Finset ι) (pt w : ι → F) (N : Nat) :
    (∑ k in Finset.range N, C (∑ p in T, w p * pt p ^ k) * X ^ (k + 1)) *
        ∏ q in T, (1 - C (pt q) * X) =
      (∑ p in T, C (w p) * X * ∏ q in T.erase p, (1 - C (pt q) * X)) -
        X ^ (N + 1) * ∑ p in T, C (w p * pt p ^ N) * ∏ q in T.erase p, (1 - C (pt q) * X) := by
  have e1 : (∑ k in Finset.range N, C (∑ p in T, w p * pt p ^ k) * X ^ (k + 1) : F[X]) =
      ∑ p in T, C (w p) * X * ∑ k in Finset.range N, (C (pt p) * X) ^ k := by
    simp only [Finset.mul_sum]
    rw [Finset.sum_comm]
    apply Finset.sum_congr rfl
    intro k _
    rw [map_sum, Finset.sum_mul]
    apply Finset.sum_congr rfl
    intro p _
    rw [C_mul, C_pow, mul_pow, pow_succ]
    ring
  rw [e1, Finset.sum_mul, Finset.mul_sum, ← Finset.sum_sub_distrib]
  apply Finset.sum_congr rfl
  intro p hp
  rw [← Finset.mul_prod_erase T _ hp]
  have e2 := mul_neg_geom_sum (C (pt p) * X : F[X]) N
  calc (C (w p) * X * ∑ k in Finset.range N, (C (pt p) * X) ^ k) *
        ((1 - C (pt p) * X) * ∏ q in T.erase p, (1 - C (pt q) * X))
      = C (w p) * X * ((1 - C (pt p) * X) * ∑ k in Finset.range N, (C (pt p) * X) ^ k) *
          ∏ q in T.erase p, (1 - C (pt q) * X) := by ring
    _ = C (w p) * X * (1 - (C (pt p) * X) ^ N) * ∏ q in T.erase p, (1 - C (pt q) * X) := by
        rw [e2]
    _ = _ := by
        rw [C_mul, C_pow, mul_pow]
        ring

theorem key_coeff (T : Finset ι) (pt w : ι → F) (N j : Nat) (hj : j ≤ N) :
    ((∑ k in Finset.range N, C (∑ p in T, w p * pt p ^ k) * X ^ (k + 1)) *
        ∏ q in T, (1 - C (pt q) * X)).coeff j =
      (∑ p in T, C (w p) * X * ∏ q in T.erase p, (1 - C (pt q) * X)).coeff j := by
  rw [key_equation, coeff_sub, coeff_X_pow_mul', if_neg (by omega), sub_zero]

omit [DecidableEq ι] in
/-- The polynomial of the reversed, shifted syndrome list. -/
theorem horner_syndrome (S : List F) :
    (horner C X (S.reverse ++ [0]) 0 : F[X]) =
      ∑ k in Finset.range S.length, C (S.getD k 0) * X ^ (k + 1) := by
  ext j
  rw [← cf_eq_coeff, finset_sum_coeff]
  rcases j with _ | j
  · rw [cf_append_zero_zero]
    symm
    apply Finset.sum_eq_zero
    intro k _
    rw [coeff_C_mul, coeff_X_pow, if_neg (by omega), mul_zero]
  · rw [cf_append_zero_succ]
    unfold cf
    rw [List.reverse_reverse]
    by_cases hj : j < S.length
    · rw [Finset.sum_eq_single_of_mem j (Finset.mem_range.mpr hj)]
      · rw [coeff_C_mul, coeff_X_pow, if_pos rfl, mul_one]
      · intro k _ hk
        rw [coeff_C_mul, coeff_X_pow, if_neg (by omega), mul_zero]
    · rw [List.getD_eq_default _ _ (by omega)]
      symm
      apply Finset.sum_eq_zero
      intro k hk
      rw [Finset.mem_range] at hk
      rw [coeff_C_mul, coeff_X_pow, if_neg (by omega), mul_zero]

/-- The list computed by `calcErrorPolynomial` evaluates to the error evaluator. -/
theorem evaluator_eval (T : Finset ι) (pt w : ι → F) (S l : List F)
    (hT : T.card < S.length)
    (hS : ∀ k, k < S.length → S.getD k 0 = ∑ p in T, w p * pt p ^ k)
    (hl : (horner C X l 0 : F[X]) = ∏ q in T, (1 - C (pt q) * X))
    (hlen : l.length = T.card + 1) (x : F) :
    horner id x ((mulP (S.reverse ++ [0]) l).drop (T.card + 1)) 0 =
      ∑ p in T, w p * x * ∏ q in T.erase p, (1 - pt q * x) := by
  have hmlen : (mulP (S.reverse ++ [0]) l).length = S.length + T.card + 1 := by
    rw [mulP_length, List.length_append, List.length_reverse, List.length_singleton, hlen]
    omega
  have hsyn : (horner C X (S.reverse ++ [0]) 0 : F[X]) =
      ∑ k in Finset.range S.length, C (∑ p in T, w p * pt p ^ k) * X ^ (k + 1) := by
    rw [horner_syndrome]
    apply Finset.sum_congr rfl
    intro k hk
    rw [hS k (Finset.mem_range.mp hk)]
  have hdl : ((mulP (S.reverse ++ [0]) l).drop (T.card + 1)).length = S.length := by
    rw [List.length_drop, hmlen]; omega
  rw [horner_id_sum, hdl]
  have e1 : ∀ j ∈ Finset.range S.length,
      cf ((mulP (S.reverse ++ [0]) l).drop (T.card + 1)) j * x ^ j =
        (∑ p in T, C (w p) * X * ∏ q in T.erase p, (1 - C (pt q) * X)).coeff j * x ^ j := by
    intro j hj
    rw [Finset.mem_range] at hj
    rw [cf_drop _ _ _ (by omega), cf_eq_coeff,
      horner_mulP _ _ (by simp) (by intro h0; rw [h0] at hlen; simp at hlen), hsyn, hl,
      key_coeff T pt w S.length j (by omega)]
  rw [Finset.sum_congr rfl e1,
    ← eval_eq_sum_range' (lt_of_le_of_lt (omega_natDegree T pt w) hT), eval_finset_sum]
  apply Finset.sum_congr rfl
  intro p _
  rw [eval_mul, eval_mul, eval_C, eval_X, eval_prod]
  congr 1
  apply Finset.prod_congr rfl
  intro q _
  rw [eval_sub, eval_one, eval_mul, eval_C, eval_X]

/-- Forney's formula: at the inverse of a location the evaluator is the error value times the
product of the other factors. -/
theorem forney_value (T : Finset ι) (pt Y : ι → F) (i : ι) (hi : i ∈ T) (hX : pt i ≠ 0) :
    ∑ p in T, (Y p * pt p) * (pt i)⁻¹ * ∏ q in T.erase p, (1 - pt q * (pt i)⁻¹) =
      Y i * ∏ q in T.erase i, (1 - pt q * (pt i)⁻¹) := by
  rw [Finset.sum_eq_single_of_mem i hi]
  · rw [mul_assoc (Y i), mul_inv_cancel₀ hX, mul_one]
  · intro p hp hpi
    rw [Finset.prod_eq_zero (Finset.mem_erase.mpr ⟨Ne.symm hpi, hi⟩), mul_zero]
    rw [mul_inv_cancel₀ hX, sub_self]

end Evaluator

end EvaluatorFacts

section ForneyRefinement

open Finset

theorem primeFactors_ok (a : GF256) (idx : Nat) : ∀ (xs : List GF256) (j : Nat),
    primeFactors field301 a.toInt idx (toInts xs) j =
      .ok (toInts ((if j ≤ idx then xs.eraseIdx (idx - j) else xs).map (fun x => 1 + a * x)))
  | [], j => by
    rw [toInts_nil, primeFactors]
    split <;> rfl
  | x :: xs, j => by
    rw [toInts_cons, primeFactors]
    by_cases hj : j = idx
    · subst hj
      rw [if_neg (by simp), primeFactors_ok a j xs (j + 1), if_neg (by omega), if_pos (le_refl _),
        Nat.sub_self, List.eraseIdx_cons_zero]
    · rw [if_pos hj, gfMultiplication_ok, bind_ok, primeFactors_ok a idx xs (j + 1), bind_ok]
      have e1 : gfSubtraction 1 (a * x).toInt = (1 + a * x).toInt := by
        rw [← GF256.toInt_add]; rfl
      rw [e1]
      by_cases hlt : j ≤ idx
      · have e2 : idx - j = (idx - (j + 1)) + 1 := by omega
        rw [if_pos hlt, if_pos (by omega), e2, List.eraseIdx_cons_succ, List.map_cons, toInts_cons]
        rfl
      · rw [if_neg hlt, if_neg (by omega), List.map_cons, toInts_cons]
        rfl

theorem primeProduct_ok : ∀ (cs : List GF256) (acc : GF256),
    primeProduct field301 (toInts cs) acc.toInt = .ok (acc * cs.prod).toInt
  | [], acc => by
    rw [toInts_nil, primeProduct, List.prod_nil, mul_one]
  | c :: cs, acc => by
    rw [toInts_cons, primeProduct, gfMultiplication_ok, bind_ok, primeProduct_ok cs (acc * c),
      List.prod_cons, mul_assoc]

theorem getD_map_cast (l : List Nat) (i : Nat) :
    (l.map (fun (p : Nat) => (p : Int))).getD i 0 = ((l.getD i 0 : Nat) : Int) := by
  have := List.getD_map (f := fun (p : Nat) => (p : Int)) (l := l) (d := 0) (n := i)
  exact this

theorem list_eq_of_getD {α : Type} (d : α) : ∀ (l m : List α), l.length = m.length →
    (∀ i, l.getD i d = m.getD i d) → l = m
  | [], [], _, _ => rfl
  | [], _ :: _, h, _ => by simp at h
  | _ :: _, [], h, _ => by simp at h
  | a :: l, b :: m, h, hg => by
    have h0 := hg 0
    simp only [List.getD_cons_zero] at h0
    rw [h0, list_eq_of_getD d l m (by simpa using h) (fun i => by simpa using hg (i + 1))]

/-- The loop of `forney` writes the error values: when every computed magnitude is the error
value at its position, the result is the error word. -/
theorem forneyLoop_ok (Om locs : List GF256) (errPos : List Nat) (e : List GF256)
    (hOm : Om ≠ []) (hlen : errPos.length = locs.length) (hloc : ∀ x ∈ locs, x ≠ 0)
    (hden : ∀ idx, idx < locs.length →
      ((locs.eraseIdx idx).map (fun x => 1 + (locs.getD idx 0)⁻¹ * x)).prod ≠ 0)
    (hmag : ∀ idx, idx < locs.length →
      horner id (locs.getD idx 0)⁻¹ Om 0 /
        ((locs.eraseIdx idx).map (fun x => 1 + (locs.getD idx 0)⁻¹ * x)).prod =
          e.getD (errPos.getD idx 0) 0)
    (hpos : ∀ p ∈ errPos, p < e.length) :
    ∀ (k idx : Nat) (E : List GF256), idx + k = locs.length → E.length = e.length →
      (∀ p, p ∉ errPos.drop idx → E.getD p 0 = e.getD p 0) →
      forneyLoop field301 (toInts Om) (toInts locs) (errPos.map (fun (p : Nat) => (p : Int))) 1
        (toInts (locs.drop idx)) idx (toInts E) = .ok (toInts e)
  | 0, idx, E, hk, hE, hag => by
    have h1 : locs.drop idx = [] := List.drop_eq_nil_of_le (by omega)
    have h2 : errPos.drop idx = [] := List.drop_eq_nil_of_le (by omega)
    rw [h1, toInts_nil, forneyLoop]
    rw [h2] at hag
    rw [list_eq_of_getD 0 E e hE (fun i => hag i (List.not_mem_nil _))]
  | k + 1, idx, E, hk, hE, hag => by
    have hidx : idx < locs.length := by omega
    have h1 : locs.drop idx = locs.getD idx 0 :: locs.drop (idx + 1) := by
      rw [List.getD_eq_getElem _ _ hidx]
      exact List.drop_eq_getElem_cons hidx
    have h2 : errPos.drop idx = errPos.getD idx 0 :: errPos.drop (idx + 1) := by
      rw [List.getD_eq_getElem _ _ (by omega)]
      exact List.drop_eq_getElem_cons (by omega)
    have hx : locs.getD idx 0 ≠ 0 := by
      apply hloc
      rw [List.getD_eq_getElem _ _ hidx]
      exact List.getElem_mem _
    have hp : errPos.getD idx 0 < E.length := by
      rw [hE]
      apply hpos
      rw [List.getD_eq_getElem _ _ (by omega)]
      exact List.getElem_mem _
    have hw : wrap64 (1 - 1) = 0 := by
      rw [wrap64_eq _ (by decide) (by decide)]; rfl
    rw [h1, toInts_cons, forneyLoop, gfInverse_ok _ hx, bind_ok, primeFactors_ok, bind_ok,
      if_pos (Nat.zero_le _), Nat.sub_zero]
    have e1 : (1 : Int) = (1 : GF256).toInt := rfl
    rw [e1, primeProduct_ok, bind_ok, one_mul, gfPolynomialEval_list _ _ hOm, bind_ok, ← e1, hw,
      gfPower_exp_zero, bind_ok, e1, gfMultiplication_ok, bind_ok, one_mul,
      gfDivision_ok _ _ (hden idx hidx), bind_ok]
    dsimp only
    rw [index_ok _ _ (by rw [List.length_map]; omega), bind_ok, getD_map_cast,
      store_toInts _ _ hp, bind_ok, hmag idx hidx]
    apply forneyLoop_ok Om locs errPos e hOm hlen hloc hden hmag hpos k (idx + 1) _ (by omega)
    · rw [List.length_set, hE]
    · intro p hpn
      by_cases hpe : p = errPos.getD idx 0
      · rw [hpe, getD_set_eq _ _ _ _ _ hp, if_pos rfl]
      · have hn : p ∉ errPos.drop idx := by
          rw [h2]
          intro hm
          rcases List.mem_cons.mp hm with h | h
          · exact hpe h
          · exact hpn h
        rw [← hag p hn, getD_set_eq _ _ _ _ _ hp, if_neg hpe]

end ForneyRefinement

/-! ## Decoding a word with at most `nsym / 2` errors -/

section LocatorAssembly

open Finset

/-- The Berlekamp-Massey loop run on the syndromes of an error word with at most `N / 2`
errors ends with the locator of the error positions: its reversed list is `∏ (x - α^p)` over the
error degrees `p`, and its leading entry is not zero. -/
theorem bm_locator (e S : List GF256) (N : Nat) (he : e.length ≤ 255)
    (hS : ∀ k, k < N → S.getD k 0 = horner id (GF256.alpha ^ (k + 1)) e 0)
    (ht : 2 * (errDegs e).length ≤ N) :
    (bmRun S N 0 ([1], [1])).length = (errDegs e).length + 1 ∧
      (∀ x, horner id x (bmRun S N 0 ([1], [1])).reverse 0 =
        ∏ p in (errDegs e).toFinset, (x - GF256.alpha ^ p)) ∧
      (bmRun S N 0 ([1], [1])).getD 0 0 ≠ 0 := by
  have hcard : (errDegs e).toFinset.card = (errDegs e).length :=
    List.toFinset_card_of_nodup (errDegs_nodup e)
  have hsum : ∀ k, k < N → S.getD k 0 =
      ∑ p in (errDegs e).toFinset, (cf e p * GF256.alpha ^ p) * (GF256.alpha ^ p) ^ k := by
    intro k hk
    rw [hS k hk, syndrome_power_sum]
  obtain ⟨L, hLlen, hL0, hLgen⟩ := locator_exists (errDegs e).toFinset
    (fun p => GF256.alpha ^ p) (fun p => cf e p * GF256.alpha ^ p)
  have hLS : ∀ k, L.length ≤ k + 1 → k < N → disc L (fun k => S.getD k 0) k = 0 := by
    intro k h1 h2
    rw [disc_congr L _ (fun k => ∑ p in (errDegs e).toFinset,
      (cf e p * GF256.alpha ^ p) * (GF256.alpha ^ p) ^ k) k (fun m hm => hsum m (by omega))]
    exact hLgen k (by omega)
  obtain ⟨h1, h2, h3, h4⟩ := bmRun_inv S L N (by omega) hL0 hLS N 0 [1] [1] (by omega)
    (bmInv_init _ _)
  have hgen : ∀ k, (bmRun S N 0 ([1], [1])).length ≤ k + 1 → k < N →
      disc (bmRun S N 0 ([1], [1])) (fun k => ∑ p in (errDegs e).toFinset,
        (cf e p * GF256.alpha ^ p) * (GF256.alpha ^ p) ^ k) k = 0 := by
    intro k hk1 hk2
    rw [← disc_congr _ (fun k => S.getD k 0) _ k (fun m hm => hsum m (by omega))]
    exact h4 k hk1 hk2
  have hinj : Set.InjOn (fun p => GF256.alpha ^ p) ((errDegs e).toFinset : Set Nat) := by
    intro p hp q hq hpq
    rw [Finset.mem_coe, List.mem_toFinset, mem_errDegs] at hp hq
    exact GF256.alpha_pow_injective (by omega) (by omega) hpq
  have hw : ∀ p ∈ (errDegs e).toFinset, cf e p * GF256.alpha ^ p ≠ 0 := by
    intro p hp
    rw [List.mem_toFinset, mem_errDegs] at hp
    exact mul_ne_zero hp.2 (GF256.alpha_pow_ne_zero p)
  obtain ⟨hlen, hprod⟩ := locator_unique (errDegs e).toFinset (fun p => GF256.alpha ^ p)
    (fun p => cf e p * GF256.alpha ^ p) hinj hw N (by rw [hcard]; exact ht) _ h1
    (by rw [hcard]; omega) h3 hgen
  refine ⟨by rw [hlen, hcard], hprod, ?_⟩
  exact locator_head (errDegs e).toFinset (fun p => GF256.alpha ^ p)
    (fun p _ => GF256.alpha_pow_ne_zero p) _ h1 hprod

theorem toInts_reverse (l : List GF256) : sliceIntReverse (toInts l) = toInts l.reverse := by
  unfold sliceIntReverse toInts
  rw [List.map_reverse]

theorem unknownErrorLocator_ok (S : List GF256) (N : Nat) (hSlen : S.length = N)
    (hN : N < 1000) (hhead : (bmRun S N 0 ([1], [1])).getD 0 0 ≠ 0)
    (hcost : 2 * ((bmRun S N 0 ([1], [1])).length - 1) ≤ N) :
    unknownErrorLocator field301 (toInts S) [] (N : Int) 0 =
      .ok (toInts (bmRun S N 0 ([1], [1])), none) := by
  have hrun := bmLoop_ok S 0 (by omega) N 0 [1] [1] (by omega) rfl (le_refl _) (le_refl _)
  have h1 : toInts [1] = [1] := rfl
  rw [h1, Nat.cast_zero] at hrun
  unfold unknownErrorLocator
  dsimp only
  rw [List.length_nil, if_neg (lt_irrefl 0), toInts_length, hSlen, if_neg (lt_irrefl _),
    Nat.cast_zero, sub_zero, wrap64_eq _ (by omega) (by omega), Int.toNat_ofNat, hrun, bind_ok]
  rcases hC : bmRun S N 0 ([1], [1]) with _ | ⟨a, rest⟩
  · rw [hC] at hhead
    exact absurd rfl hhead
  · rw [hC] at hhead hcost
    have ha : a ≠ 0 := hhead
    have hne : ¬ ((fun c : Int => c == 0) a.toInt = true) := by
      simp only [beq_iff_eq]
      exact fun h0 => ha (GF256.toInt_eq_zero.mp h0)
    have hdw : List.dropWhile (fun c : Int => c == 0) (a.toInt :: toInts rest) =
        a.toInt :: toInts rest := by
      rw [List.dropWhile_cons, if_neg hne]
    rw [toInts_cons, hdw, sub_self, wrap64_eq 0 (by decide) (by decide), add_zero]
    rw [List.length_cons] at hcost ⊢
    rw [toInts_length, wrap64_eq _ (by push_cast; omega) (by push_cast; omega),
      if_neg (by push_cast; omega)]
    rfl

end LocatorAssembly

section MagnitudeFacts

open Finset Polynomial

section Magnitude

variable {F : Type} [Field F] [CharP F 2] {ι : Type} [DecidableEq ι]

omit [Field F] [CharP F 2] [DecidableEq ι] in
theorem eraseIdx_map (f : ι → F) : ∀ (l : List ι) (k : Nat),
    (l.map f).eraseIdx k = (l.eraseIdx k).map f
  | [], _ => rfl
  | _ :: _, 0 => rfl
  | a :: l, k + 1 => by
    rw [List.map_cons, List.eraseIdx_cons_succ, List.eraseIdx_cons_succ, List.map_cons,
      eraseIdx_map f l k]

omit [CharP F 2] in
theorem prod_eraseIdx (ds : List ι) (hnd : ds.Nodup) (f : ι → F) (idx : Nat)
    (hidx : idx < ds.length) :
    ((ds.eraseIdx idx).map f).prod = ∏ q in ds.toFinset.erase ds[idx], f q := by
  rw [← List.prod_toFinset f (List.Nodup.eraseIdx idx hnd)]
  congr 1
  ext q
  rw [List.mem_toFinset, Finset.mem_erase, List.mem_toFinset, ← hnd.erase_getElem idx hidx,
    hnd.mem_erase_iff]

/-- The list product built by `calcErrorLocatorPolynomial` is the locator `∏ (1 - X_q x)`. -/
theorem horner_locP_finset (ds : List ι) (hnd : ds.Nodup) (pt : ι → F) :
    (horner C X (locP (ds.map pt) [1]) 0 : F[X]) =
      ∏ q in ds.toFinset, (1 - C (pt q) * X) := by
  rw [horner_locP _ _ (by simp), List.prod_toFinset _ hnd, List.map_map]
  have h1 : (horner C X [(1 : F)] 0 : F[X]) = 1 := by simp [horner]
  rw [h1, one_mul]
  congr 1
  apply List.map_congr_left
  intro q _
  simp only [Function.comp_apply]
  have : (1 : F[X]) - C (pt q) * X = 1 + C (-(pt q)) * X := by
    rw [C_neg]; ring
  rw [this, CharTwo.neg_eq, add_comm]

/-- Forney's formula on the lists of `forney`: the denominator for the location of index
`idx` is not zero and the quotient is the error value at that location. -/
theorem forney_magnitude (ds : List ι) (hnd : ds.Nodup) (pt Y : ι → F)
    (hinj : ∀ p ∈ ds, ∀ q ∈ ds, pt p = pt q → p = q) (hne : ∀ p ∈ ds, pt p ≠ 0)
    (Om : List F)
    (hOm : ∀ x, horner id x Om 0 =
      ∑ p in ds.toFinset, (Y p * pt p) * x * ∏ q in ds.toFinset.erase p, (1 - pt q * x))
    (idx : Nat) (hidx : idx < ds.length) :
    (((ds.map pt).eraseIdx idx).map (fun x => 1 + (pt ds[idx])⁻¹ * x)).prod ≠ 0 ∧
      horner id (pt ds[idx])⁻¹ Om 0 /
        (((ds.map pt).eraseIdx idx).map (fun x => 1 + (pt ds[idx])⁻¹ * x)).prod = Y ds[idx] := by
  have hmem : ds[idx] ∈ ds := List.getElem_mem _
  have hx : pt ds[idx] ≠ 0 := hne _ hmem
  have hden : (((ds.map pt).eraseIdx idx).map (fun x => 1 + (pt ds[idx])⁻¹ * x)).prod =
      ∏ q in ds.toFinset.erase ds[idx], (1 - pt q * (pt ds[idx])⁻¹) := by
    rw [eraseIdx_map, List.map_map, prod_eraseIdx ds hnd _ idx hidx]
    apply Finset.prod_congr rfl
    intro q _
    simp only [Function.comp_apply]
    rw [CharTwo.sub_eq_add, mul_comm]
  have hnz : ∏ q in ds.toFinset.erase ds[idx], (1 - pt q * (pt ds[idx])⁻¹) ≠ 0 := by
    apply Finset.prod_ne_zero_iff.mpr
    intro q hq
    rw [Finset.mem_erase, List.mem_toFinset] at hq
    intro h0
    have h1 : pt q * (pt ds[idx])⁻¹ = 1 := (sub_eq_zero.mp h0).symm
    have h2 : pt q = pt ds[idx] := by
      have := congrArg (· * pt ds[idx]) h1
      simp only [one_mul] at this
      rw [mul_assoc, inv_mul_cancel₀ hx, mul_one] at this
      exact this
    exact hq.1 (hinj q hq.2 _ hmem h2)
  rw [hden]
  refine ⟨hnz, ?_⟩
  rw [hOm, forney_value ds.toFinset pt Y ds[idx] (List.mem_toFinset.mpr hmem) hx,
    mul_div_assoc, div_self hnz, mul_one]

end Magnitude

end MagnitudeFacts

section CorrectionAssembly

open Finset

theorem toInts_reverse_cons (S : List GF256) :
    sliceIntReverse (0 :: toInts S) = toInts (S.reverse ++ [0]) := by
  have : (0 : Int) :: toInts S = toInts (0 :: S) := rfl
  rw [this, toInts_reverse, List.reverse_cons]

/-- The correction step restores the word: with the error positions found by the root search,
`correctErrors` adds exactly the error word. -/
theorem correctErrors_ok (rs e S : List GF256) (hlen : e.length = rs.length)
    (he : e.length ≤ 255) (hS : ∀ k, k < S.length → S.getD k 0 =
      horner id (GF256.alpha ^ (k + 1)) e 0)
    (ht : (errDegs e).length < S.length) (hSs : S.length < 1000) :
    correctErrors field301 (toInts rs) (0 :: toInts S)
        ((errDegs e).map (fun (j : Nat) => (rs.length : Int) - 1 - (j : Int))) =
      .ok (toInts (addP rs e)) := by
  have hds : ∀ d ∈ errDegs e, d < e.length := fun d hd => ((mem_errDegs e d).mp hd).1
  have hnd := errDegs_nodup e
  -- the coefficient degrees
  have hcoef : ((errDegs e).map (fun (j : Nat) => (rs.length : Int) - 1 - (j : Int))).map
      (fun p => wrap64 ((((toInts rs).length : Int) - 1) - p)) =
      (errDegs e).map (fun (d : Nat) => (d : Int)) := by
    rw [List.map_map]
    apply List.map_congr_left
    intro d hd
    have := hds d hd
    simp only [Function.comp_apply, toInts_length]
    rw [wrap64_eq _ (by omega) (by omega)]
    omega
  have hpos : (errDegs e).map (fun (j : Nat) => (rs.length : Int) - 1 - (j : Int)) =
      ((errDegs e).map (fun d => rs.length - 1 - d)).map (fun (p : Nat) => (p : Int)) := by
    rw [List.map_map]
    apply List.map_congr_left
    intro d hd
    have := hds d hd
    simp only [Function.comp_apply]
    omega
  -- the locator and the evaluator
  have hllen : (locP ((errDegs e).map (fun d => GF256.alpha ^ d)) [1]).length =
      (errDegs e).length + 1 := by
    rw [locP_length _ [1] (le_refl _), List.length_map, List.length_singleton, add_comm]
  have hcard : (errDegs e).toFinset.card = (errDegs e).length :=
    List.toFinset_card_of_nodup hnd
  have hOm : ∀ x, horner id x
      ((mulP (S.reverse ++ [0]) (locP ((errDegs e).map (fun d => GF256.alpha ^ d)) [1])).drop
        ((errDegs e).length + 1)) 0 =
      ∑ p in (errDegs e).toFinset, (cf e p * GF256.alpha ^ p) * x *
        ∏ q in (errDegs e).toFinset.erase p, (1 - GF256.alpha ^ q * x) := by
    intro x
    have := evaluator_eval (errDegs e).toFinset (fun p => GF256.alpha ^ p)
      (fun p => cf e p * GF256.alpha ^ p) S
      (locP ((errDegs e).map (fun d => GF256.alpha ^ d)) [1])
      (by rw [hcard]; exact ht)
      (fun k hk => by rw [hS k hk, syndrome_power_sum])
      (horner_locP_finset (errDegs e) hnd (fun p => GF256.alpha ^ p))
      (by rw [hllen, hcard]) x
    rw [hcard] at this
    exact this
  have hOmne : (mulP (S.reverse ++ [0])
      (locP ((errDegs e).map (fun d => GF256.alpha ^ d)) [1])).drop
        ((errDegs e).length + 1) ≠ [] := by
    intro h0
    have h1 := congrArg List.length h0
    rw [List.length_drop, mulP_length, hllen, List.length_append, List.length_reverse,
      List.length_singleton, List.length_nil] at h1
    omega
  have hmag := forney_magnitude (errDegs e) hnd (fun p => GF256.alpha ^ p) (cf e)
    (fun p hp q hq hpq => GF256.alpha_pow_injective (by have := hds p hp; omega)
      (by have := hds q hq; omega) hpq)
    (fun p _ => GF256.alpha_pow_ne_zero p) _ hOm
  have hgetD : ∀ idx, (hidx : idx < (errDegs e).length) →
      ((errDegs e).map (fun d => GF256.alpha ^ d)).getD idx 0 =
        GF256.alpha ^ (errDegs e)[idx] := by
    intro idx hidx
    rw [List.getD_eq_getElem _ _ (by rw [List.length_map]; exact hidx), List.getElem_map]
  have hposD : ∀ idx, (hidx : idx < (errDegs e).length) →
      ((errDegs e).map (fun d => rs.length - 1 - d)).getD idx 0 =
        rs.length - 1 - (errDegs e)[idx] := by
    intro idx hidx
    rw [List.getD_eq_getElem _ _ (by rw [List.length_map]; exact hidx), List.getElem_map]
  have hfor := forneyLoop_ok
    ((mulP (S.reverse ++ [0]) (locP ((errDegs e).map (fun d => GF256.alpha ^ d)) [1])).drop
      ((errDegs e).length + 1))
    ((errDegs e).map (fun d => GF256.alpha ^ d))
    ((errDegs e).map (fun d => rs.length - 1 - d)) e hOmne
    (by rw [List.length_map, List.length_map])
    (by
      intro x hx
      obtain ⟨d, _, rfl⟩ := List.mem_map.mp hx
      exact GF256.alpha_pow_ne_zero d)
    (by
      intro idx hidx
      rw [List.length_map] at hidx
      rw [hgetD idx hidx]
      exact (hmag idx hidx).1)
    (by
      intro idx hidx
      rw [List.length_map] at hidx
      rw [hgetD idx hidx, hposD idx hidx, (hmag idx hidx).2, cf_eq,
        if_pos (hds _ (List.getElem_mem _)), hlen])
    (by
      intro p hp
      obtain ⟨d, hd, rfl⟩ := List.mem_map.mp hp
      have := hds d hd
      omega)
    (errDegs e).length 0 (List.replicate rs.length 0)
    (by rw [List.length_map]; omega) (by rw [List.length_replicate, hlen])
    (by
      intro p hp
      rw [List.drop_zero] at hp
      rw [getD_replicate_zero]
      by_cases hpn : p < e.length
      · have h0 : cf e (e.length - 1 - p) = 0 := by
          by_contra hne
          apply hp
          rw [List.mem_map]
          exact ⟨e.length - 1 - p, (mem_errDegs e _).mpr ⟨by omega, hne⟩, by omega⟩
        rw [cf_eq, if_pos (by omega)] at h0
        have e1 : e.length - 1 - (e.length - 1 - p) = p := by omega
        rw [e1] at h0
        exact h0.symm
      · rw [List.getD_eq_default _ _ (by omega)])
  rw [List.drop_zero] at hfor
  unfold correctErrors
  rw [hcoef]
  dsimp only
  unfold calcErrorLocatorPolynomial
  have h1 : ([1] : List Int) = toInts [1] := rfl
  rw [h1, locatorLoop_ok _ _ (by simp) (fun d hd => by have := hds d hd; omega), bind_ok,
    toInts_reverse_cons]
  have hl1 : (((toInts (locP ((errDegs e).map (fun d => GF256.alpha ^ d)) [1])).length : Int) - 1)
      = (((errDegs e).length : Nat) : Int) := by
    rw [toInts_length, hllen]; push_cast; omega
  rw [hl1, calcErrorPolynomial_ok _ _ _ (by simp)
      (by rw [hllen, List.length_append, List.length_reverse, List.length_singleton]; omega)
      (by omega), bind_ok,
    locationLoop_ok _ (fun d hd => by have := hds d hd; omega), bind_ok]
  unfold forney
  have h2 : List.replicate (toInts rs).length (0 : Int) = toInts (List.replicate rs.length 0) := by
    rw [toInts_replicate_zero, toInts_length]
  rw [field301_fcr, h2, hpos, hfor, bind_ok, gfPolynomialAddition_ok]
  rfl

end CorrectionAssembly

section SyndromeAssembly

open Finset

theorem addP_comm_of_length (p q : List GF256) (h : p.length = q.length) :
    addP p q = addP q p := by
  rw [addP_eq_zipWith p q h, addP_eq_zipWith q p h.symm]
  exact List.zipWith_comm_of_comm _ (fun a b => add_comm a b) p q

theorem zipWith_add_eq_zero : ∀ (p q : List GF256), p.length = q.length →
    (∀ a ∈ List.zipWith (· + ·) p q, a = 0) → p = q
  | [], [], _, _ => rfl
  | [], _ :: _, h, _ => by simp at h
  | _ :: _, [], h, _ => by simp at h
  | a :: p, b :: q, h, hz => by
    rw [List.zipWith_cons_cons] at hz
    have h0 : a + b = 0 := hz _ (List.mem_cons_self _ _)
    have hab : a = b := by
      have h3 : a + b + b = b := by rw [h0, zero_add]
      rw [add_assoc, CharTwo.add_self_eq_zero, add_zero] at h3
      exact h3
    rw [hab, zipWith_add_eq_zero p q (by simpa using h)
      (fun x hx => hz x (List.mem_cons_of_mem _ hx))]

/-- A word without error degrees relative to `cs` is `cs`. -/
theorem eq_of_errDegs_nil (rs cs : List GF256) (h : rs.length = cs.length)
    (h0 : (errDegs (addP rs cs)).length = 0) : rs = cs := by
  rw [errDegs_length, List.length_eq_zero, List.filter_eq_nil_iff] at h0
  apply zipWith_add_eq_zero rs cs h
  intro a ha
  rw [← addP_eq_zipWith rs cs h] at ha
  have := h0 a ha
  simpa using this

theorem syndromes_length (m : List GF256) (n : Nat) : (syndromes m n).length = n := by
  unfold syndromes
  rw [List.length_map, List.length_range]

theorem syndromes_getD (m : List GF256) (n k : Nat) (hk : k < n) :
    (syndromes m n).getD k 0 = horner id (GF256.alpha ^ (k + 1)) m 0 := by
  unfold syndromes
  rw [List.getD_eq_getElem _ _ (by rw [List.length_map, List.length_range]; exact hk),
    List.getElem_map, List.getElem_range]

/-- The syndromes of the received word are those of the error word when the sent word has
zero syndromes. -/
theorem syndromes_error (rs cs : List GF256) (N : Nat) (h : rs.length = cs.length)
    (hc : ∀ a ∈ syndromes cs N, a = 0) (k : Nat) (hk : k < N) :
    (syndromes rs N).getD k 0 = horner id (GF256.alpha ^ (k + 1)) (addP rs cs) 0 := by
  have h0 : horner id (GF256.alpha ^ (k + 1)) cs 0 = 0 := by
    rw [← syndromes_getD cs N k hk]
    apply hc
    rw [List.getD_eq_getElem _ _ (by rw [syndromes_length]; exact hk)]
    exact List.getElem_mem _
  rw [syndromes_getD _ _ _ hk, horner_id_addP _ _ _ h, h0, add_zero]

/-- A word with between one and `N` errors has a non-zero syndrome. -/
theorem syndromes_not_clean (e S : List GF256) (N : Nat) (he : e.length ≤ 255)
    (hS : ∀ k, k < N → S.getD k 0 = horner id (GF256.alpha ^ (k + 1)) e 0)
    (hSlen : S.length = N) (h1 : 1 ≤ (errDegs e).length) (ht : (errDegs e).length ≤ N) :
    ¬ ∀ a ∈ S, a = 0 := by
  intro hall
  have hcard : (errDegs e).toFinset.card = (errDegs e).length :=
    List.toFinset_card_of_nodup (errDegs_nodup e)
  have hv := vandermonde_zero (errDegs e).toFinset (fun p => GF256.alpha ^ p)
    (fun p => cf e p * GF256.alpha ^ p)
    (by
      intro p hp q hq hpq
      rw [Finset.mem_coe, List.mem_toFinset, mem_errDegs] at hp hq
      exact GF256.alpha_pow_injective (by omega) (by omega) hpq)
    (by
      intro m hm
      rw [hcard] at hm
      rw [← syndrome_power_sum, ← hS m (by omega)]
      apply hall
      rw [List.getD_eq_getElem _ _ (by omega)]
      exact List.getElem_mem _)
  obtain ⟨d, hd⟩ := List.exists_mem_of_length_pos (show 0 < (errDegs e).length by omega)
  have h0 := hv d (List.mem_toFinset.mpr hd)
  rw [mem_errDegs] at hd
  exact (mul_ne_zero hd.2 (GF256.alpha_pow_ne_zero d)) h0

end SyndromeAssembly

section DecodeAssembly

open Finset

theorem calcForneySyndromes_nil (S : List Int) (n : Nat) :
    calcForneySyndromes field301 (0 :: S) [] n = .ok S := by
  unfold calcForneySyndromes makeZeros
  dsimp only
  rw [if_pos (by rw [List.length_cons]; push_cast; omega), bind_ok, List.map_nil,
    forneySyndLoop]
  rfl

theorem splitAt_toInts (cs : List GF256) (N : Nat) (hN : N ≤ cs.length) :
    splitAt (toInts cs) (((toInts cs).length : Int) - (N : Int)) =
      .ok ((toInts cs).take (cs.length - N), (toInts cs).drop (cs.length - N)) := by
  unfold splitAt
  have e : ((toInts cs).length : Int) - (N : Int) = ((cs.length - N : Nat) : Int) := by
    rw [toInts_length]; omega
  rw [e, if_pos ⟨by omega, by rw [toInts_length]; omega⟩, Int.toNat_ofNat]

/-- Decoding in the field: a word within `N / 2` errors of a word with zero syndromes is
decoded to that word. -/
theorem decode_corrects (cs rs : List GF256) (N : Nat) (hlen : rs.length = cs.length)
    (h255 : cs.length ≤ 255) (hN : N ≤ cs.length)
    (hsynd : ∀ a ∈ syndromes cs N, a = 0)
    (ht : 2 * (errDegs (addP rs cs)).length ≤ N) :
    Decode field301 (toInts rs) (N : Int) [] =
      .ok ((toInts cs).take (cs.length - N), (toInts cs).drop (cs.length - N), none) := by
  have hne : cs ≠ [] ∨ N = 0 := by
    rcases cs with _ | ⟨a, l⟩
    · right; simpa using hN
    · left; exact List.cons_ne_nil _ _
  have hclean : isSyndromeClean (0 :: toInts (syndromes cs N)) = true := by
    rw [isSyndromeClean_zero_cons, isSyndromeClean_toInts]
    exact hsynd
  by_cases h0 : (errDegs (addP rs cs)).length = 0
  · -- no error: the word is returned as it is
    have hrc := eq_of_errDegs_nil rs cs hlen h0
    rw [hrc]
    have := decode_clean_split field301 (toInts cs) (N : Int) _
      (by rw [toInts_length]; exact h255) (Int.natCast_nonneg N)
      (by rw [toInts_length]; exact_mod_cast hN)
      (calculateSyndromes_ok cs N (by omega) hne) hclean
    rw [this]
    have e : (((toInts cs).length : Int) - (N : Int)).toNat = cs.length - N := by
      rw [toInts_length]; omega
    rw [e]
  · have hrne : rs ≠ [] ∨ N = 0 := by
      rcases hne with h | h
      · left
        intro hr
        rw [hr] at hlen
        exact h (List.length_eq_zero.mp hlen.symm)
      · right; exact h
    have helen : (addP rs cs).length = rs.length := by
      rw [addP_length, hlen, max_self]
    have hS : ∀ k, k < N → (syndromes rs N).getD k 0 =
        horner id (GF256.alpha ^ (k + 1)) (addP rs cs) 0 :=
      fun k hk => syndromes_error rs cs N hlen hsynd k hk
    have hdirty : isSyndromeClean (0 :: toInts (syndromes rs N)) = false := by
      rw [isSyndromeClean_zero_cons, Bool.eq_false_iff, Ne, isSyndromeClean_toInts]
      exact syndromes_not_clean (addP rs cs) _ N (by omega) hS (syndromes_length _ _)
        (by omega) (by omega)
    obtain ⟨hClen, hCprod, hChead⟩ := bm_locator (addP rs cs) (syndromes rs N) N (by omega)
      hS ht
    have hCne : (bmRun (syndromes rs N) N 0 ([1], [1])).reverse ≠ [] := by
      intro h
      have := congrArg List.length h
      rw [List.length_reverse, hClen] at this
      simp at this
    have hfilter := chien_filter (addP rs cs) (by omega) _ hCprod
    rw [helen] at hfilter
    unfold Decode
    rw [if_neg (by rw [toInts_length]; omega), zeroErasures, bind_ok, List.length_nil,
      if_neg (by simp), calculateSyndromes_ok rs N (by omega) hrne, bind_ok, hdirty]
    simp only [Bool.false_eq_true, if_false]
    rw [toInts_length, calcForneySyndromes_nil, bind_ok, Nat.cast_zero,
      unknownErrorLocator_ok _ N (syndromes_length _ _) (by omega) hChead
        (by rw [hClen]; omega), bind_ok]
    dsimp only
    rw [if_neg (by simp), toInts_reverse,
      findErrors_ok _ hCne rs.length (by omega)
        (by rw [hfilter, List.length_reverse, hClen]), bind_ok]
    dsimp only
    rw [if_neg (by simp), hfilter, if_neg (by
        rw [List.length_map]
        intro h
        exact h0 h.1),
      List.nil_append,
      correctErrors_ok rs (addP rs cs) (syndromes rs N) helen (by omega)
        (by rw [syndromes_length]; exact hS) (by rw [syndromes_length]; omega)
        (by rw [syndromes_length]; omega),
      bind_ok, addP_cancel rs cs hlen, calculateSyndromes_ok cs N (by omega) hne, bind_ok,
      hclean]
    simp only [Bool.not_true, Bool.false_eq_true, if_false]
    rw [splitAt_toInts cs N hN, bind_ok]
    rfl

end DecodeAssembly

section ClaimOne

open Finset

/-- C1: with the field initialised by `InitGaloisFields(301, 1)`, for every `nsym ≥ 0`, every
word `c` of symbols with `nsym ≤ len(c) ≤ 255` whose syndromes are all zero, and every word `r`
of symbols of the same length that differs from `c` in at most `floor(nsym / 2)` positions,
`Decode(r, nsym, [])` returns no error and exactly `(c[:len(c)-nsym], c[len(c)-nsym:])`. -/
theorem Decode_corrects_errors (G : Tables)
    (hG : InitGaloisFields Tables.zero 301 1 = .ok (G, none)) (nsym : Int) (c r : List Int)
    (h0 : 0 ≤ nsym) (h1 : nsym ≤ (c.length : Int)) (h2 : c.length ≤ 255)
    (hc : ∀ x ∈ c, 0 ≤ x ∧ x ≤ 255)
    (hsynd : ∃ s, calculateSyndromes G c nsym = .ok s ∧ ∀ v ∈ s, v = 0)
    (hlen : r.length = c.length) (hr : ∀ x ∈ r, 0 ≤ x ∧ x ≤ 255)
    (hdiff : (((List.zip c r).filter (fun p => decide (p.1 ≠ p.2))).length : Int) ≤ nsym / 2) :
    Decode G r nsym [] =
      .ok (c.take ((c.length : Int) - nsym).toNat, c.drop ((c.length : Int) - nsym).toNat,
        none) := by
  have hGeq : G = field301 := by
    have h := init_301
    rw [hG] at h
    exact congrArg Prod.fst (Except.ok.inj h)
  subst hGeq
  obtain ⟨cs, rfl⟩ := exists_toInts c hc
  obtain ⟨rs, rfl⟩ := exists_toInts r hr
  obtain ⟨N, rfl⟩ : ∃ N : Nat, nsym = (N : Int) := ⟨nsym.toNat, by omega⟩
  rw [toInts_length] at h1 h2
  rw [toInts_length, toInts_length] at hlen
  have hN : N ≤ cs.length := by exact_mod_cast h1
  have hne : cs ≠ [] ∨ N = 0 := by
    rcases cs with _ | ⟨a, l⟩
    · right; simpa using hN
    · left; exact List.cons_ne_nil _ _
  have hs : ∀ a ∈ syndromes cs N, a = 0 := by
    obtain ⟨s, hs1, hs2⟩ := hsynd
    rw [calculateSyndromes_ok cs N (by omega) hne] at hs1
    have hs3 := Except.ok.inj hs1
    intro a ha
    apply GF256.toInt_eq_zero.mp
    apply hs2
    rw [← hs3]
    exact List.mem_cons_of_mem _ (List.mem_map_of_mem _ ha)
  have ht : 2 * (errDegs (addP rs cs)).length ≤ N := by
    rw [zip_diff_length cs rs hlen.symm, ← addP_comm_of_length rs cs hlen,
      ← errDegs_length] at hdiff
    omega
  have e : (((toInts cs).length : Int) - (N : Int)).toNat = cs.length - N := by
    rw [toInts_length]; omega
  rw [e]
  exact decode_corrects cs rs N hlen h2 hN hs ht

/-- Witness of C1 on the word of `TestCorrectMessageWithErrors`: three wrong symbols with
`nsym = 8`. -/
theorem Decode_corrects_errors_witness :
    Decode field301
        [68, 90, 46, 145, 46, 131, 11, 53, 12, 43, 239, 193, 240, 125, 85, 215, 63, 202] 8 [] =
      .ok ([68, 90, 46, 145, 46, 131, 153, 53, 32, 43],
        [239, 193, 240, 155, 85, 215, 63, 202], none) :=
  Decode_corrects_errors field301 init_301 8
    [68, 90, 46, 145, 46, 131, 153, 53, 32, 43, 239, 193, 240, 155, 85, 215, 63, 202]
    [68, 90, 46, 145, 46, 131, 11, 53, 12, 43, 239, 193, 240, 125, 85, 215, 63, 202]
    (by decide) (by decide) (by decide) (by decide)
    ⟨[0, 0, 0, 0, 0, 0, 0, 0, 0], by decide!, by decide⟩ (by decide) (by decide) (by decide)

end ClaimOne

/-! ## Functions that read only the two tables -/

theorem gfPower_tables (G H : Tables) (he : G.exponents = H.exponents)
    (hl : G.logs = H.logs) (x p : Int) : gfPower G x p = gfPower H x p := by
  unfold gfPower
  rw [he, hl]

theorem evalLoop_tables (G H : Tables) (he : G.exponents = H.exponents)
    (hl : G.logs = H.logs) (x : Int) : ∀ (cs : List Int) (y : Int),
    evalLoop G x cs y = evalLoop H x cs y
  | [], _ => rfl
  | c :: cs, y => by
    rw [evalLoop, evalLoop, gfMultiplication_tables G H he hl]
    congr 1
    funext m
    exact evalLoop_tables G H he hl x cs _

theorem gfPolynomialEval_tables (G H : Tables) (he : G.exponents = H.exponents)
    (hl : G.logs = H.logs) (p : List Int) (x : Int) :
    gfPolynomialEval G p x = gfPolynomialEval H p x := by
  rcases p with _ | ⟨y, cs⟩
  · rfl
  · rw [gfPolynomialEval, gfPolynomialEval, evalLoop_tables G H he hl]

theorem gfPolynomialScale_tables (G H : Tables) (he : G.exponents = H.exponents)
    (hl : G.logs = H.logs) (p : List Int) (x : Int) :
    gfPolynomialScale G p x = gfPolynomialScale H p x := by
  unfold gfPolynomialScale
  congr 1
  funext c
  exact gfMultiplication_tables G H he hl c x

theorem deltaLoop_tables (G H : Tables) (he : G.exponents = H.exponents)
    (hl : G.logs = H.logs) (errLoc synd : List Int) (K : Int) : ∀ (n : Nat) (j d : Int),
    deltaLoop G errLoc synd K n j d = deltaLoop H errLoc synd K n j d
  | 0, _, _ => rfl
  | n + 1, j, d => by
    rw [deltaLoop, deltaLoop]
    congr 1
    funext a
    congr 1
    funext b
    rw [gfMultiplication_tables G H he hl]
    congr 1
    funext m
    exact deltaLoop_tables G H he hl errLoc synd K n _ _

theorem bmLoop_tables (G H : Tables) (he : G.exponents = H.exponents)
    (hl : G.logs = H.logs) (synd el : List Int) (ec sh : Int) : ∀ (n : Nat) (i : Int)
    (C B : List Int), bmLoop G synd el ec sh n i C B = bmLoop H synd el ec sh n i C B
  | 0, _, _, _ => rfl
  | n + 1, i, C, B => by
    have ih := bmLoop_tables G H he hl synd el ec sh n
    have hs : gfPolynomialScale G = gfPolynomialScale H := by
      funext p x; exact gfPolynomialScale_tables G H he hl p x
    have hi : gfInverse G = gfInverse H := by
      funext x; exact gfInverse_tables G H he hl x
    have hd : deltaLoop G = deltaLoop H := by
      funext a b c d e f; exact deltaLoop_tables G H he hl a b c d e f
    have hb : bmLoop G synd el ec sh n = bmLoop H synd el ec sh n := by
      funext i C B; exact ih i C B
    rw [bmLoop, bmLoop, hs, hi, hd, hb]

theorem unknownErrorLocator_tables (G H : Tables) (he : G.exponents = H.exponents)
    (hl : G.logs = H.logs) (synd el : List Int) (nsym ec : Int) :
    unknownErrorLocator G synd el nsym ec = unknownErrorLocator H synd el nsym ec := by
  unfold unknownErrorLocator
  have hb : bmLoop G = bmLoop H := by
    funext a b c d e f g h; exact bmLoop_tables G H he hl a b c d e f g h
  rw [hb]

theorem chienLoop_tables (G H : Tables) (he : G.exponents = H.exponents)
    (hl : G.logs = H.logs) (errLoc : List Int) (msgLen : Int) : ∀ (n : Nat) (i : Int)
    (acc : List Int), chienLoop G errLoc msgLen n i acc = chienLoop H errLoc msgLen n i acc
  | 0, _, _ => rfl
  | n + 1, i, acc => by
    have hb : chienLoop G errLoc msgLen n = chienLoop H errLoc msgLen n := by
      funext i acc; exact chienLoop_tables G H he hl errLoc msgLen n i acc
    have hp : gfPower G = gfPower H := by
      funext x p; exact gfPower_tables G H he hl x p
    have hv : gfPolynomialEval G = gfPolynomialEval H := by
      funext p x; exact gfPolynomialEval_tables G H he hl p x
    rw [chienLoop, chienLoop, hp, hv, hb]

theorem findErrors_tables (G H : Tables) (he : G.exponents = H.exponents)
    (hl : G.logs = H.logs) (errLoc : List Int) (msgLen : Int) :
    findErrors G errLoc msgLen = findErrors H errLoc msgLen := by
  unfold findErrors
  have hb : chienLoop G = chienLoop H := by
    funext a b c d e; exact chienLoop_tables G H he hl a b c d e
  rw [hb]

theorem mulInner_tables (G H : Tables) (he : G.exponents = H.exponents)
    (hl : G.logs = H.logs) (qj : Int) (j : Nat) : ∀ (cs : List Int) (i : Nat) (r : List Int),
    mulInner G qj j cs i r = mulInner H qj j cs i r
  | [], _, _ => rfl
  | c :: cs, i, r => by
    have hb : mulInner G qj j cs = mulInner H qj j cs := by
      funext i r; exact mulInner_tables G H he hl qj j cs i r
    have hm : gfMultiplication G = gfMultiplication H := by
      funext x y; exact gfMultiplication_tables G H he hl x y
    rw [mulInner, mulInner, hm, hb]

theorem mulOuter_tables (G H : Tables) (he : G.exponents = H.exponents)
    (hl : G.logs = H.logs) (p : List Int) : ∀ (qs : List Int) (j : Nat) (r : List Int),
    mulOuter G p qs j r = mulOuter H p qs j r
  | [], _, _ => rfl
  | q :: qs, j, r => by
    have hb : mulOuter G p qs = mulOuter H p qs := by
      funext j r; exact mulOuter_tables G H he hl p qs j r
    have hm : mulInner G = mulInner H := by
      funext a b c d e; exact mulInner_tables G H he hl a b c d e
    rw [mulOuter, mulOuter, hm, hb]

theorem locatorLoop_tables (G H : Tables) (he : G.exponents = H.exponents)
    (hl : G.logs = H.logs) : ∀ (ps loc : List Int),
    locatorLoop G ps loc = locatorLoop H ps loc
  | [], _ => rfl
  | p :: ps, loc => by
    have hb : locatorLoop G ps = locatorLoop H ps := by
      funext loc; exact locatorLoop_tables G H he hl ps loc
    have hp : gfPower G = gfPower H := by
      funext x p; exact gfPower_tables G H he hl x p
    have hm : gfPolynomialMultiplication G = gfPolynomialMultiplication H := by
      funext a b
      unfold gfPolynomialMultiplication
      have hmo : mulOuter G = mulOuter H := by
        funext a b c d; exact mulOuter_tables G H he hl a b c d
      rw [hmo]
    rw [locatorLoop, locatorLoop, hp, hm, hb]

/-! ## The root search on arbitrary tables -/

theorem chienLoop_spec (G : Tables) (errLoc : List Int) (N : Int) (v : Nat → Int) :
    ∀ (k i : Nat) (acc : List Int),
      (∀ j, i ≤ j → j < i + k →
        ∃ x, gfPower G 2 (j : Int) = .ok x ∧ gfPolynomialEval G errLoc x = .ok (v j)) →
      chienLoop G errLoc N k (i : Int) acc =
        .ok (acc ++ ((List.range' i k).filter (fun j => decide (v j = 0))).map
          (fun (j : Nat) => N - 1 - (j : Int)))
  | 0, i, acc, _ => by
    rw [chienLoop]
    simp
  | k + 1, i, acc, h => by
    obtain ⟨x, hx1, hx2⟩ := h i (le_refl _) (by omega)
    have e1 : (i : Int) + 1 = ((i + 1 : Nat) : Int) := by push_cast; rfl
    have ih := fun acc => chienLoop_spec G errLoc N v k (i + 1) acc
      (fun j hj1 hj2 => h j (by omega) (by omega))
    rw [chienLoop, hx1, bind_ok, hx2, bind_ok, e1, List.range'_succ, List.filter_cons]
    by_cases hz : v i = 0
    · rw [if_pos hz, ih, if_pos (decide_eq_true hz), List.map_cons, List.append_assoc]
      rfl
    · rw [if_neg hz, ih, if_neg (by simpa using hz)]

/-- C21: `findErrors` on a non-empty locator and `0 ≤ msgLen ≤ 255`.  Whenever the
evaluations of the loop return (value `v i` at exponent `i`), with `R` the exponents
`i < msgLen` in increasing order at which the value is zero, the function returns its root-count
error exactly when `len(R) ≠ len(errLoc) - 1` and otherwise the positions `msgLen - 1 - i` for
`i` in `R`, in that order; these are strictly decreasing, hence pairwise distinct, and lie in
`[0, msgLen)`.  On the tables of `InitGaloisFields(301, fcr)` with a locator of symbols every
evaluation of the loop returns. -/
theorem findErrors_spec (G : Tables) (errLoc : List Int) (msgLen : Nat)
    (hne : errLoc ≠ []) (hlen : msgLen ≤ 255) :
    (∀ v : Nat → Int,
      (∀ i, i < msgLen →
        ∃ x, gfPower G 2 (i : Int) = .ok x ∧ gfPolynomialEval G errLoc x = .ok (v i)) →
      findErrors G errLoc (msgLen : Int) =
          .ok (if ((((List.range msgLen).filter (fun i => decide (v i = 0))).length : Nat) : Int) ≠
              (errLoc.length : Int) - 1
            then ([], some .chienMismatch)
            else (((List.range msgLen).filter (fun i => decide (v i = 0))).map
              (fun (i : Nat) => (msgLen : Int) - 1 - (i : Int)), none)) ∧
        RSError.chienMismatch.text =
          "too many (or few) errors found by Chien Search for the errata locator polynomial" ∧
        (((List.range msgLen).filter (fun i => decide (v i = 0))).map
          (fun (i : Nat) => (msgLen : Int) - 1 - (i : Int))).Pairwise (fun a b => a > b) ∧
        (((List.range msgLen).filter (fun i => decide (v i = 0))).map
          (fun (i : Nat) => (msgLen : Int) - 1 - (i : Int))).Nodup ∧
        ∀ p ∈ ((List.range msgLen).filter (fun i => decide (v i = 0))).map
          (fun (i : Nat) => (msgLen : Int) - 1 - (i : Int)), 0 ≤ p ∧ p < (msgLen : Int)) ∧
      (∀ fcr, InitGaloisFields Tables.zero 301 fcr = .ok (G, none) →
        (∀ c ∈ errLoc, 0 ≤ c ∧ c ≤ 255) →
        ∃ v : Nat → Int, ∀ i, i < msgLen →
          ∃ x, gfPower G 2 (i : Int) = .ok x ∧ gfPolynomialEval G errLoc x = .ok (v i)) := by
  refine ⟨?_, ?_⟩
  · intro v hv
    have hdec : (((List.range msgLen).filter (fun i => decide (v i = 0))).map
        (fun (i : Nat) => (msgLen : Int) - 1 - (i : Int))).Pairwise (fun a b => a > b) := by
      rw [List.pairwise_map]
      apply List.Pairwise.filter
      apply List.Pairwise.imp _ (List.pairwise_lt_range msgLen)
      intro a b hab
      omega
    refine ⟨?_, rfl, hdec, ?_, ?_⟩
    · unfold findErrors
      dsimp only
      have h := chienLoop_spec G errLoc (msgLen : Int) v msgLen 0 []
        (fun j _ hj => hv j (by omega))
      rw [Nat.cast_zero] at h
      rw [Int.toNat_ofNat, h, bind_ok, List.nil_append, ← List.range_eq_range', List.length_map]
      split <;> rfl
    · exact hdec.imp (fun h => ne_of_gt h)
    · intro p hp
      obtain ⟨i, hi, rfl⟩ := List.mem_map.mp hp
      have := List.mem_range.mp (List.mem_filter.mp hi).1
      omega
  · intro fcr hG hsym
    have hT := init_301_tables G fcr hG
    have he : G.exponents = field301.exponents := by rw [hT]
    have hl : G.logs = field301.logs := by rw [hT]
    obtain ⟨Q, rfl⟩ := exists_toInts errLoc hsym
    have hQ : Q ≠ [] := by
      intro h0
      rw [h0] at hne
      exact hne rfl
    refine ⟨fun i => (horner id (GF256.alpha ^ i) Q 0).toInt, ?_⟩
    intro i hi
    refine ⟨(GF256.alpha ^ i).toInt, ?_, ?_⟩
    · rw [gfPower_tables G field301 he hl, gfPower_two_nat i (by omega)]
    · rw [gfPolynomialEval_tables G field301 he hl, gfPolynomialEval_list _ _ hQ]

/-- Witness of C21: the locator found for the word of `TestCorrectMessageWithErrors`, reversed,
on 18 symbols: three roots, at the positions 13, 8 and 6. -/
theorem findErrors_spec_witness :
    findErrors field301 [1, 15, 38, 54] 18 = .ok ([13, 8, 6], none) ∧
      ∃ v : Nat → Int, ∀ i : Nat, i < 18 →
        ∃ x, gfPower field301 2 (i : Int) = .ok x ∧
          gfPolynomialEval field301 [1, 15, 38, 54] x = .ok (v i) :=
  ⟨by decide!, (findErrors_spec field301 [1, 15, 38, 54] 18 (by decide) (by decide)).2 1
    init_301 (by decide)⟩

/-! ## Erased symbols do not influence the result -/

theorem store_agree (r s : List Int) (p : Int) (hlen : r.length = s.length) :
    (store r p 0 = .error .indexOutOfRange ∧ store s p 0 = .error .indexOutOfRange) ∨
      (0 ≤ p ∧ store r p 0 = .ok (r.set p.toNat 0) ∧ store s p 0 = .ok (s.set p.toNat 0)) := by
  unfold store
  by_cases h : 0 ≤ p ∧ p < (r.length : Int)
  · right
    rw [if_pos h, if_pos (by rw [← hlen]; exact h)]
    exact ⟨h.1, rfl, rfl⟩
  · left
    rw [if_neg h, if_neg (by rw [← hlen]; exact h)]
    exact ⟨rfl, rfl⟩

/-- Two words of equal length that agree outside the listed positions are equal after the
listed positions have been set to zero. -/
theorem zeroErasures_agree : ∀ (E r s : List Int), r.length = s.length →
    (∀ i : Nat, (i : Int) ∉ E → r.getD i 0 = s.getD i 0) →
    zeroErasures E r = zeroErasures E s
  | [], r, s, hlen, h => by
    rw [list_eq_of_getD 0 r s hlen (fun i => h i (List.not_mem_nil _))]
  | p :: E, r, s, hlen, h => by
    rw [zeroErasures, zeroErasures]
    rcases store_agree r s p hlen with ⟨h1, h2⟩ | ⟨hp, h1, h2⟩
    · rw [h1, h2]
    · rw [h1, h2, bind_ok, bind_ok]
      apply zeroErasures_agree E
      · rw [List.length_set, List.length_set, hlen]
      · intro i hi
        by_cases hip : i = p.toNat
        · subst hip
          by_cases hr : p.toNat < r.length
          · rw [getD_set_eq _ _ _ _ _ hr, getD_set_eq _ _ _ _ _ (hlen ▸ hr), if_pos rfl,
              if_pos rfl]
          · rw [List.getD_eq_default _ _ (by rw [List.length_set]; omega),
              List.getD_eq_default _ _ (by rw [List.length_set]; omega)]
        · have hne : (i : Int) ∉ p :: E := by
            intro hm
            rcases List.mem_cons.mp hm with h0 | h0
            · exact hip (by omega)
            · exact hi h0
          have hg := h i hne
          by_cases hr : p.toNat < r.length
          · rw [getD_set_eq _ _ _ _ _ hr, getD_set_eq _ _ _ _ _ (hlen ▸ hr), if_neg hip,
              if_neg hip, hg]
          · rw [List.set_eq_of_length_le (by omega), List.set_eq_of_length_le (by omega), hg]

/-- C22: the symbols stored at the erased positions do not influence the result: two words of
equal length that agree at every position not listed in `E` give the same message, ecc block
and error, for every `nsym` and every state of the tables (and likewise abort together). -/
theorem Decode_ignores_erased_symbols (G : Tables) (r s : List Int) (nsym : Int) (E : List Int)
    (hlen : r.length = s.length)
    (hagree : ∀ i : Nat, i < r.length → (i : Int) ∉ E → r.getD i 0 = s.getD i 0) :
    Decode G r nsym E = Decode G s nsym E := by
  have hz : zeroErasures E r = zeroErasures E s := by
    apply zeroErasures_agree E r s hlen
    intro i hi
    by_cases hr : i < r.length
    · exact hagree i hr hi
    · rw [List.getD_eq_default _ _ (by omega), List.getD_eq_default _ _ (by omega)]
  unfold Decode
  rw [hz, hlen]

/-- Witness of C22: the codeword of the tests with positions 4, 6 and 8 erased, once with its
own symbols and once with other symbols at those positions; both calls return the original
message and ecc. -/
theorem Decode_ignores_erased_symbols_witness :
    Decode field301
        [68, 90, 46, 145, 46, 131, 153, 53, 32, 43, 239, 193, 240, 155, 85, 215, 63, 202] 8
        [4, 6, 8] =
      Decode field301
        [68, 90, 46, 145, 7, 131, 0, 53, 255, 43, 239, 193, 240, 155, 85, 215, 63, 202] 8
        [4, 6, 8] :=
  Decode_ignores_erased_symbols field301 _ _ 8 [4, 6, 8] (by decide) (by decide)

/-! ## Table indices of the scalar functions -/

theorem exps_getD (i : Nat) (h : i < 510) : field301.exponents.getD i 0 = (expT i : Int) := by
  have := exponents_entry i h
  unfold expT
  omega

theorem logs_getD (x : Nat) (h : x < 256) : field301.logs.getD x 0 = (logT x : Int) := by
  have := logs_entry x h
  unfold logT
  omega

theorem exps_getD_mod (n : Nat) (h : n < 510) :
    field301.exponents.getD n 0 = field301.exponents.getD (n % 255) 0 := by
  rw [exps_getD n h, exps_getD (n % 255) (by omega), expT_eq_pw n h]
  rfl

/-- The value `gfPower` returns on the tables of `InitGaloisFields(301, _)`, for every exponent:
the antilog entry at the Euclidean remainder of the 64-bit product. -/
theorem gfPower_index (x : Nat) (hx : x < 256) (n : Int) :
    gfPower field301 (x : Int) n =
      .ok (field301.exponents.getD (wrap64 ((logT x : Int) * n) % 255).toNat 0) := by
  unfold gfPower
  rw [index_logs x hx, bind_ok]
  generalize wrap64 ((logT x : Int) * n) = w
  rw [tmod_255]
  by_cases hw : 0 ≤ w
  · rw [if_pos hw]
    have h3 : 0 ≤ w % 255 := Int.emod_nonneg _ (by decide)
    have h4 : w % 255 < 255 := Int.emod_lt_of_pos _ (by decide)
    rw [if_pos (by omega)]
    obtain ⟨k, hk⟩ : ∃ k : Nat, w % 255 = (k : Int) := ⟨(w % 255).toNat, by omega⟩
    rw [hk, Int.toNat_ofNat, index_ok _ _ (by rw [exponents_length]; omega)]
  · rw [if_neg hw]
    have h3 : 0 ≤ (-w) % 255 := Int.emod_nonneg _ (by decide)
    have h4 : (-w) % 255 < 255 := Int.emod_lt_of_pos _ (by decide)
    obtain ⟨m, hm⟩ : ∃ m : Nat, (-w) % 255 = (m : Int) := ⟨((-w) % 255).toNat, by omega⟩
    obtain ⟨k, hk⟩ : ∃ k : Nat, w % 255 = (k : Int) := ⟨(w % 255).toNat, by omega⟩
    rw [hm, hk, Int.toNat_ofNat]
    by_cases h0 : m = 0
    · subst h0
      have hk0 : k = 0 := by omega
      subst hk0
      rw [if_pos (by decide)]
      exact index_ok _ 0 (by rw [exponents_length]; decide)
    · rw [if_neg (by omega), exponents_length]
      have h7 : ((510 : Nat) : Int) + -(m : Int) = ((510 - m : Nat) : Int) := by omega
      rw [h7, index_ok _ _ (by rw [exponents_length]; omega), exps_getD_mod _ (by omega)]
      have h8 : (510 - m) % 255 = k := by omega
      rw [h8]

theorem index_getD (xs : List Int) (i : Int) (h0 : 0 ≤ i) (h1 : i < (xs.length : Int)) :
    index xs i = .ok (xs.getD i.toNat 0) := by
  unfold index
  rw [if_pos ⟨h0, h1⟩]

/-- C23: after `InitGaloisFields(301, fcr)`, for symbols `x, y` in `1..255` the index
`logs[x] + logs[y]` read by `gfMultiplication` lies in `0..508`, the function returns the
antilog entry at that index, and that entry is the one at `(logs[x] + logs[y]) mod 255`. -/
theorem gfMultiplication_doubled_table (G : Tables) (fcr : Int)
    (hG : InitGaloisFields Tables.zero 301 fcr = .ok (G, none)) (x y : Int)
    (hx1 : 1 ≤ x) (hx2 : x ≤ 255) (hy1 : 1 ≤ y) (hy2 : y ≤ 255) :
    0 ≤ G.logs.getD x.toNat 0 + G.logs.getD y.toNat 0 ∧
      G.logs.getD x.toNat 0 + G.logs.getD y.toNat 0 ≤ 508 ∧
      G.exponents.length = 510 ∧
      gfMultiplication G x y =
        .ok (G.exponents.getD (G.logs.getD x.toNat 0 + G.logs.getD y.toNat 0).toNat 0) ∧
      gfMultiplication G x y =
        .ok (G.exponents.getD
          ((G.logs.getD x.toNat 0 + G.logs.getD y.toNat 0) % 255).toNat 0) := by
  have hT := init_301_tables G fcr hG
  have he : G.exponents = field301.exponents := by rw [hT]
  have hl : G.logs = field301.logs := by rw [hT]
  rw [he, hl, gfMultiplication_tables G field301 he hl]
  have hlx := logs_entry x.toNat (by omega)
  have hly := logs_entry y.toNat (by omega)
  have hmul : gfMultiplication field301 x y =
      .ok (field301.exponents.getD
        (field301.logs.getD x.toNat 0 + field301.logs.getD y.toNat 0).toNat 0) := by
    unfold gfMultiplication
    rw [if_neg (by omega), index_getD _ x (by omega) (by rw [logs_length]; omega), bind_ok,
      index_getD _ y (by omega) (by rw [logs_length]; omega), bind_ok,
      wrap64_eq _ (by omega) (by omega),
      index_getD _ _ (by omega) (by rw [exponents_length]; omega)]
  refine ⟨by omega, by omega, exponents_length, hmul, ?_⟩
  rw [hmul]
  obtain ⟨k, hk⟩ : ∃ k : Nat,
      field301.logs.getD x.toNat 0 + field301.logs.getD y.toNat 0 = (k : Int) :=
    ⟨(field301.logs.getD x.toNat 0 + field301.logs.getD y.toNat 0).toNat, by omega⟩
  rw [hk, Int.toNat_ofNat, exps_getD_mod k (by omega)]
  have : ((k : Int) % 255).toNat = k % 255 := by omega
  rw [this]

/-- Witness of C23 at `x = 255`, `y = 255`, where the index is `2 * 150 = 300 > 254`. -/
theorem gfMultiplication_doubled_table_witness :
    gfMultiplication field301 255 255 = .ok 52 ∧
      gfMultiplication field301 255 255 =
        .ok (field301.exponents.getD
          ((field301.logs.getD 255 0 + field301.logs.getD 255 0) % 255).toNat 0) :=
  have h := gfMultiplication_doubled_table field301 1 init_301 255 255 (by decide) (by decide)
    (by decide) (by decide)
  ⟨by decide!, h.2.2.2.2⟩

theorem tmod_255_bounds (p : Int) : -255 < Int.tmod p 255 ∧ Int.tmod p 255 < 255 := by
  rw [tmod_255]
  split <;> omega

/-- C24 (amended): after `InitGaloisFields(301, fcr)`, for every symbol `x` in `1..255` and
every exponent `n`, the index `gfPower` reads lies in `[0, 510)` and the value returned is the
antilog entry at the Euclidean remainder modulo 255 of the product `logs[x] * n` as the 64-bit
`int` holds it; when the product does not overflow (e.g. for `|n| < 2^55`) this is
`exponents[(logs[x] * n) mod 255]`.  Moreover `gfPower(x, -1) = gfInverse(x)`. -/
theorem gfPower_euclidean (G : Tables) (fcr : Int)
    (hG : InitGaloisFields Tables.zero 301 fcr = .ok (G, none)) (x : Int)
    (hx1 : 1 ≤ x) (hx2 : x ≤ 255) (n : Int) :
    (∃ idx : Int, 0 ≤ idx ∧ idx < 510 ∧
      idx = (if Int.tmod (wrap64 (G.logs.getD x.toNat 0 * n)) 255 ≥ 0
        then Int.tmod (wrap64 (G.logs.getD x.toNat 0 * n)) 255
        else (G.exponents.length : Int) + Int.tmod (wrap64 (G.logs.getD x.toNat 0 * n)) 255) ∧
      gfPower G x n = index G.exponents idx) ∧
      gfPower G x n =
        .ok (G.exponents.getD (wrap64 (G.logs.getD x.toNat 0 * n) % 255).toNat 0) ∧
      (-9223372036854775808 ≤ G.logs.getD x.toNat 0 * n →
        G.logs.getD x.toNat 0 * n < 9223372036854775808 →
        gfPower G x n = .ok (G.exponents.getD ((G.logs.getD x.toNat 0 * n) % 255).toNat 0)) ∧
      (-36028797018963968 < n → n < 36028797018963968 →
        gfPower G x n = .ok (G.exponents.getD ((G.logs.getD x.toNat 0 * n) % 255).toNat 0)) ∧
      gfPower G x (-1) = gfInverse G x := by
  have hT := init_301_tables G fcr hG
  have he : G.exponents = field301.exponents := by rw [hT]
  have hl : G.logs = field301.logs := by rw [hT]
  rw [he, hl, gfPower_tables G field301 he hl, gfPower_tables G field301 he hl,
    gfInverse_tables G field301 he hl]
  obtain ⟨a, ha⟩ : ∃ a : Nat, x = (a : Int) := ⟨x.toNat, by omega⟩
  subst ha
  have ha : a < 256 := by omega
  have hla := logT_lt a ha
  rw [Int.toNat_ofNat, logs_getD a ha]
  have hval := gfPower_index a ha n
  have hbounded : -9223372036854775808 ≤ (logT a : Int) * n →
      (logT a : Int) * n < 9223372036854775808 →
      gfPower field301 (a : Int) n =
        .ok (field301.exponents.getD (((logT a : Int) * n) % 255).toNat 0) := by
    intro h1 h2
    rw [hval, wrap64_eq _ h1 h2]
  refine ⟨?_, hval, hbounded, ?_, ?_⟩
  · refine ⟨_, ?_, ?_, rfl, ?_⟩
    · have := tmod_255_bounds (wrap64 ((logT a : Int) * n))
      split
      · assumption
      · rw [exponents_length]
        omega
    · have := tmod_255_bounds (wrap64 ((logT a : Int) * n))
      split
      · omega
      · rw [exponents_length]
        omega
    · unfold gfPower
      rw [index_logs a ha, bind_ok]
      dsimp only
      split <;> rfl
  · intro h1 h2
    apply hbounded
    · have : -255 * 36028797018963968 ≤ (logT a : Int) * n := by nlinarith
      omega
    · have : (logT a : Int) * n ≤ 255 * 36028797018963968 := by nlinarith
      omega
  · rw [gfPower_index a ha (-1), wrap64_eq _ (by omega) (by omega)]
    unfold gfInverse
    rw [index_logs a ha, bind_ok, wrap64_eq _ (by omega) (by omega),
      index_getD _ _ (by omega) (by rw [exponents_length]; omega)]
    by_cases h0 : logT a = 0
    · rw [h0]
      have h1 : ((((0 : Nat) : Int) * -1) % 255).toNat = 0 := by decide
      have h2 : ((255 : Int) - ((0 : Nat) : Int)).toNat = 255 := by decide
      rw [h1, h2, exps_getD_mod 255 (by decide)]
    · have h1 : (((logT a : Int) * -1) % 255).toNat = 255 - logT a := by omega
      have h2 : ((255 : Int) - (logT a : Int)).toNat = 255 - logT a := by omega
      rw [h1, h2]

/-- Witness of C24 (amended) on the values of `TestGfPower`. -/
theorem gfPower_euclidean_witness :
    gfPower field301 5 2 = .ok 17 ∧ gfPower field301 15 (-1) = .ok 52 ∧
      gfPower field301 15 (-1) = gfInverse field301 15 ∧
      gfPower field301 5 2 =
        .ok (field301.exponents.getD ((field301.logs.getD (5 : Int).toNat 0 * 2) % 255).toNat 0) :=
  have h := gfPower_euclidean field301 1 init_301 5 (by decide) (by decide) 2
  have h15 := gfPower_euclidean field301 1 init_301 15 (by decide) (by decide) (-1)
  ⟨by decide!, by decide!, h15.2.2.2.2, h.2.2.2.1 (by decide) (by decide)⟩

/-- C24 (counterexample to the claim as stated): `logs[4] = 2`, and for the exponent
`n = 2^62` the product `2 * 2^62 = 2^63` overflows the 64-bit `int` to `-2^63`; `gfPower`
returns `exponents[127] = 172`, while `exponents[(logs[4] * n) mod 255] = exponents[128]` is
`117`. -/
theorem gfPower_overflow_counterexample :
    ∃ G, InitGaloisFields Tables.zero 301 1 = .ok (G, none) ∧
      G.logs.getD 4 0 = 2 ∧
      wrap64 (2 * 4611686018427387904) = -9223372036854775808 ∧
      gfPower G 4 4611686018427387904 = .ok 172 ∧
      G.exponents.getD ((G.logs.getD 4 0 * 4611686018427387904) % 255).toNat 0 = 117 :=
  ⟨field301, init_301, by decide!, by decide!, by decide!, by decide!⟩

/-- C25: after `InitGaloisFields(301, fcr)`, for every symbol `x` in `1..255`, `gfInverse(x)`
is the value that `gfDivision(1, x)` returns, and the division returns no error. -/
theorem gfInverse_eq_gfDivision (G : Tables) (fcr : Int)
    (hG : InitGaloisFields Tables.zero 301 fcr = .ok (G, none)) (x : Int)
    (hx1 : 1 ≤ x) (hx2 : x ≤ 255) :
    ∃ v, gfInverse G x = .ok v ∧ gfDivision G 1 x = .ok (v, none) := by
  have hT := init_301_tables G fcr hG
  have he : G.exponents = field301.exponents := by rw [hT]
  have hl : G.logs = field301.logs := by rw [hT]
  obtain ⟨a, ha⟩ := GF256.exists_of_range x ⟨by omega, hx2⟩
  have ha0 : a ≠ 0 := by
    intro h0
    rw [h0, GF256.toInt_zero] at ha
    omega
  refine ⟨(a⁻¹).toInt, ?_, ?_⟩
  · rw [gfInverse_tables G field301 he hl, ← ha, gfInverse_ok a ha0]
  · have h1 : (1 : Int) = (1 : GF256).toInt := rfl
    rw [gfDivision_tables G field301 he hl, ← ha, h1, gfDivision_ok _ _ ha0, one_div]

/-- Witness of C25 at the symbol 2 of `TestGfInverse`. -/
theorem gfInverse_eq_gfDivision_witness :
    ∃ v, gfInverse field301 2 = .ok v ∧ gfDivision field301 1 2 = .ok (v, none) :=
  gfInverse_eq_gfDivision field301 1 init_301 2 (by decide) (by decide)

/-! ## The locator of given positions -/

section LocatorOfPositions

open Polynomial

/-- The value of the locator list at `x` is the product of the factors `x_i * x + 1`. -/
theorem horner_id_locP {F : Type} [Field F] (pts : List F) (x : F) :
    horner id x (locP pts [1]) 0 = (pts.map (fun a => a * x + 1)).prod := by
  rw [horner_id_zero, horner_locP pts [1] (by simp), eval_mul, eval_list_prod, List.map_map]
  have h1 : (horner C X [(1 : F)] 0 : F[X]) = 1 := by simp [horner]
  rw [h1, eval_one, one_mul]
  congr 1
  apply List.map_congr_left
  intro a _
  simp

theorem getLast_of_cf {F : Type} [Field F] (l : List F) (h : cf l 0 = 1) :
    l.getLast? = some 1 := by
  unfold cf at h
  rw [List.getLast?_eq_head?_reverse]
  rcases hr : l.reverse with _ | ⟨a, t⟩
  · rw [hr] at h
    simp at h
  · rw [hr] at h
    simp only [List.getD_cons_zero] at h
    rw [h]
    rfl

theorem cf_locP {F : Type} [Field F] (pts : List F) : cf (locP pts [1]) 0 = 1 := by
  have hlen := locP_length pts [1] (le_refl _)
  have h := horner_id_locP pts 0
  rw [horner_id_sum, hlen, Finset.range_eq_Ico,
    Finset.sum_eq_sum_Ico_succ_bot (by simp) (fun j => cf (locP pts [1]) j * 0 ^ j),
    Finset.sum_eq_zero, add_zero, pow_zero, mul_one] at h
  · rw [h]
    apply List.prod_eq_one
    intro y hy
    obtain ⟨a, _, rfl⟩ := List.mem_map.mp hy
    rw [mul_zero, zero_add]
  · intro j hj
    rw [Finset.mem_Ico] at hj
    rw [zero_pow (by omega), mul_zero]

end LocatorOfPositions

theorem toInts_getLast (l : List GF256) (h : l.getLast? = some 1) :
    (toInts l).getLast? = some 1 := by
  unfold toInts
  rw [List.getLast?_map, h]
  rfl

/-- C26: after `InitGaloisFields(301, fcr)`, for every list `ps` of positions in `0..254`,
`calcErrorLocatorPolynomial(ps)` returns a list of `len(ps) + 1` coefficients whose last
coefficient is 1 and which evaluates to zero at `gfPower(2, -p)` for every `p` in `ps`. -/
theorem calcErrorLocatorPolynomial_spec (G : Tables) (fcr : Int)
    (hG : InitGaloisFields Tables.zero 301 fcr = .ok (G, none)) (ps : List Int)
    (hps : ∀ p ∈ ps, 0 ≤ p ∧ p ≤ 254) :
    ∃ loc, calcErrorLocatorPolynomial G ps = .ok loc ∧ loc.length = ps.length + 1 ∧
      loc.getLast? = some 1 ∧
      ∀ p ∈ ps, ∃ x, gfPower G 2 (-p) = .ok x ∧ gfPolynomialEval G loc x = .ok 0 := by
  have hT := init_301_tables G fcr hG
  have he : G.exponents = field301.exponents := by rw [hT]
  have hl : G.logs = field301.logs := by rw [hT]
  obtain ⟨ds, rfl⟩ : ∃ ds : List Nat, ps = ds.map (fun (d : Nat) => (d : Int)) := by
    refine ⟨ps.map Int.toNat, ?_⟩
    rw [List.map_map]
    conv_lhs => rw [← List.map_id ps]
    apply List.map_congr_left
    intro p hp
    have := hps p hp
    simp only [Function.comp_apply, id]
    omega
  have hds : ∀ d ∈ ds, d ≤ 254 := by
    intro d hd
    have := hps (d : Int) (List.mem_map_of_mem _ hd)
    omega
  have hlen := locP_length (ds.map (fun d => GF256.alpha ^ d)) [1] (le_refl _)
  have hloc : calcErrorLocatorPolynomial G (ds.map (fun (d : Nat) => (d : Int))) =
      .ok (toInts (locP (ds.map (fun d => GF256.alpha ^ d)) [1])) := by
    unfold calcErrorLocatorPolynomial
    have h1 : ([1] : List Int) = toInts [1] := rfl
    rw [locatorLoop_tables G field301 he hl, h1,
      locatorLoop_ok ds [1] (by simp) (fun d hd => by have := hds d hd; omega)]
  have hnil : locP (ds.map (fun d => GF256.alpha ^ d)) [1] ≠ [] := by
    intro h0
    rw [h0] at hlen
    simp at hlen
    omega
  refine ⟨_, hloc, ?_, ?_, ?_⟩
  · rw [toInts_length, hlen, List.length_singleton, List.length_map, List.length_map, add_comm]
  · exact toInts_getLast _ (getLast_of_cf _ (cf_locP _))
  · intro p hp
    obtain ⟨d, hd, rfl⟩ := List.mem_map.mp hp
    have hd254 := hds d hd
    refine ⟨(GF256.alpha ^ (-(d : Int) % 255).toNat).toInt, ?_, ?_⟩
    · rw [gfPower_tables G field301 he hl, gfPower_two _ (by omega) (by omega)]
    · rw [gfPolynomialEval_tables G field301 he hl, gfPolynomialEval_list _ _ hnil,
        horner_id_locP, List.map_map]
      have hz : (0 : GF256) ∈ (ds.map ((fun a => a * GF256.alpha ^ (-(d : Int) % 255).toNat + 1) ∘
          (fun d => GF256.alpha ^ d))) := by
        rw [List.mem_map]
        refine ⟨d, hd, ?_⟩
        simp only [Function.comp_apply]
        rw [← pow_add, ← GF256.alpha_pow_mod]
        have e : (d + (-(d : Int) % 255).toNat) % 255 = 0 := by omega
        rw [e, pow_zero]
        exact CharTwo.add_self_eq_zero 1
      rw [List.prod_eq_zero hz]
      rfl

/-- Witness of C26 on the positions of `TestCalcErrorLocatorPolynomial`. -/
theorem calcErrorLocatorPolynomial_spec_witness :
    calcErrorLocatorPolynomial field301 [5, 10, 12] = .ok [157, 152, 30, 1] ∧
      ∃ loc, calcErrorLocatorPolynomial field301 [5, 10, 12] = .ok loc ∧
        loc.length = ([5, 10, 12] : List Int).length + 1 ∧ loc.getLast? = some 1 ∧
        ∀ p ∈ ([5, 10, 12] : List Int),
          ∃ x, gfPower field301 2 (-p) = .ok x ∧ gfPolynomialEval field301 loc x = .ok 0 :=
  ⟨by decide!, calcErrorLocatorPolynomial_spec field301 1 init_301 [5, 10, 12] (by decide)⟩

/-- C27 (the code departs from the claim): on the input of `TestCalcErrorPolynomial`
(10 syndrome coefficients, 4 locator coefficients, `nsym = 10`) the product has 13
coefficients and `calcErrorPolynomial` returns its last 2, `[1, 161]`, not its last
`nsym + 1 = 11`: `gfPolynomialDivision` splits the buffer at index `len(divisor) - 1 = 11`
counted from the front. -/
theorem calcErrorPolynomial_keeps_wrong_length :
    ∃ G, InitGaloisFields Tables.zero 301 1 = .ok (G, none) ∧
      gfPolynomialMultiplication G [0, 251, 151, 100, 105, 36, 252, 184, 46, 161]
          [157, 152, 30, 1] =
        .ok [0, 208, 245, 112, 220, 174, 205, 73, 201, 199, 93, 1, 161] ∧
      calcErrorPolynomial G [0, 251, 151, 100, 105, 36, 252, 184, 46, 161] [157, 152, 30, 1] 10 =
        .ok [1, 161] ∧
      ([1, 161] : List Int).length ≠ 10 + 1 ∧
      ([0, 208, 245, 112, 220, 174, 205, 73, 201, 199, 93, 1, 161] : List Int).drop (13 - 11) =
        [245, 112, 220, 174, 205, 73, 201, 199, 93, 1, 161] :=
  ⟨field301, init_301, by decide!, by decide!, by decide, by decide⟩

/-! ## The Berlekamp-Massey loop on an all-zero syndrome -/

theorem index_all_zero (xs : List Int) (h : ∀ x ∈ xs, x = 0) (k : Int) (h0 : 0 ≤ k)
    (h1 : k < xs.length) : index xs k = .ok 0 := by
  unfold index
  rw [if_pos ⟨h0, h1⟩]
  congr 1
  have hk : k.toNat < xs.length := by omega
  rw [List.getD_eq_getElem xs 0 hk]
  exact h _ (List.getElem_mem hk)

/-- On an all-zero syndrome every discrepancy is zero and the locator `[1]` is never updated. -/
theorem bmLoop_all_zero (G : Tables) (synd : List Int) (h : ∀ x ∈ synd, x = 0) (ec sh : Int)
    (hsh : 0 ≤ sh) (hlen : synd.length < 9223372036854775808) :
    ∀ (n : Nat) (i : Int) (B : List Int), 0 ≤ i → i + n + sh ≤ synd.length →
      bmLoop G synd [] ec sh n i [1] B = .ok [1]
  | 0, _, _, _, _ => by rw [bmLoop]
  | n + 1, i, B, hi, hn => by
    rw [bmLoop]
    dsimp only
    rw [List.length_nil, if_neg (lt_irrefl 0), wrap64_eq (i + sh) (by omega) (by omega),
      index_all_zero synd h _ (by omega) (by push_cast at hn; omega), bind_ok,
      List.length_singleton, Nat.sub_self, deltaLoop, bind_ok, if_neg (fun h => h rfl)]
    exact bmLoop_all_zero G synd h ec sh hsh hlen n (i + 1) _ (by omega)
      (by push_cast at hn; omega)

/-- C28: for every `nsym ≥ 0` and every all-zero syndrome with `len(synd) ≥ nsym` (whatever the
tables hold), `unknownErrorLocator(synd, [], nsym, 0)` returns the locator `[1]` and a nil
error. -/
theorem unknownErrorLocator_all_zero (G : Tables) (synd : List Int) (nsym : Int)
    (hzero : ∀ x ∈ synd, x = 0) (h0 : 0 ≤ nsym) (hn : nsym ≤ synd.length)
    (hlen : synd.length < 9223372036854775808) :
    unknownErrorLocator G synd [] nsym 0 = .ok ([1], none) := by
  unfold unknownErrorLocator
  dsimp only
  rw [List.length_nil, if_neg (lt_irrefl 0), sub_zero, wrap64_eq nsym (by omega) (by omega)]
  have hloop : bmLoop G synd [] 0
      (if (synd.length : Int) > nsym then wrap64 ((synd.length : Int) - nsym) else 0)
      nsym.toNat 0 [1] [1] = .ok [1] := by
    split
    · rw [wrap64_eq _ (by omega) (by omega)]
      exact bmLoop_all_zero G synd hzero 0 _ (by omega) hlen _ 0 _ (le_refl 0) (by omega)
    · exact bmLoop_all_zero G synd hzero 0 0 (le_refl 0) hlen _ 0 _ (le_refl 0) (by omega)
  rw [hloop, bind_ok]
  have hd : ([1] : List Int).dropWhile (fun c => c == 0) = [1] := by decide
  rw [hd]
  simp only [List.length_singleton, Nat.cast_one, Nat.cast_zero, sub_self, zero_mul, zero_add]
  rw [wrap64_eq 0 (by omega) (by omega), wrap64_eq 0 (by omega) (by omega), if_neg (by omega)]
  rfl

/-- Witness of C28 on the input of `TestUnknownErrorLocatorLeadingZero`: eight zero syndromes,
`nsym = 8`, on the tables of `InitGaloisFields(301, 1)`. -/
theorem unknownErrorLocator_all_zero_witness :
    unknownErrorLocator field301 [0, 0, 0, 0, 0, 0, 0, 0] [] 8 0 = .ok ([1], none) :=
  unknownErrorLocator_all_zero field301 [0, 0, 0, 0, 0, 0, 0, 0] 8 (by decide) (by decide)
    (by decide) (by decide)

/-! ## Shape of the locators of the Berlekamp-Massey loop -/

theorem bind_eq_ok {α β : Type} {x : Except Panic α} {f : α → Except Panic β} {b : β}
    (h : (x >>= f) = .ok b) : ∃ a, x = .ok a ∧ f a = .ok b := by
  cases x with
  | error e => rw [bind_error] at h; cases h
  | ok a => exact ⟨a, rfl, h⟩

theorem gfPolynomialScale_length (G : Tables) (x : Int) : ∀ (p q : List Int),
    gfPolynomialScale G p x = .ok q → q.length = p.length
  | [], q, h => by
    unfold gfPolynomialScale at h
    rw [List.mapM_nil] at h
    cases h
    rfl
  | c :: cs, q, h => by
    unfold gfPolynomialScale at h
    rw [List.mapM_cons] at h
    obtain ⟨a, _, h⟩ := bind_eq_ok h
    obtain ⟨r, hr, h⟩ := bind_eq_ok h
    cases h
    rw [List.length_cons, List.length_cons, gfPolynomialScale_length G x cs r hr]

/-- Whatever the tables hold: when `n` iterations started from lists of total length `k + 2`
return, the locator has between `1` and `k + n + 1` coefficients. -/
theorem bmLoop_length (G : Tables) (synd : List Int) (ec sh : Int) :
    ∀ (n k : Nat) (i : Int) (C B L : List Int), C.length + B.length = k + 2 → 1 ≤ C.length →
      1 ≤ B.length → bmLoop G synd [] ec sh n i C B = .ok L →
      1 ≤ L.length ∧ L.length ≤ k + n + 1
  | 0, k, i, C, B, L, hlen, hC, hB, h => by
    rw [bmLoop] at h
    cases h
    omega
  | n + 1, k, i, C, B, L, hlen, hC, hB, h => by
    rw [bmLoop] at h
    dsimp only at h
    obtain ⟨d0, _, h⟩ := bind_eq_ok h
    obtain ⟨delta, _, h⟩ := bind_eq_ok h
    split at h
    · split at h
      · rename_i hgt
        rw [List.length_append, List.length_singleton] at hgt
        obtain ⟨newLoc, h1, h⟩ := bind_eq_ok h
        obtain ⟨inv, _, h⟩ := bind_eq_ok h
        obtain ⟨old2, h2, h⟩ := bind_eq_ok h
        obtain ⟨upd, h3, h⟩ := bind_eq_ok h
        have e1 := gfPolynomialScale_length G _ _ _ h1
        have e2 := gfPolynomialScale_length G _ _ _ h2
        have e3 := gfPolynomialScale_length G _ _ _ h3
        rw [List.length_append, List.length_singleton] at e1
        have := bmLoop_length G synd ec sh n (k + 1) _ _ _ L
          (by rw [gfPolynomialAddition_length]; omega)
          (by rw [gfPolynomialAddition_length]; omega) (by omega) h
        omega
      · rename_i hgt
        rw [List.length_append, List.length_singleton] at hgt
        obtain ⟨upd, h1, h⟩ := bind_eq_ok h
        have e1 := gfPolynomialScale_length G _ _ _ h1
        rw [List.length_append, List.length_singleton] at e1
        have := bmLoop_length G synd ec sh n (k + 1) _ _ _ L
          (by rw [gfPolynomialAddition_length, List.length_append, List.length_singleton]; omega)
          (by rw [gfPolynomialAddition_length]; omega)
          (by rw [List.length_append, List.length_singleton]; omega) h
        omega
    · have := bmLoop_length G synd ec sh n (k + 1) _ _ _ L
        (by rw [List.length_append, List.length_singleton]; omega) hC
        (by rw [List.length_append, List.length_singleton]; omega) h
      omega

theorem getD_drop_add {α : Type} (l : List α) (sh m : Nat) (d : α) :
    (l.drop sh).getD m d = l.getD (sh + m) d := by
  rw [List.getD_eq_getElem?_getD, List.getD_eq_getElem?_getD, List.getElem?_drop]

theorem bmDelta_shift {F : Type} [Field F] (C S : List F) (K sh : Nat) (hC : C.length ≤ K + 1) :
    bmDelta C S (K + sh) = bmDelta C (S.drop sh) K := by
  unfold bmDelta
  rw [getD_drop_add, add_comm sh K]
  congr 1
  apply Finset.sum_congr rfl
  intro j hj
  rw [Finset.mem_Ico] at hj
  rw [getD_drop_add]
  congr 2
  omega

/-- With a syndrome shift `sh` the loop of `unknownErrorLocator` runs the Berlekamp-Massey
loop on the syndromes after the first `sh`. -/
theorem bmLoop_shift_ok (S : List GF256) (ec : Int) (sh : Nat)
    (hS : S.length < 9223372036854775808) :
    ∀ (n i : Nat) (C B : List GF256), i + n + sh ≤ S.length →
      C.length + B.length = i + 2 → 1 ≤ C.length → 1 ≤ B.length →
      bmLoop field301 (toInts S) [] ec (sh : Int) n (i : Int) (toInts C) (toInts B) =
        .ok (toInts (bmRun (S.drop sh) n i (C, B)))
  | 0, i, C, B, _, _, _, _ => by rw [bmLoop, bmRun]
  | n + 1, i, C, B, hn, hlen, hC, hB => by
    have hstep := bmStep_length (S.drop sh) i C B hlen hC hB
    have ih := bmLoop_shift_ok S ec sh hS n (i + 1) (bmStep (S.drop sh) i (C, B)).1
      (bmStep (S.drop sh) i (C, B)).2 (by omega) hstep.1 hstep.2.1 hstep.2.2
    have e3 : (i : Int) + 1 = ((i + 1 : Nat) : Int) := by push_cast; rfl
    have e4 : (i : Int) + (sh : Int) = ((i + sh : Nat) : Int) := by push_cast; rfl
    rw [bmLoop, bmRun]
    dsimp only
    rw [List.length_nil, if_neg (lt_irrefl 0),
      wrap64_eq _ (by omega) (by omega), e4, index_toInts S (i + sh) (by omega), bind_ok,
      bmDelta_ok C S (i + sh) (by omega) hC (by omega), bind_ok,
      bmDelta_shift C S i sh (by omega), e3]
    have e0 : toInts B ++ [0] = toInts (B ++ [0]) := by rw [toInts_append]; rfl
    rw [e0]
    by_cases hd : bmDelta C (S.drop sh) i = 0
    · have hd' : ¬ (bmDelta C (S.drop sh) i).toInt ≠ 0 := by rw [hd]; exact fun h => h rfl
      rw [if_neg hd']
      have hs : bmStep (S.drop sh) i (C, B) = (C, B ++ [0]) := by
        unfold bmStep; rw [if_pos hd]
      rw [hs] at ih ⊢
      exact ih
    · have hd' : (bmDelta C (S.drop sh) i).toInt ≠ 0 := fun e => hd (GF256.toInt_eq_zero.mp e)
      rw [if_pos hd']
      simp only [toInts_length]
      by_cases hl : (B ++ [0]).length > C.length
      · rw [if_pos hl, gfPolynomialScale_ok, bind_ok, gfInverse_ok _ hd, bind_ok,
          gfPolynomialScale_ok, bind_ok, gfPolynomialScale_ok, bind_ok,
          gfPolynomialAddition_ok]
        have hs : bmStep (S.drop sh) i (C, B) =
            (addP ((B ++ [0]).map (· * bmDelta C (S.drop sh) i))
              ((C.map (· * (bmDelta C (S.drop sh) i)⁻¹)).map (· * bmDelta C (S.drop sh) i)),
              C.map (· * (bmDelta C (S.drop sh) i)⁻¹)) := by
          unfold bmStep; rw [if_neg hd, if_pos hl]
        rw [hs] at ih ⊢
        exact ih
      · rw [if_neg hl, gfPolynomialScale_ok, bind_ok, gfPolynomialAddition_ok]
        have hs : bmStep (S.drop sh) i (C, B) =
            (addP C ((B ++ [0]).map (· * bmDelta C (S.drop sh) i)), B ++ [0]) := by
          unfold bmStep; rw [if_neg hd, if_neg hl]
        rw [hs] at ih ⊢
        exact ih

theorem bmStep_cf0 {F : Type} [Field F] [DecidableEq F] (S : List F) (i : Nat) (C B : List F)
    (h0 : cf C 0 = 1) : cf (bmStep S i (C, B)).1 0 = 1 := by
  unfold bmStep
  dsimp only
  split
  · exact h0
  · rename_i hz
    split
    · rw [map_mul_inv_cancel _ _ hz, cf_addP, cf_map_mul, cf_append_zero_zero, zero_mul,
        zero_add, h0]
    · rw [cf_addP, cf_map_mul, cf_append_zero_zero, zero_mul, add_zero, h0]

/-- The Berlekamp-Massey loop keeps the constant coefficient 1 and adds at most one
coefficient per iteration. -/
theorem bmRun_shape (S : List GF256) : ∀ (n i : Nat) (C B : List GF256),
    C.length + B.length = i + 2 → 1 ≤ C.length → 1 ≤ B.length → cf C 0 = 1 →
    1 ≤ (bmRun S n i (C, B)).length ∧ (bmRun S n i (C, B)).length ≤ i + n + 1 ∧
      cf (bmRun S n i (C, B)) 0 = 1
  | 0, i, C, B, hlen, hC, hB, h0 => by
    rw [bmRun]
    dsimp only
    exact ⟨hC, by omega, h0⟩
  | n + 1, i, C, B, hlen, hC, hB, h0 => by
    have hstep := bmStep_length S i C B hlen hC hB
    have ih : 1 ≤ (bmRun S n (i + 1) (bmStep S i (C, B))).length ∧
        (bmRun S n (i + 1) (bmStep S i (C, B))).length ≤ i + 1 + n + 1 ∧
        cf (bmRun S n (i + 1) (bmStep S i (C, B))) 0 = 1 :=
      bmRun_shape S n (i + 1) _ _ hstep.1 hstep.2.1 hstep.2.2 (bmStep_cf0 S i C B h0)
    rw [bmRun]
    exact ⟨ih.1, by have := ih.2.1; omega, ih.2.2⟩

/-- The syndrome shift of `unknownErrorLocator` is `len(synd) - nsym`. -/
theorem syndShift_eq (len : Nat) (nsym : Int) (h0 : 0 ≤ nsym) (hn : nsym ≤ len)
    (hlen : len < 9223372036854775808) :
    (if (len : Int) > nsym then wrap64 ((len : Int) - nsym) else 0) =
      ((len - nsym.toNat : Nat) : Int) := by
  split
  · rw [wrap64_eq _ (by omega) (by omega)]
    omega
  · omega

/-- On the tables of prim 301 the loop of `unknownErrorLocator` returns after any number
`i ≤ nsym` of iterations on a syndrome of symbols. -/
theorem bmLoop_returns (synd : List Int) (nsym ec : Int)
    (hsym : ∀ s ∈ synd, 0 ≤ s ∧ s ≤ 255) (h0 : 0 ≤ nsym) (hn : nsym ≤ synd.length)
    (hlen : synd.length < 9223372036854775808) (i : Nat) (hi : (i : Int) ≤ nsym) :
    ∃ R : List GF256,
      bmLoop field301 synd [] ec
          (if (synd.length : Int) > nsym then wrap64 ((synd.length : Int) - nsym) else 0)
          i 0 [1] [1] = .ok (toInts R) ∧
        1 ≤ R.length ∧ R.length ≤ i + 1 ∧ cf R 0 = 1 := by
  obtain ⟨S, rfl⟩ := exists_toInts synd hsym
  rw [toInts_length] at hn hlen
  rw [toInts_length, syndShift_eq S.length nsym h0 hn hlen]
  have h1 : ([1] : List Int) = toInts [1] := rfl
  have hz : (0 : Int) = ((0 : Nat) : Int) := rfl
  have hrun := bmLoop_shift_ok S ec (S.length - nsym.toNat) hlen i 0 [1] [1] (by omega) rfl
    (le_refl _) (le_refl _)
  have hshape := bmRun_shape (S.drop (S.length - nsym.toNat)) i 0 [1] [1] rfl (le_refl _)
    (le_refl _) rfl
  rw [h1, hz, hrun]
  exact ⟨_, rfl, hshape.1, by have := hshape.2.1; omega, hshape.2.2⟩

theorem dropWhile_zero_shape : ∀ (l : List Int), l.getLast? = some 1 →
    l.dropWhile (fun c => c == 0) ≠ [] ∧ (l.dropWhile (fun c => c == 0)).head? ≠ some 0 ∧
      (l.dropWhile (fun c => c == 0)).getLast? = some 1 ∧
      (l.dropWhile (fun c => c == 0)).length ≤ l.length
  | [], h => by cases h
  | a :: t, h => by
    by_cases ha : a = 0
    · subst ha
      have hdw : (0 :: t).dropWhile (fun c => c == 0) = t.dropWhile (fun c => c == 0) := by
        rw [List.dropWhile_cons, if_pos (by decide)]
      rcases t with _ | ⟨b, t⟩
      · cases h
      · rw [List.getLast?_cons_cons] at h
        have ih := dropWhile_zero_shape (b :: t) h
        rw [hdw]
        exact ⟨ih.1, ih.2.1, ih.2.2.1, by have := ih.2.2.2; rw [List.length_cons]; omega⟩
    · have hdw : (a :: t).dropWhile (fun c => c == 0) = a :: t := by
        rw [List.dropWhile_cons, if_neg (by simpa using ha)]
      rw [hdw]
      refine ⟨List.cons_ne_nil _ _, ?_, h, le_refl _⟩
      rw [List.head?_cons]
      intro e
      exact ha (Option.some.inj e)

/-- With a negative `nsym` the loop of `unknownErrorLocator` either runs no iteration or
panics in its first iteration on the read `synd[K]`. -/
theorem bmLoop_negative_nsym (G : Tables) (synd : List Int) (nsym ec : Int) (hneg : nsym < 0)
    (hmin : -9223372036854775808 ≤ nsym) (hlen : synd.length < 9223372036854775808) (n : Nat)
    (L : List Int)
    (h : bmLoop G synd [] ec
      (if (synd.length : Int) > nsym then wrap64 ((synd.length : Int) - nsym) else 0)
      n 0 [1] [1] = .ok L) : L = [1] := by
  rcases n with _ | n
  · rw [bmLoop] at h
    cases h
    rfl
  · rw [bmLoop] at h
    dsimp only at h
    rw [List.length_nil, if_neg (lt_irrefl 0), if_pos (by omega)] at h
    have hidx : index synd (wrap64 (0 + wrap64 ((synd.length : Int) - nsym))) =
        .error .indexOutOfRange := by
      unfold index
      rw [if_neg]
      intro hk
      unfold wrap64 at hk
      omega
    rw [hidx, bind_error] at h
    cases h

/-- C29: index safety of the Berlekamp-Massey loop of `unknownErrorLocator(synd, [], nsym,
erasureCount)` for `nsym ≥ 0`, `erasureCount ≥ 0` and `len(synd) ≥ nsym`, with `sh` the
syndrome shift computed by the function.  Whatever the tables hold, the locator `L` reached
after `i < nsym - erasureCount` iterations has between 1 and `i + 1` coefficients, and every
index of iteration `i` is in range: with `K = i + sh` and `0 ≤ j < len(L)`,
`0 ≤ K - j ≤ K < len(synd)`, the read `synd[K - j]` succeeds, and the locator index
`len(L) - (j + 1)` is in range.  On the tables of `InitGaloisFields(301, fcr)` and a syndrome of
symbols the loop returns after every number of iterations and the function returns. -/
theorem unknownErrorLocator_index_safety (G : Tables) (synd : List Int) (nsym ec sh : Int)
    (h0 : 0 ≤ nsym) (hec : 0 ≤ ec) (hec2 : ec < 9223372036854775808)
    (hn : nsym ≤ synd.length) (hlen : synd.length < 9223372036854775808)
    (hsh : sh = if (synd.length : Int) > nsym then wrap64 ((synd.length : Int) - nsym) else 0) :
    (∀ (i : Nat) (L : List Int), (i : Int) < nsym - ec →
        bmLoop G synd [] ec sh i 0 [1] [1] = .ok L →
        1 ≤ L.length ∧ L.length ≤ i + 1 ∧
          ∀ j : Int, 0 ≤ j → j < L.length →
            0 ≤ wrap64 ((i : Int) + sh) - j ∧
              wrap64 ((i : Int) + sh) - j ≤ wrap64 ((i : Int) + sh) ∧
              wrap64 ((i : Int) + sh) < synd.length ∧
              index synd (wrap64 ((i : Int) + sh) - j) =
                .ok (synd.getD (wrap64 ((i : Int) + sh) - j).toNat 0) ∧
              0 ≤ (L.length : Int) - (j + 1) ∧ (L.length : Int) - (j + 1) < L.length) ∧
      (∀ fcr : Int, InitGaloisFields Tables.zero 301 fcr = .ok (G, none) →
        (∀ s ∈ synd, 0 ≤ s ∧ s ≤ 255) →
        (∀ i : Nat, (i : Int) ≤ nsym - ec → ∃ L, bmLoop G synd [] ec sh i 0 [1] [1] = .ok L) ∧
          ∃ res, unknownErrorLocator G synd [] nsym ec = .ok res) := by
  have hshN := syndShift_eq synd.length nsym h0 hn hlen
  constructor
  · intro i L hi hL
    have hl := bmLoop_length G synd ec sh i 0 0 [1] [1] L rfl (le_refl _) (le_refl _) hL
    rw [hsh, hshN]
    rw [wrap64_eq _ (by omega) (by omega)]
    refine ⟨hl.1, by omega, ?_⟩
    intro j hj0 hj
    refine ⟨by omega, by omega, by omega, ?_, by omega, by omega⟩
    unfold index
    rw [if_pos ⟨by omega, by omega⟩]
  · intro fcr hG hsym
    have hT := init_301_tables G fcr hG
    have he : G.exponents = field301.exponents := by rw [hT]
    have hl : G.logs = field301.logs := by rw [hT]
    constructor
    · intro i hi
      obtain ⟨R, hR, _⟩ := bmLoop_returns synd nsym ec hsym h0 hn hlen i (by omega)
      rw [bmLoop_tables G field301 he hl, hsh, hR]
      exact ⟨_, rfl⟩
    · obtain ⟨R, hR, _⟩ := bmLoop_returns synd nsym ec hsym h0 hn hlen (nsym - ec).toNat
        (by omega)
      rw [unknownErrorLocator_tables G field301 he hl]
      unfold unknownErrorLocator
      dsimp only
      rw [List.length_nil, if_neg (lt_irrefl 0), wrap64_eq (nsym - ec) (by omega) (by omega),
        hR, bind_ok]
      split
      · exact ⟨_, rfl⟩
      · exact ⟨_, rfl⟩

/-- Witness of C29 on the syndromes of `TestUnknownErrorLocatorWithoutEarasures`
(`nsym = 8`, shift 2): the bounds at the last iteration `i = 7`, and the function returns. -/
theorem unknownErrorLocator_index_safety_witness :
    (∀ L : List Int,
      bmLoop field301 [0, 251, 151, 100, 105, 36, 252, 184, 46, 161] [] 0 2 7 0 [1] [1] =
          .ok L →
        1 ≤ L.length ∧ L.length ≤ 7 + 1 ∧
          ∀ j : Int, 0 ≤ j → j < L.length →
            0 ≤ wrap64 (((7 : Nat) : Int) + 2) - j ∧
              wrap64 (((7 : Nat) : Int) + 2) - j ≤ wrap64 (((7 : Nat) : Int) + 2) ∧
              wrap64 (((7 : Nat) : Int) + 2) <
                ([0, 251, 151, 100, 105, 36, 252, 184, 46, 161] : List Int).length ∧
              index [0, 251, 151, 100, 105, 36, 252, 184, 46, 161]
                  (wrap64 (((7 : Nat) : Int) + 2) - j) =
                .ok (([0, 251, 151, 100, 105, 36, 252, 184, 46, 161] : List Int).getD
                  (wrap64 (((7 : Nat) : Int) + 2) - j).toNat 0) ∧
              0 ≤ (L.length : Int) - (j + 1) ∧ (L.length : Int) - (j + 1) < L.length) ∧
      ∃ res, unknownErrorLocator field301 [0, 251, 151, 100, 105, 36, 252, 184, 46, 161] [] 8 0 =
        .ok res :=
  ⟨fun L => (unknownErrorLocator_index_safety field301
      [0, 251, 151, 100, 105, 36, 252, 184, 46, 161] 8 0 2 (by decide) (by decide) (by decide)
      (by decide) (by decide) (by decide!)).1 7 L (by decide),
    ((unknownErrorLocator_index_safety field301
      [0, 251, 151, 100, 105, 36, 252, 184, 46, 161] 8 0 2 (by decide) (by decide) (by decide)
      (by decide) (by decide) (by decide!)).2 1 init_301 (by decide)).2⟩

/-- C30: after `InitGaloisFields(301, fcr)`, for a syndrome of symbols with
`len(synd) ≥ nsym` and `erasureCount ≥ 0`, whenever `unknownErrorLocator(synd, [], nsym,
erasureCount)` returns a locator and a nil error, the locator is non-empty, its first
coefficient is non-zero, its last coefficient is 1, and its degree `len - 1` is at most
`max(0, nsym - erasureCount)`. -/
theorem unknownErrorLocator_locator_shape (G : Tables) (fcr : Int)
    (hG : InitGaloisFields Tables.zero 301 fcr = .ok (G, none)) (synd : List Int)
    (nsym ec : Int) (hsym : ∀ s ∈ synd, 0 ≤ s ∧ s ≤ 255) (hn : nsym ≤ synd.length)
    (hec : 0 ≤ ec) (hmin : -9223372036854775808 ≤ nsym) (hec2 : ec < 9223372036854775808)
    (hlen : synd.length < 9223372036854775808) (L : List Int)
    (h : unknownErrorLocator G synd [] nsym ec = .ok (L, none)) :
    L ≠ [] ∧ L.head? ≠ some 0 ∧ L.getLast? = some 1 ∧
      (L.length : Int) - 1 ≤ max 0 (nsym - ec) := by
  have hT := init_301_tables G fcr hG
  have he : G.exponents = field301.exponents := by rw [hT]
  have hl : G.logs = field301.logs := by rw [hT]
  rw [unknownErrorLocator_tables G field301 he hl] at h
  unfold unknownErrorLocator at h
  dsimp only at h
  rw [List.length_nil, if_neg (lt_irrefl 0)] at h
  obtain ⟨R0, hloop, h⟩ := bind_eq_ok h
  have key : R0.getLast? = some 1 ∧ (R0.length : Int) - 1 ≤ max 0 (nsym - ec) := by
    by_cases h0 : 0 ≤ nsym
    · rw [wrap64_eq (nsym - ec) (by omega) (by omega)] at hloop
      obtain ⟨R, hR, h1, h2, h3⟩ :=
        bmLoop_returns synd nsym ec hsym h0 hn hlen (nsym - ec).toNat (by omega)
      rw [hR] at hloop
      cases hloop
      refine ⟨toInts_getLast _ (getLast_of_cf _ h3), ?_⟩
      rw [toInts_length]
      omega
    · have h1 := bmLoop_negative_nsym field301 synd nsym ec (by omega) hmin hlen _ R0 hloop
      subst h1
      exact ⟨rfl, by simp⟩
  have hshape := dropWhile_zero_shape R0 key.1
  split at h
  · cases h
  · cases h
    refine ⟨hshape.1, hshape.2.1, hshape.2.2.1, ?_⟩
    have := hshape.2.2.2
    have := key.2
    omega

/-- Witness of C30 on the input of `TestUnknownErrorLocatorWithoutEarasures`: the locator
`[54, 38, 15, 1]`. -/
theorem unknownErrorLocator_locator_shape_witness :
    unknownErrorLocator field301 [0, 251, 151, 100, 105, 36, 252, 184, 46, 161] [] 8 0 =
        .ok ([54, 38, 15, 1], none) ∧
      (([54, 38, 15, 1] : List Int) ≠ [] ∧ ([54, 38, 15, 1] : List Int).head? ≠ some 0 ∧
        ([54, 38, 15, 1] : List Int).getLast? = some 1 ∧
        ((([54, 38, 15, 1] : List Int).length : Int) - 1 ≤ max 0 (8 - 0))) :=
  ⟨by decide!, unknownErrorLocator_locator_shape field301 1 init_301
    [0, 251, 151, 100, 105, 36, 252, 184, 46, 161] 8 0 (by decide) (by decide) (by decide)
    (by decide) (by decide) (by decide) [54, 38, 15, 1] (by decide!)⟩

/-! ## Evaluation of a product -/

theorem gfPolynomialMultiplication_tables (G H : Tables) (he : G.exponents = H.exponents)
    (hl : G.logs = H.logs) (p q : List Int) :
    gfPolynomialMultiplication G p q = gfPolynomialMultiplication H p q := by
  unfold gfPolynomialMultiplication
  have hb : mulOuter G = mulOuter H := by
    funext a b c d; exact mulOuter_tables G H he hl a b c d
  rw [hb]

section EvalProduct

open Polynomial

theorem horner_id_mulP {F : Type} [Field F] (p q : List F) (hp : p ≠ []) (hq : q ≠ []) (x : F) :
    horner id x (mulP p q) 0 = horner id x p 0 * horner id x q 0 := by
  rw [horner_id_zero, horner_mulP p q hp hq, eval_mul, ← horner_id_zero, ← horner_id_zero]

end EvalProduct

/-- C31: after `InitGaloisFields(301, fcr)`, for non-empty lists `p`, `q` of symbols and every
symbol `x`, the four calls return and
`gfPolynomialEval(gfPolynomialMultiplication(p, q), x)` is
`gfMultiplication(gfPolynomialEval(p, x), gfPolynomialEval(q, x))`. -/
theorem gfPolynomialEval_mul (G : Tables) (fcr : Int)
    (hG : InitGaloisFields Tables.zero 301 fcr = .ok (G, none)) (p q : List Int) (x : Int)
    (hp : p ≠ []) (hq : q ≠ []) (hps : ∀ c ∈ p, 0 ≤ c ∧ c ≤ 255)
    (hqs : ∀ c ∈ q, 0 ≤ c ∧ c ≤ 255) (hx : 0 ≤ x ∧ x ≤ 255) :
    ∃ r v vp vq, gfPolynomialMultiplication G p q = .ok r ∧ gfPolynomialEval G r x = .ok v ∧
      gfPolynomialEval G p x = .ok vp ∧ gfPolynomialEval G q x = .ok vq ∧
      gfMultiplication G vp vq = .ok v := by
  have hT := init_301_tables G fcr hG
  have he : G.exponents = field301.exponents := by rw [hT]
  have hl : G.logs = field301.logs := by rw [hT]
  obtain ⟨P, rfl⟩ := exists_toInts p hps
  obtain ⟨Q, rfl⟩ := exists_toInts q hqs
  obtain ⟨a, rfl⟩ := GF256.exists_of_range x hx
  have hP : P ≠ [] := by
    intro h0
    rw [h0] at hp
    exact hp rfl
  have hQ : Q ≠ [] := by
    intro h0
    rw [h0] at hq
    exact hq rfl
  have hPQ : mulP P Q ≠ [] := by
    intro h0
    have h1 := mulP_length P Q
    have h2 := List.length_pos.mpr hP
    have h3 := List.length_pos.mpr hQ
    rw [h0, List.length_nil] at h1
    omega
  refine ⟨toInts (mulP P Q), (horner id a (mulP P Q) 0).toInt, (horner id a P 0).toInt,
    (horner id a Q 0).toInt, ?_, ?_, ?_, ?_, ?_⟩
  · rw [gfPolynomialMultiplication_tables G field301 he hl, gfPolynomialMultiplication_ok P Q hP]
  · rw [gfPolynomialEval_tables G field301 he hl, gfPolynomialEval_list a _ hPQ]
  · rw [gfPolynomialEval_tables G field301 he hl, gfPolynomialEval_list a _ hP]
  · rw [gfPolynomialEval_tables G field301 he hl, gfPolynomialEval_list a _ hQ]
  · rw [gfMultiplication_tables G field301 he hl, gfMultiplication_ok, horner_id_mulP P Q hP hQ]

/-- Witness of C31 on the lists of `TestGfPolynomialMultiplication` at the point `x = 3` of
`TestGfPolynomialEval`. -/
theorem gfPolynomialEval_mul_witness :
    gfPolynomialMultiplication field301 [5, 11, 156, 163] [2, 15, 252, 3] =
        .ok [10, 37, 7, 153, 10, 70, 200] ∧
      gfPolynomialEval field301 [2, 15, 252, 3] 3 = .ok 7 ∧
      ∃ r v vp vq, gfPolynomialMultiplication field301 [5, 11, 156, 163] [2, 15, 252, 3] = .ok r ∧
        gfPolynomialEval field301 r 3 = .ok v ∧
        gfPolynomialEval field301 [5, 11, 156, 163] 3 = .ok vp ∧
        gfPolynomialEval field301 [2, 15, 252, 3] 3 = .ok vq ∧
        gfMultiplication field301 vp vq = .ok v :=
  ⟨by decide!, by decide!, gfPolynomialEval_mul field301 1 init_301 [5, 11, 156, 163]
    [2, 15, 252, 3] 3 (by decide) (by decide) (by decide) (by decide) (by decide)⟩

/-! ## The doubling walk of `InitGaloisFields` for a 9-bit `prim` -/

/-- One iteration of the doubling walk: two stores, then the walk goes on from `nextWalk`. -/
theorem initLoop_succ (prim : Int) (n : Nat) (i x : Int) (ex lg : List Int) :
    initLoop prim (n + 1) i x ex lg =
      (store ex i x >>= fun ex1 => store lg x i >>= fun lg1 =>
        initLoop prim n (i + 1) (nextWalk prim x) ex1 lg1) := by
  rw [initLoop]
  rfl

set_option maxRecDepth 20000 in
theorem land_256 : ∀ a : Nat, a < 256 → ((a * 2) &&& 256 ≠ 0 ↔ 128 ≤ a) := by decide

theorem xor_high_bit (y p : Nat) (hy1 : 256 ≤ y) (hy2 : y < 512) (hp1 : 256 ≤ p)
    (hp2 : p < 512) : y ^^^ p < 256 := by
  have h := xor_div_128 y p
  have h2 : (y ^^^ p) / 256 = (y ^^^ p) / 128 / 2 := by omega
  have hy : y / 128 / 2 = 1 := by omega
  have hp : p / 128 / 2 = 1 := by omega
  rw [h, Nat.xor_div_two, hy, hp] at h2
  have h3 : (1 : Nat) ^^^ 1 = 0 := by decide
  rw [h3] at h2
  omega

/-- With bit 8 of `prim` set and no higher bit, the walk stays within `0..255`. -/
theorem nextWalk_range (prim x : Int) (hp1 : 256 ≤ prim) (hp2 : prim ≤ 511) (hx0 : 0 ≤ x)
    (hx1 : x ≤ 255) : 0 ≤ nextWalk prim x ∧ nextWalk prim x ≤ 255 := by
  obtain ⟨a, rfl⟩ : ∃ a : Nat, x = (a : Int) := ⟨x.toNat, by omega⟩
  obtain ⟨p, rfl⟩ : ∃ p : Nat, prim = (p : Int) := ⟨prim.toNat, by omega⟩
  unfold nextWalk
  dsimp only
  rw [wrap64_eq _ (by omega) (by omega)]
  have e : (a : Int) * 2 = ((a * 2 : Nat) : Int) := by push_cast; rfl
  rw [e]
  have hland : Int.land ((a * 2 : Nat) : Int) 256 = (((a * 2) &&& 256 : Nat) : Int) := rfl
  rw [hland, natCast_xor]
  by_cases h : 128 ≤ a
  · have h1 := (land_256 a (by omega)).mpr h
    rw [if_pos (by exact_mod_cast h1)]
    have h2 := xor_high_bit (a * 2) p (by omega) (by omega) (by omega) (by omega)
    omega
  · have h1 : (a * 2) &&& 256 = 0 := by
      by_contra h0
      exact h ((land_256 a (by omega)).mp h0)
    rw [h1, if_neg (fun h0 => h0 rfl)]
    omega

theorem iterate_nextWalk_range (prim : Int) (hp1 : 256 ≤ prim) (hp2 : prim ≤ 511) :
    ∀ (k : Nat) (x : Int), 0 ≤ x → x ≤ 255 →
      0 ≤ (nextWalk prim)^[k] x ∧ (nextWalk prim)^[k] x ≤ 255
  | 0, x, h0, h1 => ⟨h0, h1⟩
  | k + 1, x, h0, h1 => by
    rw [Function.iterate_succ_apply]
    have h := nextWalk_range prim x hp1 hp2 h0 h1
    exact iterate_nextWalk_range prim hp1 hp2 k _ h.1 h.2

/-- The walk of `InitGaloisFields` for a 9-bit `prim`: `n` iterations from counter `i` and
value `x` return, store the walk values at `exponents[i..i+n)` and leave the entries below
`i` as they were. -/
theorem initLoop_safe (prim : Int) (hp1 : 256 ≤ prim) (hp2 : prim ≤ 511) :
    ∀ (n i : Nat) (x : Int) (ex lg : List Int), i + n ≤ 255 → 0 ≤ x → x ≤ 255 →
      ex.length = 510 → lg.length = 256 →
      ∃ ex2 lg2, initLoop prim n (i : Int) x ex lg = .ok (ex2, lg2) ∧ ex2.length = 510 ∧
        lg2.length = 256 ∧
        (∀ j, j < n → ex2.getD (i + j) 0 = (nextWalk prim)^[j] x) ∧
        (∀ k, k < i → ex2.getD k 0 = ex.getD k 0)
  | 0, i, x, ex, lg, _, _, _, hex, hlg => by
    refine ⟨ex, lg, by rw [initLoop], hex, hlg, ?_, fun _ _ => rfl⟩
    intro j hj
    omega
  | n + 1, i, x, ex, lg, hn, hx0, hx1, hex, hlg => by
    have hs1 : store ex (i : Int) x = .ok (ex.set i x) := by
      unfold store
      rw [if_pos ⟨by omega, by omega⟩, Int.toNat_ofNat]
    have hs2 : store lg x (i : Int) = .ok (lg.set x.toNat i) := by
      unfold store
      rw [if_pos ⟨hx0, by omega⟩]
    have hr := nextWalk_range prim x hp1 hp2 hx0 hx1
    have e3 : (i : Int) + 1 = ((i + 1 : Nat) : Int) := by push_cast; rfl
    obtain ⟨ex2, lg2, hrun, h1, h2, h3, h4⟩ := initLoop_safe prim hp1 hp2 n (i + 1)
      (nextWalk prim x) (ex.set i x) (lg.set x.toNat i) (by omega) hr.1 hr.2
      (by rw [List.length_set]; exact hex) (by rw [List.length_set]; exact hlg)
    refine ⟨ex2, lg2, ?_, h1, h2, ?_, ?_⟩
    · rw [initLoop_succ, hs1, bind_ok, hs2, bind_ok, e3, hrun]
    · intro j hj
      rcases j with _ | j
      · rw [Nat.add_zero, h4 i (by omega), getD_set_eq _ _ _ _ _ (by omega), if_pos rfl]
        rfl
      · rw [Function.iterate_succ_apply, ← h3 j (by omega)]
        congr 1
        omega
    · intro k hk
      rw [h4 k (by omega), getD_set_eq _ _ _ _ _ (by omega), if_neg (by omega)]

/-- C32: for every `prim` in `[256, 511]` and every `fcr`, on package variables of the declared
sizes (`exponents [510]int`, `logs [256]int`): every value `x` of the doubling walk is in
`0..255`, so every store `logs[x] = i` is in range; `InitGaloisFields(prim, fcr)` returns nil;
afterwards `exponents[i]` is the `i`-th walk value for `i < 255`, all 510 entries are in
`0..255`, and `exponents[i + 255] = exponents[i]` for `i < 255`. -/
theorem InitGaloisFields_nine_bit_prim (s : Tables) (prim fcr : Int) (hp1 : 256 ≤ prim)
    (hp2 : prim ≤ 511) (hex : s.exponents.length = 510) (hlg : s.logs.length = 256) :
    (∀ k : Nat, 0 ≤ (nextWalk prim)^[k] 1 ∧ (nextWalk prim)^[k] 1 ≤ 255) ∧
      (∀ (k : Nat) (i : Int) (lg : List Int), lg.length = 256 →
        ∃ lg2, store lg ((nextWalk prim)^[k] 1) i = .ok lg2) ∧
      ∃ G, InitGaloisFields s prim fcr = .ok (G, none) ∧ G.exponents.length = 510 ∧
        G.logs.length = 256 ∧ G.fcr = fcr ∧
        (∀ i : Nat, i < 255 → G.exponents.getD i 0 = (nextWalk prim)^[i] 1) ∧
        (∀ i : Nat, i < 510 → 0 ≤ G.exponents.getD i 0 ∧ G.exponents.getD i 0 ≤ 255) ∧
        (∀ i : Nat, i < 255 → G.exponents.getD (i + 255) 0 = G.exponents.getD i 0) := by
  have hwalk := fun k => iterate_nextWalk_range prim hp1 hp2 k 1 (by omega) (by omega)
  refine ⟨hwalk, ?_, ?_⟩
  · intro k i lg hlen
    have h := hwalk k
    unfold store
    rw [if_pos ⟨h.1, by omega⟩]
    exact ⟨_, rfl⟩
  · obtain ⟨ex2, lg2, hrun, h1, h2, h3, _⟩ := initLoop_safe prim hp1 hp2 255 0 1 s.exponents
      s.logs (by omega) (by omega) (by omega) hex hlg
    have hlow : ∀ i : Nat, i < 255 →
        (ex2.take 255 ++ (ex2.take 255 ++ ex2.drop 510)).getD i 0 = ex2.getD i 0 := by
      intro i hi
      rw [List.getD_append _ _ _ _ (by rw [List.length_take]; omega),
        List.getD_eq_getElem?_getD, List.getD_eq_getElem?_getD, List.getElem?_take, if_pos hi]
    have hhigh : ∀ i : Nat, i < 255 →
        (ex2.take 255 ++ (ex2.take 255 ++ ex2.drop 510)).getD (i + 255) 0 = ex2.getD i 0 := by
      intro i hi
      have hl : (ex2.take 255).length = 255 := by rw [List.length_take]; omega
      rw [List.getD_append_right _ _ _ _ (by rw [hl]; omega), hl,
        List.getD_append _ _ _ _ (by rw [hl]; omega), Nat.add_sub_cancel,
        List.getD_eq_getElem?_getD, List.getD_eq_getElem?_getD, List.getElem?_take, if_pos hi]
    have hz : (0 : Int) = ((0 : Nat) : Int) := rfl
    refine ⟨⟨ex2.take 255 ++ (ex2.take 255 ++ ex2.drop 510), lg2, fcr⟩, ?_, ?_, h2, rfl, ?_,
      ?_, ?_⟩
    · unfold InitGaloisFields
      rw [hz, hrun, bind_ok]
      rfl
    · simp only [List.length_append, List.length_take, List.length_drop]
      omega
    · intro i hi
      have := h3 i hi
      rw [Nat.zero_add] at this
      rw [hlow i hi, this]
    · intro i hi
      by_cases hi2 : i < 255
      · have := h3 i hi2
        rw [Nat.zero_add] at this
        rw [hlow i hi2, this]
        exact hwalk i
      · obtain ⟨j, rfl⟩ : ∃ j, i = j + 255 := ⟨i - 255, by omega⟩
        have := h3 j (by omega)
        rw [Nat.zero_add] at this
        rw [hhigh j (by omega), this]
        exact hwalk j
    · intro i hi
      rw [hhigh i hi, hlow i hi]

/-- Witness of C32 at `prim = 285` (`0x11d`) on the package variables of program start. -/
theorem InitGaloisFields_nine_bit_prim_witness :
    ∃ G, InitGaloisFields Tables.zero 285 1 = .ok (G, none) ∧ G.exponents.length = 510 ∧
      G.logs.length = 256 ∧ G.fcr = 1 ∧
      (∀ i : Nat, i < 255 → G.exponents.getD i 0 = (nextWalk 285)^[i] 1) ∧
      (∀ i : Nat, i < 510 → 0 ≤ G.exponents.getD i 0 ∧ G.exponents.getD i 0 ≤ 255) ∧
      (∀ i : Nat, i < 255 → G.exponents.getD (i + 255) 0 = G.exponents.getD i 0) :=
  (InitGaloisFields_nine_bit_prim Tables.zero 285 1 (by decide) (by decide)
    (List.length_replicate 510 0) (List.length_replicate 256 0)).2.2

/-! ## The range of `prim` for which `InitGaloisFields` completes -/

/-- For a 9-bit `prim` with bit 8 set, on package variables of the declared sizes,
`InitGaloisFields` returns nil and leaves 510 antilog entries, all in `0..255`. -/
theorem InitGaloisFields_returns (s : Tables) (prim fcr : Int) (hp1 : 256 ≤ prim)
    (hp2 : prim ≤ 511) (hex : s.exponents.length = 510) (hlg : s.logs.length = 256) :
    ∃ G, InitGaloisFields s prim fcr = .ok (G, none) ∧ G.exponents.length = 510 ∧
      G.logs.length = 256 ∧
      ∀ i : Nat, i < 510 → 0 ≤ G.exponents.getD i 0 ∧ G.exponents.getD i 0 ≤ 255 := by
  obtain ⟨ex2, lg2, hrun, h1, h2, h3, _⟩ := initLoop_safe prim hp1 hp2 255 0 1 s.exponents
    s.logs (by omega) (by omega) (by omega) hex hlg
  have hl : (ex2.take 255).length = 255 := by rw [List.length_take]; omega
  have hz : (0 : Int) = ((0 : Nat) : Int) := rfl
  have hentry : ∀ j : Nat, j < 255 → 0 ≤ ex2.getD j 0 ∧ ex2.getD j 0 ≤ 255 := by
    intro j hj
    have := h3 j hj
    rw [Nat.zero_add] at this
    rw [this]
    exact iterate_nextWalk_range prim hp1 hp2 j 1 (by omega) (by omega)
  have htake : ∀ j : Nat, j < 255 → (ex2.take 255).getD j 0 = ex2.getD j 0 := by
    intro j hj
    rw [List.getD_eq_getElem?_getD, List.getD_eq_getElem?_getD, List.getElem?_take, if_pos hj]
  refine ⟨⟨ex2.take 255 ++ (ex2.take 255 ++ ex2.drop 510), lg2, fcr⟩, ?_, ?_, h2, ?_⟩
  · unfold InitGaloisFields
    rw [hz, hrun, bind_ok]
    rfl
  · simp only [List.length_append, List.length_take, List.length_drop]
    omega
  · intro i hi
    by_cases hi2 : i < 255
    · rw [List.getD_append _ _ _ _ (by rw [hl]; exact hi2), htake i hi2]
      exact hentry i hi2
    · rw [List.getD_append_right _ _ _ _ (by rw [hl]; omega), hl,
        List.getD_append _ _ _ _ (by rw [hl]; omega), htake _ (by omega)]
      exact hentry _ (by omega)

/-- C17 (amended): the values of `prim` for which `InitGaloisFields(prim, fcr)` completes are
the 9-bit values with bit 8 set, not the values in `[0, 255]`.  For every `prim` in
`[256, 511]` and every `fcr`, on package variables of the declared sizes, the call completes
without an out-of-range table access (it returns nil) and every entry of the antilog table
`exponents` is a field value in `0..255`.  For every `prim` in `[0, 255]` and every `fcr` the
call at program start aborts with an index out of range. -/
theorem InitGaloisFields_prim_contract (prim fcr : Int) :
    (256 ≤ prim → prim ≤ 511 → ∀ s : Tables, s.exponents.length = 510 →
      s.logs.length = 256 →
      ∃ G, InitGaloisFields s prim fcr = .ok (G, none) ∧ G.exponents.length = 510 ∧
        G.logs.length = 256 ∧
        ∀ i : Nat, i < 510 → 0 ≤ G.exponents.getD i 0 ∧ G.exponents.getD i 0 ≤ 255) ∧
      (0 ≤ prim → prim ≤ 255 →
        InitGaloisFields Tables.zero prim fcr = .error .indexOutOfRange) := by
  constructor
  · intro hp1 hp2 s hex hlg
    exact InitGaloisFields_returns s prim fcr hp1 hp2 hex hlg
  · intro hp1 hp2
    obtain ⟨p, rfl⟩ : ∃ p : Nat, prim = (p : Int) := ⟨prim.toNat, by omega⟩
    exact InitGaloisFields_small_prim_panics p (by omega) fcr

/-- Witness of C17 (amended): `prim = 301`, the value the tests initialise with, completes at
program start with all 510 entries in `0..255`; `prim = 255` aborts. -/
theorem InitGaloisFields_prim_contract_witness :
    (∃ G, InitGaloisFields Tables.zero 301 1 = .ok (G, none) ∧ G.exponents.length = 510 ∧
        G.logs.length = 256 ∧
        ∀ i : Nat, i < 510 → 0 ≤ G.exponents.getD i 0 ∧ G.exponents.getD i 0 ≤ 255) ∧
      InitGaloisFields Tables.zero 255 1 = .error .indexOutOfRange :=
  ⟨(InitGaloisFields_prim_contract 301 1).1 (by decide) (by decide) Tables.zero
      (List.length_replicate 510 0) (List.length_replicate 256 0),
    (InitGaloisFields_prim_contract 255 1).2 (by decide) (by decide)⟩

end ReedSolomon
